import Mathlib

/-!
Verification development for the archetype-based ECS core (v2 code path).

The definitions below are a shallow embedding of the TypeScript sources:

* `table.ts` (src/unnamed/part_015): `Table`, `Table.prototype.move`,
  `swapRemove`, `createTable`;
* `entity.ts` (src/unnamed/part_018): `Entity`, `EntityState`, `Entities`
  (`spawn`, `insert`, `insertTag`, `remove`, `despawn`, `flush`, `has`);
* `ecs.ts` (packages/ecs/src/v2): `World.getComponentId`, `World.getArchetype`,
  `World.getComponentsForArchetype`, `World.getTable`, `World.tables`;
* `query.ts` (packages/ecs/src/v2): `Query._testArchetype`, `Query.get`,
  query construction/iteration and the filter algebra
  (`With`/`Without`/`And`/`Or`);
* `schedule.ts` (packages/ecs/src/v2): `Schedule.run`;
* `event-bus.ts` (packages/ecs/src/utils): `EventBus`.

JavaScript particulars that matter here and how they are embedded:

* JS `bigint` archetypes are non-negative in every reachable use, so they are
  embedded as `Nat`; the one complement operation, `current & ~mask`, is
  embedded as `Nat.ldiff current mask`, which has the same bits.
* JS arrays are embedded as `List (Option Value)`, `none` standing for a hole
  or an `undefined` element.  Reading a negative or past-the-end index gives
  `undefined`; writing past the end extends the array with holes.  Writing at
  a negative index stores a non-index property on the array object, which the
  column code never reads back through a column observation, so such writes
  are dropped by the embedding.
* Object identity of tables is slot identity in the world's `tables` array,
  so `this === targetTable` is embedded as equality of table indices.
* JS `Map` is an insertion-ordered association list whose `set` overwrites
  the value of an existing key in place.
-/

/-- A component type: JS class identity.  `key` is the identity of the class
object; `zst` mirrors the static `IS_ZST` marker read by `isSizedComponent`.
The `Entity` class itself is `EntityC` below. -/
structure Cls where
  key : Nat
  zst : Bool
deriving DecidableEq, Repr

/-- The `Entity` component class (`componentId = 0` in every world). -/
def EntityC : Cls := ⟨0, false⟩

/-- `isSizedComponent(item) = !item.IS_ZST`. -/
def isSizedComponent (c : Cls) : Bool := !c.zst

/-- A component instance stored in a column.  An `Entity` handle is identified
by its entity id; any other instance carries its class and a payload
distinguishing instances of the same class. -/
inductive Value where
  | ent (eid : Nat)
  | comp (cls : Cls) (payload : Nat)
deriving DecidableEq, Repr

/-- `value.constructor`: the class of an instance. -/
def Value.ctor : Value → Cls
  | .ent _ => EntityC
  | .comp c _ => c

/-- A JS array cell read `a[i]` for an integer index: negative or past-the-end
reads give `undefined`, as does a hole. -/
def jsRead (a : List (Option Value)) (i : Int) : Option Value :=
  if i < 0 then none else (a.get? i.toNat).join

/-- A JS array cell write `a[i] = v` (with `v` not `undefined`): in-range
writes replace the cell, past-the-end writes extend the array with holes, and
negative writes store a non-index property (invisible to the columns, hence
dropped). -/
def jsWrite (a : List (Option Value)) (i : Int) (v : Value) : List (Option Value) :=
  if i < 0 then a
  else if i.toNat < a.length then a.set i.toNat (some v)
  else a ++ List.replicate (i.toNat - a.length) none ++ [some v]

/-- `swapRemove(array, index)` from `table.ts`:
`temp = array[index]; last = array[array.length-1];
if (last !== undefined) array[index] = last; array.pop(); return temp`.
Returns the returned element and the mutated array. -/
def swapRemove (array : List (Option Value)) (index : Int) :
    Option Value × List (Option Value) :=
  (jsRead array index,
    (match jsRead array ((array.length : Int) - 1) with
      | some v => jsWrite array index v
      | none => array).dropLast)

/-- `Table` from `table.ts`: `_components` is the sized-filtered component
list, `_columns` has one (initially empty) array per *unfiltered* component.
`compsT` embeds `_components`; `columns` embeds `_columns`. -/
structure Table where
  tid : Nat
  archetype : Nat
  compsT : List Cls
  columns : List (List (Option Value))
deriving DecidableEq, Repr

/-- Table default used where JS would crash on a missing table (`tables[id]!`);
all reachable states keep indices in range (proved below). -/
instance : Inhabited Table := ⟨⟨0, 0, [], []⟩⟩

/-- The `Table` constructor.  The incoming component list may contain
`undefined` entries (the decoder emits them for unregistered bits); the JS
constructor would then throw inside `isSizedComponent`, and every reachable
construction passes only present classes, so the filter is embedded over the
present entries.  `_columns = components.map(() => [])` counts every entry. -/
def mkTable (tableId archetype : Nat) (components : List (Option Cls)) : Table :=
  { tid := tableId
    archetype := archetype
    compsT := components.reduceOption.filter isSizedComponent
    columns := components.map (fun _ => []) }

/-- `createTable()` with no arguments: the sentinel table
(`new Table({components: [], archetype: 0n, id: 0})`). -/
def createTable : Table := mkTable 0 0 []

/-- `this._components.indexOf(componentType)` composed with the `_columns`
lookup: `some j` when a real column array exists at that index. -/
def Table.getColumnIdx (t : Table) (c : Cls) : Option Nat :=
  if c ∈ t.compsT then
    let j := t.compsT.indexOf c
    if j < t.columns.length then some j else none
  else none

/-- `table.getColumn(componentType)`: the column array, or `undefined`. -/
def Table.getColumn (t : Table) (c : Cls) : Option (List (Option Value)) :=
  (t.getColumnIdx c).bind (fun j => t.columns.get? j)

/-- `table.hasColumn(componentType) = this._components.includes(componentType)`. -/
def Table.hasColumn (t : Table) (c : Cls) : Bool := t.compsT.contains c

/-- `table.length = this._columns[0]?.length ?? 0`. -/
def Table.length (t : Table) : Nat :=
  match t.columns.get? 0 with
  | some col => col.length
  | none => 0

/-- `targetTable.getColumn(componentType)?.push(component)`: pushes into the
column when it exists, otherwise a no-op (optional chaining). -/
def Table.pushColumn (t : Table) (c : Cls) (v : Value) : Table :=
  match t.getColumnIdx c with
  | some j => { t with columns := t.columns.set j ((t.columns.getD j []) ++ [some v]) }
  | none => t

/-- Association-list embedding of a JS `Map` keyed by `Nat`. -/
def lookupMap {α : Type} (m : List (Nat × α)) (k : Nat) : Option α :=
  (m.find? (fun p => p.1 = k)).map (·.2)

/-- JS `Map.set`: overwrite in place when the key exists, else append. -/
def mapSet {α : Type} (m : List (Nat × α)) (k : Nat) (v : α) : List (Nat × α) :=
  if m.any (fun p => p.1 = k) then
    m.map (fun p => if p.1 = k then (k, v) else p)
  else m ++ [(k, v)]

/-- An entity location `{tableId, tableRow}`. -/
structure Loc where
  tableId : Nat
  tableRow : Nat
deriving DecidableEq, Repr

instance : Inhabited Loc := ⟨⟨0, 0⟩⟩

/-- Accumulator for the first loop of `Table.prototype.move`: the rewritten
source columns (in order), the `finalComponents` map (keyed by class), and the
back-fill location fix-ups `(entityId, row)` performed via `setLocation`. -/
structure MoveAcc where
  cols : List (List (Option Value))
  final : List (Cls × Value)
  fixups : List (Nat × Nat)

/-- `finalComponents.set(componentType, value)`: a JS `Map` keyed by class
identity — overwrite in place when present, else append. -/
def mapSetC (m : List (Cls × Value)) (k : Cls) (v : Value) : List (Cls × Value) :=
  if m.any (fun p => p.1 = k) then
    m.map (fun p => if p.1 = k then (k, v) else p)
  else m ++ [(k, v)]

/-- One iteration of the first loop of `move` over `(componentType, column)`:
`removed = swapRemove(column, row); if (!removed) continue;` then the
Entity-column back-fill fix-up, then staging into `finalComponents` when the
target has the column.  The back-fill reads `column[row]` from the already
mutated column; calling `setLocation` on a non-`Entity` value would throw in
JS and cannot happen on a typed entity column. -/
def moveStep1 (tgt : Table) (row : Int) (acc : MoveAcc) (p : Cls × List (Option Value)) :
    MoveAcc :=
  let (c, col) := p
  let (removed, col') := swapRemove col row
  match removed with
  | none => { acc with cols := acc.cols ++ [col'] }
  | some v =>
      let fix' :=
        if c = EntityC then
          match jsRead col' row with
          | some (.ent e) => acc.fixups ++ [(e, row.toNat)]
          | _ => acc.fixups
        else acc.fixups
      let final' := if tgt.hasColumn c then mapSetC acc.final c v else acc.final
      { cols := acc.cols ++ [col'], final := final', fixups := fix' }

/-- Result of `Table.prototype.move` on the world's table array: the updated
tables, the returned `{tableId, tableRow}`, and the back-fill fix-ups. -/
structure MoveOut where
  tables : List Table
  retTableId : Nat
  retRow : Int
  fixups : List (Nat × Nat)

/-- `Table.prototype.move({row, targetTable, components})` from `table.ts`,
acting on the world's `tables` array; `srcIdx`/`tgtIdx` are the slots of
`this` and `targetTable`, so `this === targetTable` is `srcIdx = tgtIdx`.

Same table: each component with a column present overwrites `column[row]`.
Different tables: loop `swapRemove` over the source's sized columns with the
Entity back-fill fix-up, stage removed values the target has columns for,
overwrite/extend with `components`, then push the staged values. -/
def moveTables (tables : List Table) (srcIdx tgtIdx : Nat) (row : Int)
    (components : List Value) : MoveOut :=
  if srcIdx = tgtIdx then
    let src := tables.getD srcIdx default
    let src' := components.foldl (fun t v =>
      match t.getColumnIdx v.ctor with
      | some j => { t with columns := t.columns.set j (jsWrite (t.columns.getD j []) row v) }
      | none => t) src
    { tables := tables.set srcIdx src'
      retTableId := src'.tid
      retRow := row
      fixups := [] }
  else
    let src := tables.getD srcIdx default
    let tgt := tables.getD tgtIdx default
    let newRow : Nat := match tgt.getColumn EntityC with
      | some col => col.length
      | none => 0
    let acc := (src.compsT.zip src.columns).foldl (moveStep1 tgt row)
      { cols := [], final := [], fixups := [] }
    let src' := { src with columns := acc.cols ++ src.columns.drop src.compsT.length }
    let final' := components.foldl (fun m v =>
      if tgt.hasColumn v.ctor then mapSetC m v.ctor v else m) acc.final
    let tgt' := final'.foldl (fun t kv => t.pushColumn kv.1 kv.2) tgt
    let tables' := (tables.set srcIdx src').set tgtIdx tgt'
    { tables := tables'
      retTableId := tgt.tid
      retRow := (newRow : Int)
      fixups := acc.fixups }

/-- World + entity-manager state: `World.components` (the type registry),
`World.tables`, `World._archetypeToTable` (table identified by its slot),
and the `EntityState` of `entity.ts` (`nextId`, `pending`, `destinations`)
together with every handle's mutable `location` (keyed by entity id; a
handle's location starts at `{tableId: 0, tableRow: 0}`). -/
structure WorldState where
  components : List Cls
  tables : List Table
  archToTable : List (Nat × Nat)
  nextId : Nat
  pending : List (Nat × List Value)
  dests : List (Nat × Nat)
  locs : Nat → Loc

/-- The freshly constructed world: registry `[Entity]`, tables
`[createTable()]`, archetype map `{0n ↦ sentinel}`, no entities. -/
def initWorld : WorldState :=
  { components := [EntityC]
    tables := [createTable]
    archToTable := [(0, 0)]
    nextId := 0
    pending := []
    dests := []
    locs := fun _ => ⟨0, 0⟩ }

/-- `World.getComponentId(componentType)`: the index in `components`,
appending the type on first reference. -/
def getComponentIdW (s : WorldState) (c : Cls) : Nat × WorldState :=
  match s.components.indexOf? c with
  | some i => (i, s)
  | none => (s.components.length, { s with components := s.components ++ [c] })

/-- One step of the archetype accumulation: OR in
`1n << getComponentId(componentType)`, threading the registry. -/
def archFold (p : Nat × WorldState) (c : Cls) : Nat × WorldState :=
  let (i, s') := getComponentIdW p.2 c
  (p.1 ||| (1 <<< i), s')

/-- `World.getArchetype(...componentTypes)`: `1n` OR-ed with
`1n << getComponentId(t)` for each type, threading the registry. -/
def getArchetypeW (s : WorldState) (cs : List Cls) : Nat × WorldState :=
  cs.foldl archFold (1, s)

/-- The bit walk of `World.getComponentsForArchetype`: while `temp ≠ 0`, emit
`components[i]` (which is `undefined` when the registry is shorter) for each
set bit, LSB to MSB. -/
def decodeBitsAux (comps : List Cls) : Nat → Nat → Nat → List (Option Cls)
  | 0, _, _ => []
  | fuel + 1, temp, i =>
      if temp = 0 then []
      else (if temp % 2 = 1 then [comps.get? i] else [])
        ++ decodeBitsAux comps fuel (temp / 2) (i + 1)

def decodeBits (comps : List Cls) (temp : Nat) (i : Nat) : List (Option Cls) :=
  decodeBitsAux comps temp temp i

/-- `World.getComponentsForArchetype(archetype)`. -/
def getComponentsForArchetype (s : WorldState) (archetype : Nat) : List (Option Cls) :=
  decodeBits s.components archetype 0

/-- `World.getTable(archetype)`: the mapped table's slot, or construct a new
`Table` at slot `tables.length` (its `id`), register it and return it. -/
def getTableW (s : WorldState) (archetype : Nat) : Nat × WorldState :=
  match lookupMap s.archToTable archetype with
  | some t => (t, s)
  | none =>
      let t := mkTable s.tables.length archetype (getComponentsForArchetype s archetype)
      (s.tables.length,
        { s with tables := s.tables ++ [t]
                 archToTable := s.archToTable ++ [(archetype, s.tables.length)] })

/-- `Entities.getTableArchetype(entity)`: the archetype of the entity's
current table (`DEV_ASSERT`s the table exists; out-of-range is unreachable in
every state considered below). -/
def getTableArchetype (s : WorldState) (eid : Nat) : Nat :=
  (s.tables.getD (s.locs eid).tableId default).archetype

/-- `Entities.getEntityArchetype(entity)`: the staged destination if any,
else the current table's archetype. -/
def getEntityArchetype (s : WorldState) (eid : Nat) : Nat :=
  match lookupMap s.dests eid with
  | some d => d
  | none => getTableArchetype s eid

/-- `Entities.spawn(components)`: allocate an id, stage destination
`SPAWNED = 1n`, OR in each component's bit (registering types), stage
`pending = [entity, ...components]`, return the handle. -/
def spawnW (s : WorldState) (components : List Value) : Nat × WorldState :=
  let eid := s.nextId
  let s₁ := { s with nextId := s.nextId + 1, dests := mapSet s.dests eid 1 }
  let p := components.foldl (fun p v => archFold p v.ctor)
    (getEntityArchetype s₁ eid, s₁)
  let s₂ := { p.2 with dests := mapSet p.2.dests eid p.1 }
  (eid, { s₂ with pending := mapSet s₂.pending eid (.ent eid :: components) })

/-- `Entities.insertTag(entity, component)`: OR the component's bit into the
staged-or-current archetype. -/
def insertTagW (s : WorldState) (eid : Nat) (c : Cls) : WorldState :=
  let cur := getEntityArchetype s eid
  let (i, s') := getComponentIdW s c
  { s' with dests := mapSet s'.dests eid (cur ||| (1 <<< i)) }

/-- `Entities.insert(entity, instance)`: `insertTag` with the instance's
class, then replace the pending value of the same class in place or append. -/
def insertW (s : WorldState) (eid : Nat) (v : Value) : WorldState :=
  let s₁ := insertTagW s eid v.ctor
  let components := (lookupMap s₁.pending eid).getD []
  let components' :=
    if components.any (fun c => c.ctor = v.ctor) then
      components.map (fun c => if c.ctor = v.ctor then v else c)
    else components ++ [v]
  { s₁ with pending := mapSet s₁.pending eid components' }

/-- `Entities.remove(entity, component)`: AND the staged-or-current archetype
with the complement of the component's bit (`current & ~mask`). -/
def removeW (s : WorldState) (eid : Nat) (c : Cls) : WorldState :=
  let cur := getEntityArchetype s eid
  let (i, s') := getComponentIdW s c
  { s' with dests := mapSet s'.dests eid (Nat.ldiff cur (1 <<< i)) }

/-- `Entities.despawn(entity)`: stage destination `DESPAWNED = 0n` and, when a
pending payload exists, truncate it (`length = 0`). -/
def despawnW (s : WorldState) (eid : Nat) : WorldState :=
  let s₁ := { s with dests := mapSet s.dests eid 0 }
  match lookupMap s₁.pending eid with
  | some _ => { s₁ with pending := mapSet s₁.pending eid [] }
  | none => s₁

/-- `entity.setLocation({tableRow: row})` back-fill fix-ups performed inside
`move` (partial update: `tableId` is kept). -/
def applyFixups (locs : Nat → Loc) (fixups : List (Nat × Nat)) : Nat → Loc :=
  fixups.foldl (fun L p => fun e =>
    if e = p.1 then ⟨(L p.1).tableId, p.2⟩ else L e) locs

/-- One iteration of `Entities.flush()` for a staged `(entity, archetype)`:
resolve the pending payload and current location, acquire the target table,
`sourceTable.move(...)`, apply the back-fill `setLocation`s, then
`entity.setLocation(location)` with the returned location. -/
def flushStep (s : WorldState) (ed : Nat × Nat) : WorldState :=
  let eid := ed.1
  let components := (lookupMap s.pending eid).getD []
  let l := s.locs eid
  let (tgtIdx, s₁) := getTableW s ed.2
  let out := moveTables s₁.tables l.tableId tgtIdx (l.tableRow : Int) components
  let locs₁ := applyFixups s₁.locs out.fixups
  let locs₂ := fun e => if e = eid then ⟨out.retTableId, out.retRow.toNat⟩ else locs₁ e
  { s₁ with tables := out.tables, locs := locs₂ }

/-- `Entities.flush()`: iterate the staged destinations in insertion order,
move each entity, then clear `destinations` and `pending`. -/
def flushW (s : WorldState) : WorldState :=
  let s' := s.dests.foldl flushStep s
  { s' with dests := [], pending := [] }

/-- `Entities.has(entity, component)`: test the component's bit in the
*current* table's archetype (`getComponentId` may register the type). -/
def hasW (s : WorldState) (eid : Nat) (c : Cls) : Bool × WorldState :=
  let cur := getTableArchetype s eid
  let (i, s') := getComponentIdW s c
  (cur &&& (1 <<< i) ≠ 0, s')

/-- The structural-mutation API exercised by the claims. -/
inductive Op where
  | spawn (components : List Value)
  | insert (eid : Nat) (v : Value)
  | remove (eid : Nat) (c : Cls)
  | despawn (eid : Nat)
  | flush
deriving DecidableEq, Repr

/-- Apply one API call. -/
def applyOp (s : WorldState) : Op → WorldState
  | .spawn components => (spawnW s components).2
  | .insert eid v => insertW s eid v
  | .remove eid c => removeW s eid c
  | .despawn eid => despawnW s eid
  | .flush => flushW s

/-- Apply a sequence of API calls. -/
def applyOps (s : WorldState) (ops : List Op) : WorldState :=
  ops.foldl applyOp s

/-- Well-formed use of one API call in a state: `insert`/`remove` address an
existing handle that is not despawned (its staged-or-current archetype still
has the Entity bit), inserted values are proper component instances (not
`Entity` handles, whose insertion the sibling `ecs.ts` draft guards with a
`DEV_ASSERT`), and the `Entity` type itself is never removed. -/
def wfOp (s : WorldState) : Op → Bool
  | .spawn components => components.all (fun v =>
      match v with
      | .ent _ => false
      | .comp c _ => c ≠ EntityC)
  | .insert eid v =>
      decide (eid < s.nextId) && (getEntityArchetype s eid) % 2 == 1 &&
      (match v with
       | .ent _ => false
       | .comp c _ => decide (c ≠ EntityC))
  | .remove eid c =>
      decide (eid < s.nextId) && (getEntityArchetype s eid) % 2 == 1 &&
      decide (c ≠ EntityC)
  | .despawn eid => decide (eid < s.nextId)
  | .flush => true

/-- Well-formed sequence of API calls from a state. -/
def wfOps (s : WorldState) : List Op → Bool
  | [] => true
  | op :: rest => wfOp s op && wfOps (applyOp s op) rest

/-- The filter algebra of `query.ts`: the base `Filter` class (identity),
`With`, `Without`, `And`, `Or`. -/
inductive FilterExpr where
  | baseF
  | withF (types : List Cls)
  | withoutF (types : List Cls)
  | andF (children : List FilterExpr)
  | orF (children : List FilterExpr)

mutual
/-- `filter.execute(current)` threading the world registry:
base returns `current`; `With` ORs `getArchetype(children)` into the even
slots; `Without` ORs `getArchetype(children) ^ 1n` into the odd slots;
`And` folds; `Or` flat-maps over the same `current`.  The JS `map` callback
recomputes `getArchetype` per element; after its first evaluation the
registry is unchanged, so it is evaluated once here (the difference is only
observable for an empty `current`, which no reachable query produces). -/
def executeF (s : WorldState) (f : FilterExpr) (current : List Nat) :
    List Nat × WorldState :=
  match f with
  | .baseF => (current, s)
  | .withF ts =>
      let (a, s') := getArchetypeW s ts
      ((current.enum.map fun p => if p.1 % 2 = 0 then p.2 ||| a else p.2), s')
  | .withoutF ts =>
      let (a, s') := getArchetypeW s ts
      ((current.enum.map fun p => if p.1 % 2 = 1 then p.2 ||| (a ^^^ 1) else p.2), s')
  | .andF cs => executeAnd s cs current
  | .orF cs => executeOr s cs current

/-- `children.reduce((acc, filter) => filter.execute(acc), current)`. -/
def executeAnd (s : WorldState) (cs : List FilterExpr) (current : List Nat) :
    List Nat × WorldState :=
  match cs with
  | [] => (current, s)
  | c :: rest =>
      let (cur', s') := executeF s c current
      executeAnd s' rest cur'

/-- `children.flatMap((filter) => filter.execute(current))`. -/
def executeOr (s : WorldState) (cs : List FilterExpr) (current : List Nat) :
    List Nat × WorldState :=
  match cs with
  | [] => ([], s)
  | c :: rest =>
      let (r, s') := executeF s c current
      let (r', s'') := executeOr s' rest current
      (r ++ r', s'')
end

/-- `Query.prototype._testArchetype(archetype)`: some `(require, forbid)`
pair at positions `(2i, 2i+1)` of the flat filter list satisfies
`(require & archetype) == require && (forbid & archetype) == 0`.  The source
loop reads pairs; a trailing unpaired element (never produced by the filter
algebra) would make JS read `undefined` and throw. -/
def testArchetype (filters : List Nat) (archetype : Nat) : Bool :=
  match filters with
  | w :: wo :: rest =>
      ((w &&& archetype) == w && (wo &&& archetype) == 0) || testArchetype rest archetype
  | _ => false

/-- A query accessor: a component class or `Maybe(type)`. -/
inductive Accessor where
  | plain (c : Cls)
  | maybe (c : Cls)
deriving DecidableEq, Repr

/-- `Maybe.isMaybe(x) ? x.type : x`. -/
def Accessor.cls : Accessor → Cls
  | .plain c => c
  | .maybe c => c

/-- A column reference held in a query's flat `_columns` view: a live alias of
`tables[tableIdx]._columns[colIdx]`, the shared `EMPTY_COLUMN`, or the
`undefined` produced by `getColumn` on an absent column (only reachable for a
matching table with no Entity column, which no reachable world contains). -/
inductive ColRef where
  | live (tableIdx colIdx : Nat)
  | emptyCol
  | missing
deriving DecidableEq, Repr

/-- The compiled query: flat `(require, forbid)` filter list, stripped
accessor classes, the single-accessor flag and the flat column view. -/
structure Query where
  filters : List Nat
  componentsQ : List Cls
  isIndividual : Bool
  columnsQ : List ColRef
deriving DecidableEq, Repr

/-- `Query.prototype.matchTable(table)`: when `_testArchetype(t.archetype)`,
push the Entity column then, per accessor class, the table's column or the
shared `EMPTY_COLUMN`. -/
def matchTable (tables : List Table) (q : Query) (i : Nat) : Query :=
  let t := tables.getD i default
  if testArchetype q.filters t.archetype then
    let entityRef := match t.getColumnIdx EntityC with
      | some j => ColRef.live i j
      | none => ColRef.missing
    let compRefs := q.componentsQ.map fun c =>
      if t.hasColumn c then
        match t.getColumnIdx c with
        | some j => ColRef.live i j
        | none => ColRef.missing
      else ColRef.emptyCol
    { q with columnsQ := q.columnsQ ++ [entityRef] ++ compRefs }
  else q

/-- The `Query` constructor of `query.ts`: strip `Maybe`s, compute the initial
require mask from the non-`Maybe` accessors, run the filter tree on
`[initial, 0n]`, then `matchTable` every existing table. -/
def mkQuery (s : WorldState) (accessors : List Accessor) (isIndividual : Bool)
    (filter : Option FilterExpr) : Query × WorldState :=
  let componentsQ := accessors.map Accessor.cls
  let required := (accessors.filter fun a =>
    match a with | .plain _ => true | .maybe _ => false).map Accessor.cls
  let (initial, s₁) := getArchetypeW s required
  let (filters, s₂) := match filter with
    | some f => executeF s₁ f [initial, 0]
    | none => ([initial, 0], s₁)
  let q₀ : Query := { filters := filters, componentsQ := componentsQ
                      isIndividual := isIndividual, columnsQ := [] }
  ((List.range s₂.tables.length).foldl (matchTable s₂.tables) q₀, s₂)

/-- Dereference a column reference against the world's tables. -/
def derefCol (tables : List Table) : ColRef → List (Option Value)
  | .live t j => (tables.getD t default).columns.getD j []
  | .emptyCol => []
  | .missing => []

/-- One group of the query iterator: for each row of the group's Entity
column, read `elements[offset] = columns[group+offset+1][row]` and yield
`elements` (or `elements[0]` for a single accessor). -/
def iterGroup (tables : List Table) (entityCol : List (Option Value))
    (compCols : List ColRef) : List (List (Option Value)) :=
  (List.range entityCol.length).map fun row =>
    compCols.map fun r => jsRead (derefCol tables r) (row : Int)

/-- The query iterator `[Symbol.iterator]`: walk `_columns` in groups of
`accessors + 1`, iterating each group's Entity-column length.  Each yield is
the list of accessor values (the JS iterator reuses one `elements` array;
the values observed at each yield are embedded). -/
def queryRows (tables : List Table) (q : Query) : List (List (Option Value)) :=
  let span := q.componentsQ.length + 1
  ((List.range ((q.columnsQ.length + span - 1) / span)).map fun g =>
    let group := q.columnsQ.drop (g * span)
    let entityCol := derefCol tables (group.headD ColRef.emptyCol)
    iterGroup tables entityCol ((group.drop 1).take q.componentsQ.length)).flatten

/-- `query.length`: sum of the lengths of the group-leading Entity columns. -/
def queryLength (tables : List Table) (q : Query) : Nat :=
  let span := q.componentsQ.length + 1
  ((List.range ((q.columnsQ.length + span - 1) / span)).map fun g =>
    (derefCol tables ((q.columnsQ.drop (g * span)).headD ColRef.emptyCol)).length).sum

/-- The result of `Query.prototype.get(entity)`.  `jsNull` is the JS `null`
the source returns on a filter mismatch; `jsUndefined` is the distinct JS
value `undefined`, which `get` never returns; `crash` marks the `TypeError`
of indexing the `undefined` returned by `getColumn` for an absent column. -/
inductive GetResult where
  | values (vs : List (Option Value))
  | jsNull
  | jsUndefined
  | crash
deriving DecidableEq, Repr

/-- `Query.prototype.get(entity)`: look up the entity's current table, return
`null` unless `_testArchetype(table.archetype)`, else read
`table.getColumn(component)[tableRow]` per accessor class. -/
def queryGet (s : WorldState) (q : Query) (eid : Nat) : GetResult :=
  let l := s.locs eid
  let t := s.tables.getD l.tableId default
  if testArchetype q.filters t.archetype then
    let reads := q.componentsQ.map fun c =>
      match t.getColumn c with
      | some col => some (jsRead col (l.tableRow : Int))
      | none => none
    if reads.all (·.isSome) then .values (reads.map (·.getD none)) else .crash
  else .jsNull

/-- A system as run by `Schedule.run`: applied to its pre-resolved argument
list and the shared mutable state, it returns the state after its side
effects together with `some err` when it threw or rejected (the state then
reflects the effects performed before the throw). -/
def Sys (σ : Type) : Type := List Nat → σ → σ × Option Nat

/-- `Schedule.run()`: `for i: await systems[i](...(args[i] ?? []))`, in
registration order; an error from a system aborts the loop and `run` rejects
with that same error, keeping all effects performed so far. -/
def runSchedule {σ : Type} (systems : List (Sys σ)) (args : List (List Nat))
    (st : σ) : σ × Option Nat :=
  match systems with
  | [] => (st, none)
  | sys :: rest =>
      let (st', err) := sys (args.headD []) st
      match err with
      | some e => (st', some e)
      | none => runSchedule rest (args.drop 1) st'

/-- One `EventBus` subscriber `{callback, priority}`; callbacks are compared
by identity, embedded as a number.  Priorities are JS numbers compared by the
comparator `a.priority - b.priority`; the claims use integers. -/
structure Handler where
  cb : Nat
  priority : Int
deriving DecidableEq, Repr

/-- `EventBus.prototype._sort`: `Array.prototype.sort` with comparator
`(a, b) => a.priority - b.priority` — a stable sort ascending by priority,
embedded as the (unique) stable sort, here insertion sort. -/
def sortHandlers (l : List Handler) : List Handler :=
  let rec insertH (h : Handler) : List Handler → List Handler
    | [] => [h]
    | x :: xs => if x.priority ≤ h.priority then x :: insertH h xs else h :: x :: xs
  l.foldl (fun acc h => insertH h acc) []

/-- `EventBus.prototype.subscribe(callback, priority = 0)`: update the
existing handler's priority in place (re-sort only when it changed), or push
a new handler (re-sort only when the previous last handler's priority exceeds
the new one).  The bus (`this`) is returned for chaining; the embedding
returns the updated subscriber list. -/
def subscribeB (subscribers : List Handler) (callback : Nat) (priority : Int) :
    List Handler :=
  match subscribers.find? (fun it => it.cb = callback) with
  | some existing =>
      let updated := subscribers.map fun it =>
        if it.cb = callback then { it with priority := priority } else it
      if existing.priority ≠ priority then sortHandlers updated else updated
  | none =>
      let lastHandler := subscribers.getLast?
      let pushed := subscribers ++ [⟨callback, priority⟩]
      match lastHandler with
      | some lh => if lh.priority > priority then sortHandlers pushed else pushed
      | none => pushed

/-- `subscriberCount`. -/
def subscriberCount (subscribers : List Handler) : Nat := subscribers.length

/-- The order in which `emit` invokes callbacks: `_subscribers.forEach`. -/
def emitOrder (subscribers : List Handler) : List Nat := subscribers.map (·.cb)

/-- Fold a sequence of `subscribe(cb, priority)` calls from a bus state. -/
def subscribeAll (subscribers : List Handler) (calls : List (Nat × Int)) :
    List Handler :=
  calls.foldl (fun s p => subscribeB s p.1 p.2) subscribers

/-- Component classes used by the concrete scenarios of the spec. -/
def PositionC : Cls := ⟨1, false⟩

/-- Velocity component class for the concrete scenarios. -/
def VelocityC : Cls := ⟨2, false⟩

/-- A `Position` instance with payload `n`. -/
def pos (n : Nat) : Value := .comp PositionC n

/-- A `Velocity` instance with payload `n`. -/
def vel (n : Nat) : Value := .comp VelocityC n

/-- The "every require mask is odd" shape of a compiled filter list: the
list pairs up completely and each even slot (a require mask) has bit 0 set. -/
def reqOdd (l : List Nat) : Bool :=
  match l with
  | w :: _ :: rest => w % 2 == 1 && reqOdd rest
  | [] => true
  | [_] => false

/-- The S3/S5 scenario: spawn `{Position}`, `{Position, Velocity}`,
`{Velocity}` and flush. -/
def s5ops : List Op := [.spawn [pos 10], .spawn [pos 20, vel 1], .spawn [vel 2], .flush]

/-- The world after the S5 scenario. -/
def s5World : WorldState := applyOps initWorld s5ops

/-- The S5 query: `Position` filtered by `Without(Velocity)`. -/
def q5 : Query := (mkQuery s5World [.plain PositionC] true (some (.withoutF [VelocityC]))).1

/-- Setting a cell to the value it already holds leaves the list unchanged. -/
theorem set_get_self {α : Type} (l : List α) (n : Nat) (a : α)
    (h : l.get? n = some a) : l.set n a = l := by
  induction l generalizing n with
  | nil => simp at h
  | cons x xs ih =>
      cases n with
      | zero => simp_all
      | succ m =>
          simp only [List.get?] at h
          simp [List.set, ih m h]

/-- `swapRemove` at a negative index: the read gives `undefined`, the write is
dropped, and `pop` still removes the last element. -/
theorem swapRemove_neg (col : List (Option Value)) (i : Int) (h : i < 0) :
    swapRemove col i = (none, col.dropLast) := by
  unfold swapRemove
  cases h' : jsRead col ((col.length : Int) - 1) with
  | none => simp [jsRead, h]
  | some v => simp [jsRead, jsWrite, h]

/-- `swapRemove` at index `length` (one past the end) returns `undefined` and
leaves the array unchanged when its last element is not a hole. -/
theorem swapRemove_at_length (col : List (Option Value))
    (h : ∀ x ∈ col, x.isSome) :
    swapRemove col (col.length : Int) = (none, col) := by
  rcases List.eq_nil_or_concat col with hnil | ⟨l, a, rfl⟩
  · subst hnil
    simp [swapRemove, jsRead]
  · simp only [List.concat_eq_append] at h ⊢
    obtain ⟨v, rfl⟩ : ∃ v, a = some v := by
      have := h a (by simp)
      cases a with
      | none => simp at this
      | some v => exact ⟨v, rfl⟩
    have h1 : jsRead (l ++ [some v]) ((l ++ [some v]).length : Int) = none := by
      simp [jsRead, List.get?_eq_getElem?,
        List.getElem?_eq_none (by simp : (l ++ [some v]).length ≤ l.length + 1)]
    have h2 : jsRead (l ++ [some v]) (((l ++ [some v]).length : Int) - 1)
        = some v := by
      have he : (((l ++ [some v]).length : Int) - 1) = (l.length : Int) := by simp
      rw [he]
      simp [jsRead, List.get?_eq_getElem?,
        List.getElem?_append_right (Nat.le_refl l.length)]
    have h3 : jsWrite (l ++ [some v]) ((l.length : Int) + 1) v
        = (l ++ [some v]) ++ [some v] := by
      simp only [jsWrite]
      rw [if_neg (by omega), if_neg (by simp)]
      simp
    rw [swapRemove, h1, h2]
    simp [h3]

/-- `swapRemove` at the last valid index writes the last element onto itself
and pops: it returns that element and drops the last cell, leaving every
other index untouched. -/
theorem swapRemove_last_valid (col : List (Option Value)) (h : col ≠ []) :
    swapRemove col ((col.length : Int) - 1)
      = (jsRead col ((col.length : Int) - 1), col.dropLast) := by
  rcases List.eq_nil_or_concat col with rfl | ⟨l, a, rfl⟩
  · exact absurd rfl h
  · simp only [List.concat_eq_append]
    have h2 : jsRead (l ++ [a]) (((l ++ [a]).length : Int) - 1) = a := by
      rw [(by simp : (((l ++ [a]).length : Int) - 1) = (l.length : Int))]
      simp [jsRead, List.get?_eq_getElem?,
        List.getElem?_append_right (Nat.le_refl l.length)]
    unfold swapRemove
    rw [h2]
    cases a with
    | none => rfl
    | some v =>
        have hw : jsWrite (l ++ [some v]) (((l ++ [some v]).length : Int) - 1) v
            = l ++ [some v] := by
          rw [(by simp : (((l ++ [some v]).length : Int) - 1) = (l.length : Int))]
          simp only [jsWrite]
          rw [if_neg (by omega), if_pos (by simp)]
          simp only [Int.toNat_natCast]
          apply set_get_self
          simp [List.get?_eq_getElem?,
            List.getElem?_append_right (Nat.le_refl l.length)]
        simp only [hw]

/-- Indices below the removed last cell are preserved by `dropLast`. -/
theorem dropLast_preserves (l : List (Option Value)) (i : Nat)
    (h : i < l.length - 1) : l.dropLast.get? i = l.get? i := by
  simp [List.get?_eq_getElem?, List.getElem?_dropLast, h]

/-- `(l₁.zip l₂).map Prod.snd = l₂.take l₁.length`. -/
theorem map_snd_zip_take {α β : Type} (l₁ : List α) (l₂ : List β) :
    (l₁.zip l₂).map Prod.snd = l₂.take l₁.length := by
  induction l₁ generalizing l₂ with
  | nil => simp
  | cons x xs ih =>
      cases l₂ with
      | nil => simp
      | cons y ys => simp [ih]

/-- When every `swapRemove` in the first loop of `move` returns `undefined`
(`if (!removed) continue`), the loop only rewrites the columns and stages
nothing. -/
theorem foldl_moveStep1_none (tgt : Table) (row : Int)
    (l : List (Cls × List (Option Value))) (acc : MoveAcc)
    (h : ∀ p ∈ l, (swapRemove p.2 row).1 = none) :
    l.foldl (moveStep1 tgt row) acc
      = ⟨acc.cols ++ l.map (fun p => (swapRemove p.2 row).2), acc.final, acc.fixups⟩ := by
  induction l generalizing acc with
  | nil => simp
  | cons p rest ih =>
      obtain ⟨c, col⟩ := p
      have hp := h (c, col) (by simp)
      have hstep : moveStep1 tgt row acc (c, col)
          = { acc with cols := acc.cols ++ [(swapRemove col row).2] } := by
        simp only [moveStep1]
        rcases hsw : swapRemove col row with ⟨removed, col'⟩
        rw [hsw] at hp
        simp at hp
        subst hp
        simp
      rw [List.foldl_cons, hstep,
        ih _ (fun q hq => h q (List.mem_cons_of_mem _ hq))]
      simp

/-- `(l.set i x).getD i d = x` for an in-range index. -/
theorem getD_set_same {α : Type} (l : List α) (i : Nat) (x d : α)
    (h : i < l.length) : (l.set i x).getD i d = x := by
  simp [List.getD_eq_getElem?_getD, List.getElem?_set, h]

/-- `set` at one index does not change `getD` at another. -/
theorem getD_set_diff {α : Type} (l : List α) (i j : Nat) (x d : α)
    (h : i ≠ j) : (l.set i x).getD j d = l.getD j d := by
  simp [List.getD_eq_getElem?_getD, List.getElem?_set, h]

/-- A cross-table `move` whose row index equals the (shared) length of the
source's sized columns: every `swapRemove` writes the last element one past
the end and pops it right back, so all source columns are unchanged, nothing
is staged from the source and no back-fill happens. -/
theorem move_cross_row_at_end (tables : List Table) (srcIdx tgtIdx : Nat)
    (comps : List Value) (n : Nat) (hne : srcIdx ≠ tgtIdx)
    (hlt : srcIdx < tables.length)
    (hpar : ∀ p ∈ (tables.getD srcIdx default).compsT.zip
        (tables.getD srcIdx default).columns,
      p.2.length = n ∧ ∀ x ∈ p.2, x.isSome) :
    (moveTables tables srcIdx tgtIdx (n : Int) comps).tables.getD srcIdx default
        = tables.getD srcIdx default
    ∧ (moveTables tables srcIdx tgtIdx (n : Int) comps).fixups = [] := by
  have hsw : ∀ p ∈ (tables.getD srcIdx default).compsT.zip
      (tables.getD srcIdx default).columns,
      swapRemove p.2 (n : Int) = (none, p.2) := by
    intro p hp
    have := hpar p hp
    rw [← this.1]
    exact swapRemove_at_length p.2 this.2
  simp only [moveTables]
  rw [if_neg hne]
  rw [foldl_moveStep1_none _ _ _ _ (fun p hp => by rw [hsw p hp])]
  have hcols : ((tables.getD srcIdx default).compsT.zip
      (tables.getD srcIdx default).columns).map
        (fun p => (swapRemove p.2 (n : Int)).2)
      = (tables.getD srcIdx default).columns.take
          (tables.getD srcIdx default).compsT.length := by
    rw [List.map_congr_left (fun p hp => by rw [hsw p hp]), map_snd_zip_take]
  simp only [hcols, List.nil_append, List.take_append_drop]
  constructor
  · rw [getD_set_diff _ _ _ _ _ (fun he => hne he.symm), getD_set_same _ _ _ _ hlt]
  · trivial

/-- A cross-table `move` with a negative row index: every `swapRemove` still
pops, so each sized source column loses its last element; nothing is staged
from the source and no back-fill happens. -/
theorem move_cross_row_neg (tables : List Table) (srcIdx tgtIdx : Nat)
    (comps : List Value) (row : Int) (hrow : row < 0) (hne : srcIdx ≠ tgtIdx)
    (hlt : srcIdx < tables.length)
    (hcols : (tables.getD srcIdx default).columns.length
        = (tables.getD srcIdx default).compsT.length) :
    ((moveTables tables srcIdx tgtIdx row comps).tables.getD srcIdx
        default).columns
      = (tables.getD srcIdx default).columns.map List.dropLast
    ∧ (moveTables tables srcIdx tgtIdx row comps).fixups = [] := by
  have hsw : ∀ p ∈ (tables.getD srcIdx default).compsT.zip
      (tables.getD srcIdx default).columns,
      swapRemove p.2 row = (none, p.2.dropLast) := fun p _ => swapRemove_neg p.2 row hrow
  simp only [moveTables]
  rw [if_neg hne]
  rw [foldl_moveStep1_none _ _ _ _ (fun p hp => by rw [hsw p hp])]
  have hmap : ((tables.getD srcIdx default).compsT.zip
      (tables.getD srcIdx default).columns).map
        (fun p => (swapRemove p.2 row).2)
      = (tables.getD srcIdx default).columns.map List.dropLast := by
    rw [List.map_congr_left (fun p hp => by rw [hsw p hp])]
    have : ((tables.getD srcIdx default).compsT.zip
        (tables.getD srcIdx default).columns).map (fun p => p.2.dropLast)
        = (((tables.getD srcIdx default).compsT.zip
            (tables.getD srcIdx default).columns).map Prod.snd).map List.dropLast := by
      simp
    rw [this, map_snd_zip_take, ← hcols, List.take_length]
  simp only [hmap, List.nil_append]
  constructor
  · rw [getD_set_diff _ _ _ _ _ (fun he => hne he.symm), getD_set_same _ _ _ _ hlt]
    have hdrop : (tables.getD srcIdx default).columns.drop
        (tables.getD srcIdx default).compsT.length = [] := by
      rw [← hcols, List.drop_length]
    rw [hdrop, List.append_nil]
  · trivial

/-- `swapRemove` at the last valid index, concrete form: returns the last
element and leaves exactly the prefix. -/
theorem swapRemove_concat (l : List (Option Value)) (v : Value) :
    swapRemove (l ++ [some v]) (((l ++ [some v]).length : Int) - 1) = (some v, l) := by
  rw [swapRemove_last_valid _ (by simp)]
  have h2 : jsRead (l ++ [some v]) (((l ++ [some v]).length : Int) - 1) = some v := by
    rw [(by simp : (((l ++ [some v]).length : Int) - 1) = (l.length : Int))]
    simp [jsRead, List.get?_eq_getElem?,
      List.getElem?_append_right (Nat.le_refl l.length)]
  rw [h2, List.dropLast_concat]

/-- Source table for the concrete single-row move: one entity with one
`Position`. -/
def srcT1 : Table := ⟨0, 3, [EntityC, PositionC], [[some (.ent 0)], [some (pos 7)]]⟩

/-- Empty target table with the same archetype. -/
def tgtT1 : Table := ⟨1, 3, [EntityC, PositionC], [[], []]⟩

/-- C4 — counterexample to the claim as stated.  The claim says a `move` at a
negative row index, or at the only remaining row, leaves all of the source's
columns unchanged.  Moving row `0` of a one-row table is an ordinary move
that empties the source, and a move at row `-1` pops the last element of each
sized source column. -/
theorem c4_claim_counterexample :
    ((moveTables [srcT1, tgtT1] 0 1 (0 : Int) []).tables.getD 0 default).columns
        ≠ srcT1.columns
    ∧ ((moveTables [srcT1, tgtT1] 0 1 (-1 : Int) []).tables.getD 0 default).columns
        ≠ srcT1.columns := by
  decide

/-- C4 (amended) — out-of-range removal behaviour of `Table.move` and
`swapRemove`: (1) `swapRemove` at the last valid index returns that element
and leaves the array exactly one element shorter with all other indices
preserved; (2) a cross-table `move` whose row index equals the shared length
of the source's sized columns leaves the source table unchanged; (3) a
cross-table `move` at a negative row index removes the last element of every
sized source column (not a no-op); (4) moving the only remaining row is an
ordinary move — it empties the source columns and appends the row to the
target, returning the target location. -/
theorem c4_out_of_range_removal :
    (∀ (l : List (Option Value)) (v : Value),
        swapRemove (l ++ [some v]) (((l ++ [some v]).length : Int) - 1) = (some v, l))
    ∧ (∀ (tables : List Table) (srcIdx tgtIdx : Nat) (comps : List Value) (n : Nat),
        srcIdx ≠ tgtIdx → srcIdx < tables.length →
        (∀ p ∈ (tables.getD srcIdx default).compsT.zip
            (tables.getD srcIdx default).columns,
          p.2.length = n ∧ ∀ x ∈ p.2, x.isSome) →
        (moveTables tables srcIdx tgtIdx (n : Int) comps).tables.getD srcIdx default
          = tables.getD srcIdx default)
    ∧ (∀ (tables : List Table) (srcIdx tgtIdx : Nat) (comps : List Value) (row : Int),
        row < 0 → srcIdx ≠ tgtIdx → srcIdx < tables.length →
        (tables.getD srcIdx default).columns.length
          = (tables.getD srcIdx default).compsT.length →
        ((moveTables tables srcIdx tgtIdx row comps).tables.getD srcIdx
            default).columns
          = (tables.getD srcIdx default).columns.map List.dropLast)
    ∧ ((moveTables [srcT1, tgtT1] 0 1 (0 : Int) []).tables
        = [{ srcT1 with columns := [[], []] },
           { tgtT1 with columns := [[some (.ent 0)], [some (pos 7)]] }]
      ∧ (moveTables [srcT1, tgtT1] 0 1 (0 : Int) []).retTableId = 1
      ∧ (moveTables [srcT1, tgtT1] 0 1 (0 : Int) []).retRow = 0) := by
  refine ⟨swapRemove_concat, ?_, ?_, by decide⟩
  · intro tables srcIdx tgtIdx comps n hne hlt hpar
    exact (move_cross_row_at_end tables srcIdx tgtIdx comps n hne hlt hpar).1
  · intro tables srcIdx tgtIdx comps row hrow hne hlt hcols
    exact (move_cross_row_neg tables srcIdx tgtIdx comps row hrow hne hlt hcols).1

/-- C4 — witness: the amended theorem applied at concrete inputs. -/
theorem c4_out_of_range_removal_witness :
    swapRemove [some (pos 7), some (pos 8)] (1 : Int) = (some (pos 8), [some (pos 7)])
    ∧ (moveTables [srcT1, tgtT1] 0 1 (1 : Int) []).tables.getD 0 default = srcT1
    ∧ ((moveTables [srcT1, tgtT1] 0 1 (-1 : Int) []).tables.getD 0 default).columns
        = srcT1.columns.map List.dropLast := by
  refine ⟨?_, ?_, ?_⟩
  · have h := c4_out_of_range_removal.1 [some (pos 7)] (pos 8)
    simpa using h
  · have h := c4_out_of_range_removal.2.1 [srcT1, tgtT1] 0 1 [] 1
      (by decide) (by decide) (by decide)
    simpa using h
  · exact c4_out_of_range_removal.2.2.1 [srcT1, tgtT1] 0 1 [] (-1)
      (by decide) (by decide) (by decide) (by decide)

/-- `Schedule.run` decomposes over a split of the system list: the suffix only
runs when the prefix finished without an error, consuming the matching
argument tail. -/
theorem runSchedule_append {σ : Type} (l₁ l₂ : List (Sys σ)) (args : List (List Nat))
    (st : σ) :
    runSchedule (l₁ ++ l₂) args st =
      match runSchedule l₁ args st with
      | (st', none) => runSchedule l₂ (args.drop l₁.length) st'
      | (st', some e) => (st', some e) := by
  induction l₁ generalizing args st with
  | nil => simp [runSchedule]
  | cons sys rest ih =>
      simp only [List.cons_append, runSchedule]
      rcases sys (args.headD []) st with ⟨st₁, err⟩
      cases err with
      | none =>
          simp only []
          rw [show rest.append l₂ = rest ++ l₂ from rfl, ih]
          rcases runSchedule rest (args.drop 1) st₁ with ⟨st₂, err₂⟩
          cases err₂ <;> simp [List.drop_drop]
      | some e => simp

/-- Systems of the S6 scenario: push a number to the shared Vec. -/
def pushSys (k : Nat) : Sys (List Nat) := fun _ st => (st ++ [k], none)

/-- A system that throws/rejects with error `e` before any effect. -/
def throwSys (e : Nat) : Sys (List Nat) := fun _ st => (st, some e)

/-- C6 — `Schedule.run` error propagation: systems run in registration order
with their pre-resolved arguments; when the prefix succeeds and system `i`
throws, `run` rejects with that same error, the state keeps all effects of
systems `0..i-1` plus those of system `i` up to the throw, and the systems
after `i` are not invoked (the result does not depend on them).  S6: three
systems pushing `1`, `2`, `3` yield `[1,2,3]`; when the second throws, the
shared Vec is exactly `[1]` and `run` rejects with the same error. -/
theorem c6_schedule_error_propagation :
    (∀ (σ : Type) (pre post : List (Sys σ)) (sys : Sys σ) (args : List (List Nat))
        (st st₁ st₂ : σ) (e : Nat),
      runSchedule pre args st = (st₁, none) →
      sys (args.getD pre.length []) st₁ = (st₂, some e) →
      runSchedule (pre ++ sys :: post) args st = (st₂, some e))
    ∧ runSchedule [pushSys 1, pushSys 2, pushSys 3] [] [] = ([1, 2, 3], none)
    ∧ runSchedule [pushSys 1, throwSys 42, pushSys 3] [] [] = ([1], some 42) := by
  refine ⟨?_, by decide, by decide⟩
  intro σ pre post sys args st st₁ st₂ e hpre hsys
  rw [runSchedule_append, hpre]
  simp only [runSchedule]
  have hhead : (args.drop pre.length).headD [] = args.getD pre.length [] := by
    cases hd : args.drop pre.length with
    | nil =>
        have : args.length ≤ pre.length := by
          by_contra hcon
          have := List.length_drop pre.length args
          rw [hd] at this
          simp at this
          omega
        simp [List.headD, List.getD_eq_getElem?_getD, List.getElem?_eq_none this]
    | cons x xs =>
        have h0 : (args.drop pre.length).get? 0 = some x := by rw [hd]; rfl
        rw [List.get?_eq_getElem?, List.getElem?_drop, Nat.add_zero] at h0
        simp [hd, List.getD_eq_getElem?_getD, h0]
  rw [hhead, hsys]

/-- C6 — witness: the abort property applied at the S6 error scenario. -/
theorem c6_schedule_error_propagation_witness :
    runSchedule ([pushSys 1] ++ throwSys 42 :: [pushSys 3]) [] [] = ([1], some 42) :=
  c6_schedule_error_propagation.1 (List Nat) [pushSys 1] [pushSys 3] (throwSys 42)
    [] [] [1] [1] 42 (by decide) rfl

/-- Ordering of handlers used by the bus comparator. -/
def hle (a b : Handler) : Prop := a.priority ≤ b.priority

instance : DecidableRel hle := fun a b => inferInstanceAs (Decidable (a.priority ≤ b.priority))

/-- `insertH` splits the list at the first strictly greater priority. -/
theorem insertH_decomp (h : Handler) (l : List Handler) :
    ∃ l₁ l₂, l = l₁ ++ l₂ ∧ sortHandlers.insertH h l = l₁ ++ h :: l₂
      ∧ (∀ y ∈ l₁, y.priority ≤ h.priority) := by
  induction l with
  | nil => exact ⟨[], [], by simp [sortHandlers.insertH]⟩
  | cons x xs ih =>
      by_cases hx : x.priority ≤ h.priority
      · obtain ⟨l₁, l₂, he, hi, hb⟩ := ih
        refine ⟨x :: l₁, l₂, by simp [he], ?_, ?_⟩
        · simp [sortHandlers.insertH, hx, hi]
        · intro y hy
          rcases List.mem_cons.mp hy with rfl | hy'
          · exact hx
          · exact hb y hy'
      · exact ⟨[], x :: xs, rfl, by simp [sortHandlers.insertH, hx], by simp⟩

/-- Inserting into a sorted list keeps it sorted. -/
theorem insertH_sorted (h : Handler) (l : List Handler) (hs : List.Sorted hle l) :
    List.Sorted hle (sortHandlers.insertH h l) := by
  induction l with
  | nil => simp [sortHandlers.insertH, List.Sorted]
  | cons x xs ih =>
      rw [List.sorted_cons] at hs
      by_cases hx : x.priority ≤ h.priority
      · simp only [sortHandlers.insertH, if_pos hx]
        rw [List.sorted_cons]
        refine ⟨?_, ih hs.2⟩
        intro b hb
        obtain ⟨l₁, l₂, he, hi, _⟩ := insertH_decomp h xs
        rw [hi] at hb
        rcases List.mem_append.mp hb with h₁ | h₂
        · exact hs.1 b (he ▸ List.mem_append_left _ h₁)
        · rcases List.mem_cons.mp h₂ with rfl | h₃
          · exact hx
          · exact hs.1 b (he ▸ List.mem_append_right _ h₃)
      · simp only [sortHandlers.insertH, if_neg hx]
        rw [List.sorted_cons]
        refine ⟨?_, List.sorted_cons.mpr hs⟩
        intro b hb
        rcases List.mem_cons.mp hb with rfl | hb'
        · exact le_of_not_le hx
        · exact le_trans (le_of_not_le hx) (hs.1 b hb')

/-- Stability of the insertion: per-priority sublists are preserved, with the
inserted handler after its equal-priority peers (the accumulator is sorted,
so peers all sit in the `≤` prefix). -/
theorem insertH_filter (h : Handler) (l : List Handler) (hs : List.Sorted hle l)
    (q : Int) :
    (sortHandlers.insertH h l).filter (fun y => y.priority = q)
      = l.filter (fun y => y.priority = q)
        ++ (if h.priority = q then [h] else []) := by
  induction l with
  | nil => by_cases hq : h.priority = q <;> simp [sortHandlers.insertH, hq]
  | cons x xs ih =>
      rw [List.sorted_cons] at hs
      by_cases hx : x.priority ≤ h.priority
      · simp only [sortHandlers.insertH, if_pos hx, List.filter_cons]
        rw [ih hs.2]
        by_cases hxq : x.priority = q <;> simp [hxq]
      · have hlt : h.priority < x.priority := lt_of_not_le hx
        simp only [sortHandlers.insertH, if_neg hx]
        by_cases hq : h.priority = q
        · have hxq : ¬ (x.priority = q) := by omega
          have hxs : ∀ y ∈ xs, ¬ (y.priority = q) := by
            intro y hy
            have := hs.1 y hy
            simp only [hle] at this
            omega
          have hnil : xs.filter (fun y => decide (y.priority = q)) = [] :=
            List.filter_eq_nil_iff.mpr (fun y hy => by simpa using hxs y hy)
          simp [List.filter_cons, hq, hxq, hnil]
        · simp [List.filter_cons, hq]

/-- `sortHandlers` sorts ascending by priority. -/
theorem sortHandlers_sorted (l : List Handler) :
    List.Sorted hle (sortHandlers l) := by
  have main : ∀ (l : List Handler) (acc : List Handler), List.Sorted hle acc →
      List.Sorted hle (l.foldl (fun acc h => sortHandlers.insertH h acc) acc) := by
    intro l
    induction l with
    | nil => intro acc h; exact h
    | cons x xs ih =>
        intro acc hacc
        exact ih _ (insertH_sorted x acc hacc)
  exact main l [] (by simp)

/-- `sortHandlers` is stable: it preserves each per-priority sublist. -/
theorem sortHandlers_filter (l : List Handler) (q : Int) :
    (sortHandlers l).filter (fun y => y.priority = q)
      = l.filter (fun y => y.priority = q) := by
  have main : ∀ (l acc : List Handler), List.Sorted hle acc →
      (l.foldl (fun acc h => sortHandlers.insertH h acc) acc).filter
          (fun y => y.priority = q)
        = acc.filter (fun y => y.priority = q) ++ l.filter (fun y => y.priority = q) := by
    intro l
    induction l with
    | nil => intro acc _; simp
    | cons x xs ih =>
        intro acc hacc
        rw [List.foldl_cons, ih _ (insertH_sorted x acc hacc),
          insertH_filter x acc hacc q, List.filter_cons]
        by_cases hq : x.priority = q <;> simp [hq]
    
  exact main l [] (by simp)

/-- Membership through `insertH`. -/
theorem mem_insertH (y h : Handler) (l : List Handler) :
    y ∈ sortHandlers.insertH h l ↔ y = h ∨ y ∈ l := by
  obtain ⟨l₁, l₂, he, hi, _⟩ := insertH_decomp h l
  rw [hi, he]
  simp [List.mem_append, List.mem_cons]
  tauto

/-- Membership is preserved by `sortHandlers`. -/
theorem mem_sortHandlers (y : Handler) (l : List Handler) :
    y ∈ sortHandlers l ↔ y ∈ l := by
  have main : ∀ (l acc : List Handler),
      y ∈ l.foldl (fun acc h => sortHandlers.insertH h acc) acc ↔ y ∈ acc ∨ y ∈ l := by
    intro l
    induction l with
    | nil => simp
    | cons x xs ih =>
        intro acc
        rw [List.foldl_cons, ih, mem_insertH]
        simp [List.mem_cons]
        tauto
  rw [sortHandlers, main]
  simp

/-- `sortHandlers` preserves length. -/
theorem length_sortHandlers (l : List Handler) :
    (sortHandlers l).length = l.length := by
  have hins : ∀ (h : Handler) (acc : List Handler),
      (sortHandlers.insertH h acc).length = acc.length + 1 := by
    intro h acc
    obtain ⟨l₁, l₂, he, hi, _⟩ := insertH_decomp h acc
    rw [hi, he]
    simp
    omega
  have main : ∀ (l acc : List Handler),
      (l.foldl (fun acc h => sortHandlers.insertH h acc) acc).length
        = acc.length + l.length := by
    intro l
    induction l with
    | nil => simp
    | cons x xs ih =>
        intro acc
        rw [List.foldl_cons, ih, hins]
        simp only [List.length_cons]
        omega
  rw [sortHandlers, main]
  simp

/-- In a `hle`-sorted list every element's priority is at most the last's. -/
theorem sorted_all_le_last (l : List Handler) (z : Handler)
    (hs : List.Sorted hle l) (hz : l.getLast? = some z) :
    ∀ y ∈ l, y.priority ≤ z.priority := by
  induction l with
  | nil => simp at hz
  | cons x xs ih =>
      rw [List.sorted_cons] at hs
      intro y hy
      cases xs with
      | nil =>
          simp at hz hy
          subst hz
          subst hy
          exact le_refl _
      | cons a as =>
          rw [List.getLast?_cons_cons] at hz
          rcases List.mem_cons.mp hy with rfl | hy'
          · have hzmem : z ∈ a :: as := List.mem_of_mem_getLast? hz
            exact hs.1 z hzmem
          · exact ih hs.2 hz y hy'

/-- Some subscriber with the given callback exists after `subscribe`. -/
theorem cb_mem_subscribeB (subs : List Handler) (cb : Nat) (p : Int) :
    ∃ h ∈ subscribeB subs cb p, h.cb = cb := by
  unfold subscribeB
  cases hf : subs.find? (fun it => it.cb = cb) with
  | some ex =>
      have hex := List.find?_some hf
      have hmem := List.mem_of_find?_eq_some hf
      simp only []
      have hin : ({ ex with priority := p } : Handler)
          ∈ subs.map (fun it => if it.cb = cb then { it with priority := p } else it) := by
        have := List.mem_map_of_mem
          (fun it => if it.cb = cb then { it with priority := p } else it) hmem
        simpa [if_pos (by simpa using hex)] using this
      by_cases hne : ex.priority ≠ p
      · rw [if_pos hne]
        exact ⟨{ ex with priority := p }, (mem_sortHandlers _ _).mpr hin,
          by simpa using hex⟩
      · rw [if_neg hne]
        exact ⟨{ ex with priority := p }, hin, by simpa using hex⟩
  | none =>
      simp only []
      cases hlast : subs.getLast? with
      | none => exact ⟨⟨cb, p⟩, by simp, rfl⟩
      | some lh =>
          dsimp only
          by_cases hgt : lh.priority > p
          · rw [if_pos hgt]
            exact ⟨⟨cb, p⟩, (mem_sortHandlers _ _).mpr (by simp), rfl⟩
          · rw [if_neg hgt]
            exact ⟨⟨cb, p⟩, by simp, rfl⟩

/-- `subscribe` with a previously unseen callback: the handler is pushed (and
possibly re-sorted); whatever branch runs, the result is sorted and its
per-priority sublists are those of `subs ++ [⟨cb, p⟩]`. -/
theorem subscribeB_fresh (subs : List Handler) (cb : Nat) (p : Int)
    (hfresh : ∀ h ∈ subs, h.cb ≠ cb) (hs : List.Sorted hle subs) :
    List.Sorted hle (subscribeB subs cb p)
    ∧ (∀ q : Int, (subscribeB subs cb p).filter (fun y => y.priority = q)
        = (subs ++ [({ cb := cb, priority := p } : Handler)]).filter
            (fun y => y.priority = q))
    ∧ (∀ h ∈ subscribeB subs cb p,
        h ∈ subs ∨ h = ({ cb := cb, priority := p } : Handler)) := by
  unfold subscribeB
  have hfind : subs.find? (fun it => it.cb = cb) = none :=
    List.find?_eq_none.mpr (fun x hx => by simpa using hfresh x hx)
  rw [hfind]
  have hsortedcat : (∀ y ∈ subs, y.priority ≤ p) →
      List.Sorted hle (subs ++ [({ cb := cb, priority := p } : Handler)]) := by
    intro hle'
    rw [List.Sorted, List.pairwise_append]
    refine ⟨hs, by simp, ?_⟩
    intro a ha b hb
    simp at hb
    subst hb
    exact hle' a ha
  cases hlast : subs.getLast? with
  | none =>
      have hnil : subs = [] := by
        cases subs with
        | nil => rfl
        | cons x xs => simp [List.getLast?_eq_getLast] at hlast
      subst hnil
      simp [List.Sorted]
  | some lh =>
      dsimp only
      by_cases hgt : lh.priority > p
      · rw [if_pos hgt]
        refine ⟨sortHandlers_sorted _, fun q => sortHandlers_filter _ q, ?_⟩
        intro h hh
        have := (mem_sortHandlers _ _).mp hh
        rcases List.mem_append.mp this with h₁ | h₂
        · exact Or.inl h₁
        · simp at h₂; exact Or.inr h₂
      · rw [if_neg hgt]
        refine ⟨?_, fun q => rfl, ?_⟩
        · exact hsortedcat (fun y hy =>
            le_trans (sorted_all_le_last subs lh hs hlast y hy) (by omega))
        · intro h hh
          rcases List.mem_append.mp hh with h₁ | h₂
          · exact Or.inl h₁
          · simp at h₂; exact Or.inr h₂

/-- Building a bus from a sequence of `subscribe` calls with pairwise distinct
callbacks: the subscriber list is sorted ascending by priority and, per
priority, keeps the subscription order (stability); its members are exactly
the subscribed handlers. -/
theorem subscribeAll_char (calls : List (Nat × Int))
    (hnodup : (calls.map Prod.fst).Nodup) :
    List.Sorted hle (subscribeAll [] calls)
    ∧ (∀ q : Int, (subscribeAll [] calls).filter (fun y => y.priority = q)
        = (calls.map (fun c => ({ cb := c.1, priority := c.2 } : Handler))).filter
            (fun y => y.priority = q))
    ∧ (∀ h ∈ subscribeAll [] calls,
        h ∈ calls.map (fun c => ({ cb := c.1, priority := c.2 } : Handler))) := by
  induction calls using List.reverseRecOn with
  | nil => simp [subscribeAll]
  | append_singleton calls c ih =>
      have hnodup' : (calls.map Prod.fst).Nodup := by
        rw [List.map_append] at hnodup
        exact (List.nodup_append.mp hnodup).1
      have hcfresh : c.1 ∉ calls.map Prod.fst := by
        rw [List.map_append] at hnodup
        have := (List.nodup_append.mp hnodup).2.2
        intro hmem
        exact this hmem (by simp)
      obtain ⟨ihs, ihf, ihm⟩ := ih hnodup'
      have happ : subscribeAll [] (calls ++ [c])
          = subscribeB (subscribeAll [] calls) c.1 c.2 := by
        simp [subscribeAll]
      have hfresh : ∀ h ∈ subscribeAll [] calls, h.cb ≠ c.1 := by
        intro h hh
        have := ihm h hh
        intro heq
        apply hcfresh
        rcases List.mem_map.mp this with ⟨d, hd, hdh⟩
        have : d.1 = c.1 := by rw [← hdh] at heq; simpa using heq
        exact this ▸ List.mem_map_of_mem Prod.fst hd
      obtain ⟨hs', hf', hm'⟩ := subscribeB_fresh (subscribeAll [] calls) c.1 c.2 hfresh ihs
      rw [happ]
      refine ⟨hs', ?_, ?_⟩
      · intro q
        rw [hf' q, List.filter_append, ihf q, List.map_append, List.filter_append]
        simp
      · intro h hh
        rw [List.map_append]
        rcases hm' h hh with h₁ | h₂
        · exact List.mem_append_left _ (ihm h h₁)
        · subst h₂
          exact List.mem_append_right _ (by simp)

/-- Duplicate `subscribe` goes through the update branch and never changes
the subscriber count. -/
theorem subscribeB_count_existing (subs : List Handler) (cb : Nat) (q : Int)
    (hex : ∃ x ∈ subs, x.cb = cb) :
    subscriberCount (subscribeB subs cb q) = subscriberCount subs := by
  unfold subscribeB subscriberCount
  obtain ⟨x, hx, hcb⟩ := hex
  have hsome : (subs.find? (fun it => it.cb = cb)).isSome :=
    List.find?_isSome.mpr ⟨x, hx, by simp [hcb]⟩
  obtain ⟨ex, hf⟩ := Option.isSome_iff_exists.mp hsome
  rw [hf]
  dsimp only
  by_cases hne : ex.priority ≠ q
  · rw [if_pos hne, length_sortHandlers, List.length_map]
  · rw [if_neg hne, List.length_map]

/-- After `subscribe(cb, q)`, every handler for `cb` stores priority `q`. -/
theorem subscribeB_priority_updated (subs : List Handler) (cb : Nat) (q : Int) :
    ∀ h ∈ subscribeB subs cb q, h.cb = cb → h.priority = q := by
  unfold subscribeB
  cases hf : subs.find? (fun it => it.cb = cb) with
  | some ex =>
      dsimp only
      intro h hh hcb
      have hmem : h ∈ subs.map
          (fun it => if it.cb = cb then { it with priority := q } else it) := by
        by_cases hne : ex.priority ≠ q
        · rw [if_pos hne] at hh
          exact (mem_sortHandlers _ _).mp hh
        · rw [if_neg hne] at hh
          exact hh
      rcases List.mem_map.mp hmem with ⟨x, hx, hxe⟩
      by_cases hxc : x.cb = cb
      · rw [if_pos hxc] at hxe
        rw [← hxe]
      · rw [if_neg hxc] at hxe
        subst hxe
        exact absurd hcb hxc
  | none =>
      intro h hh hcb
      have hnone := List.find?_eq_none.mp hf
      have hmem : h ∈ subs ++ [({ cb := cb, priority := q } : Handler)] := by
        rcases hlast : subs.getLast? with _ | lh <;> rw [hlast] at hh <;> dsimp only at hh
        · exact hh
        · by_cases hgt : lh.priority > q
          · rw [if_pos hgt] at hh
            exact (mem_sortHandlers _ _).mp hh
          · rw [if_neg hgt] at hh
            exact hh
      rcases List.mem_append.mp hmem with h₁ | h₂
      · exact absurd (by simpa using hcb) (hnone h h₁)
      · simp at h₂
        rw [h₂]

/-- Re-subscribing an existing callback with its current priority is an exact
no-op (no re-sort, no reordering). -/
theorem subscribeB_same_noop (subs : List Handler) (cb : Nat) (p : Int)
    (hall : ∀ h ∈ subs, h.cb = cb → h.priority = p)
    (hex : ∃ x ∈ subs, x.cb = cb) :
    subscribeB subs cb p = subs := by
  unfold subscribeB
  obtain ⟨x, hx, hcb⟩ := hex
  have hsome : (subs.find? (fun it => it.cb = cb)).isSome :=
    List.find?_isSome.mpr ⟨x, hx, by simp [hcb]⟩
  obtain ⟨ex, hf⟩ := Option.isSome_iff_exists.mp hsome
  rw [hf]
  dsimp only
  have hexp : ex.priority = p :=
    hall ex (List.mem_of_find?_eq_some hf) (by simpa using List.find?_some hf)
  have hmap : subs.map
      (fun it => if it.cb = cb then { it with priority := p } else it) = subs := by
    rw [show subs = subs.map id from (List.map_id subs).symm]
    rw [List.map_map]
    apply List.map_congr_left
    intro it hit
    by_cases hic : it.cb = cb
    · have hp := hall it (by simpa using hit) hic
      obtain ⟨a, b⟩ := it
      simp_all
    · simp [hic]
  rw [if_neg (by simp [hexp]), hmap]

/-- C7 — counterexample to the claim as stated.  Subscribing callback `0` at
priority `9`, callback `1` at priority `5`, then re-subscribing `0` at
priority `5` leaves both subscribers at priority `5`; the claim's
insertion-order tie-break would emit `0` (subscribed first) before `1`, but
the bus emits `[1, 0]`: the re-sort keeps the *list* order that existed when
`0` was re-prioritised, not the original subscription order. -/
theorem c7_claim_counterexample :
    emitOrder (subscribeAll [] [(0, 9), (1, 5), (0, 5)]) = [1, 0]
    ∧ (subscribeAll [] [(0, 9), (1, 5), (0, 5)]).map Handler.priority = [5, 5]
    ∧ ([1, 0] : List Nat) ≠ [0, 1] := by
  decide

/-- C7 (amended) — event-bus de-duplication and emission order:
(1) subscribing the same callback twice never changes the subscriber count;
(2) after `subscribe(cb, q)` the stored priority of `cb` is `q`;
(3) re-subscribing with an unchanged priority is an exact no-op (no re-sort);
(4) for subscriptions with pairwise distinct callbacks, the emission order is
ascending by priority with insertion order breaking ties among equal
priorities (the subscriber list restricted to any priority equals the
subscription sequence restricted to it).  With re-prioritising duplicate
subscriptions, ties follow the re-sorted list order instead (see the
counterexample).  `subscribe` returns the bus itself (`return this`), which
the embedding renders by returning the updated subscriber list. -/
theorem c7_event_bus_dedup_order :
    (∀ (subs : List Handler) (cb : Nat) (p q : Int),
        subscriberCount (subscribeB (subscribeB subs cb p) cb q)
          = subscriberCount (subscribeB subs cb p))
    ∧ (∀ (subs : List Handler) (cb : Nat) (q : Int),
        ∀ h ∈ subscribeB subs cb q, h.cb = cb → h.priority = q)
    ∧ (∀ (subs : List Handler) (cb : Nat) (p : Int),
        (∀ h ∈ subs, h.cb = cb → h.priority = p) → (∃ x ∈ subs, x.cb = cb) →
        subscribeB subs cb p = subs)
    ∧ (∀ calls : List (Nat × Int), (calls.map Prod.fst).Nodup →
        List.Sorted hle (subscribeAll [] calls)
        ∧ ∀ q : Int, (subscribeAll [] calls).filter (fun y => y.priority = q)
            = (calls.map fun c => ({ cb := c.1, priority := c.2 } : Handler)).filter
                (fun y => y.priority = q)) := by
  refine ⟨?_, subscribeB_priority_updated, subscribeB_same_noop, ?_⟩
  · intro subs cb p q
    exact subscribeB_count_existing _ cb q (cb_mem_subscribeB subs cb p)
  · intro calls hnodup
    obtain ⟨h₁, h₂, _⟩ := subscribeAll_char calls hnodup
    exact ⟨h₁, h₂⟩

/-- C7 — witness: the amended theorem applied at concrete buses. -/
theorem c7_event_bus_dedup_order_witness :
    subscriberCount (subscribeB (subscribeB [] 0 5) 0 7)
        = subscriberCount (subscribeB [] 0 5)
    ∧ subscribeB [({ cb := 0, priority := 5 } : Handler)] 0 5
        = [({ cb := 0, priority := 5 } : Handler)]
    ∧ List.Sorted hle (subscribeAll [] [(0, 9), (1, 5)]) :=
  ⟨c7_event_bus_dedup_order.1 [] 0 5 7,
   c7_event_bus_dedup_order.2.2.1 [({ cb := 0, priority := 5 } : Handler)] 0 5
     (by decide) ⟨{ cb := 0, priority := 5 }, by simp, rfl⟩,
   (c7_event_bus_dedup_order.2.2.2 [(0, 9), (1, 5)] (by decide)).1⟩

/-- Keyed lookup in a `Nat`-keyed map with `Nodup` keys finds any member. -/
theorem lookupMap_of_mem_nodup {α : Type} (m : List (Nat × α)) (k : Nat) (v : α)
    (hmem : (k, v) ∈ m) (hnodup : (m.map Prod.fst).Nodup) :
    lookupMap m k = some v := by
  induction m with
  | nil => simp at hmem
  | cons p rest ih =>
      rw [List.map_cons, List.nodup_cons] at hnodup
      rcases List.mem_cons.mp hmem with rfl | hmem'
      · unfold lookupMap
        rw [List.find?_cons_of_pos _ (by simp)]
        rfl
      · have hk : p.1 ≠ k := fun he =>
          hnodup.1 (he ▸ List.mem_map_of_mem Prod.fst hmem')
        unfold lookupMap
        rw [List.find?_cons_of_neg _ (by simpa using hk)]
        exact ih hmem' hnodup.2

/-- `lookupMap` misses exactly the absent keys. -/
theorem lookupMap_eq_none_iff {α : Type} (m : List (Nat × α)) (k : Nat) :
    lookupMap m k = none ↔ ∀ p ∈ m, p.1 ≠ k := by
  simp only [lookupMap, Option.map_eq_none', List.find?_eq_none]
  constructor
  · intro h p hp
    simpa using h p hp
  · intro h p hp
    simpa using h p hp

/-- `mapSet` preserves key-`Nodup`ness. -/
theorem mapSet_keys_nodup {α : Type} (m : List (Nat × α)) (k : Nat) (v : α)
    (h : (m.map Prod.fst).Nodup) : ((mapSet m k v).map Prod.fst).Nodup := by
  unfold mapSet
  by_cases hany : m.any (fun p => p.1 = k)
  · rw [if_pos hany]
    have : (m.map (fun p => if p.1 = k then (k, v) else p)).map Prod.fst
        = m.map Prod.fst := by
      rw [List.map_map]
      apply List.map_congr_left
      intro p _
      by_cases hp : p.1 = k <;> simp [hp]
    rw [this]
    exact h
  · rw [if_neg hany]
    rw [List.map_append, List.nodup_append]
    refine ⟨h, by simp, ?_⟩
    intro a ha hb
    simp at hb
    subst hb
    rcases List.mem_map.mp ha with ⟨p, hp, rfl⟩
    simp only [List.any_eq_true] at hany
    exact hany ⟨p, hp, by simp⟩

/-- The in-place rewrite of `mapSet` leaves lookups at other keys alone. -/
theorem lookupMap_map_update_ne {α : Type} (m : List (Nat × α)) (k k' : Nat)
    (v : α) (h : k ≠ k') :
    lookupMap (m.map (fun p => if p.1 = k then (k, v) else p)) k'
      = lookupMap m k' := by
  induction m with
  | nil => simp [lookupMap]
  | cons q rest ih =>
      by_cases hq : q.1 = k
      · unfold lookupMap
        rw [List.map_cons, if_pos hq,
          List.find?_cons_of_neg _ (by simpa using h),
          List.find?_cons_of_neg _ (by simp [hq]; omega)]
        exact ih
      · by_cases hq' : q.1 = k'
        · unfold lookupMap
          rw [List.map_cons, if_neg hq,
            List.find?_cons_of_pos _ (by simpa using hq'),
            List.find?_cons_of_pos _ (by simpa using hq')]
        · unfold lookupMap
          rw [List.map_cons, if_neg hq,
            List.find?_cons_of_neg _ (by simpa using hq'),
            List.find?_cons_of_neg _ (by simpa using hq')]
          exact ih

/-- Values kept by `mapSet` at other keys. -/
theorem lookupMap_mapSet_ne {α : Type} (m : List (Nat × α)) (k k' : Nat) (v : α)
    (h : k ≠ k') : lookupMap (mapSet m k v) k' = lookupMap m k' := by
  unfold mapSet
  by_cases hany : m.any (fun p => p.1 = k)
  · rw [if_pos hany]
    exact lookupMap_map_update_ne m k k' v h
  · rw [if_neg hany]
    unfold lookupMap
    rw [List.find?_append]
    cases hf : m.find? (fun p => decide (p.1 = k')) with
    | some x => simp
    | none =>
        simp only [Option.none_or]
        rw [List.find?_cons_of_neg _ (by simpa using h)]
        simp [List.find?]

/-- Value read back from `mapSet` at the written key. -/
theorem lookupMap_mapSet_same {α : Type} (m : List (Nat × α)) (k : Nat) (v : α) :
    lookupMap (mapSet m k v) k = some v := by
  unfold mapSet
  by_cases hany : m.any (fun p => p.1 = k)
  · rw [if_pos hany]
    simp only [List.any_eq_true] at hany
    obtain ⟨p, hp, hpk⟩ := hany
    induction m with
    | nil => simp at hp
    | cons q rest ih =>
        by_cases hq : q.1 = k
        · unfold lookupMap
          rw [List.map_cons, if_pos hq, List.find?_cons_of_pos _ (by simp)]
          rfl
        · unfold lookupMap
          rw [List.map_cons, if_neg hq,
            List.find?_cons_of_neg _ (by simpa using hq)]
          rcases List.mem_cons.mp hp with rfl | hp'
          · exact absurd (by simpa using hpk) hq
          · exact ih hp'
  · rw [if_neg hany]
    unfold lookupMap
    rw [List.find?_append]
    have hf : m.find? (fun p => decide (p.1 = k)) = none := by
      rw [List.find?_eq_none]
      intro p hp
      simp only [List.any_eq_true] at hany
      intro hd
      exact hany ⟨p, hp, hd⟩
    rw [hf]
    simp only [Option.none_or]
    rw [List.find?_cons_of_pos _ (by simp)]
    rfl


/-- One-step unfolding of the decoder walk. -/
theorem decodeBitsAux_fuel (comps : List Cls) :
    ∀ (fuel fuel' temp i : Nat), temp ≤ fuel → temp ≤ fuel' →
      decodeBitsAux comps fuel temp i = decodeBitsAux comps fuel' temp i := by
  intro fuel
  induction fuel using Nat.strong_induction_on with
  | _ fuel ih =>
      intro fuel' temp i hf hf'
      match fuel, fuel' with
      | 0, 0 => rfl
      | 0, f' + 1 =>
          have : temp = 0 := by omega
          subst this
          rw [decodeBitsAux, decodeBitsAux, if_pos rfl]
      | f + 1, 0 =>
          have : temp = 0 := by omega
          subst this
          rw [decodeBitsAux, decodeBitsAux, if_pos rfl]
      | f + 1, f' + 1 =>
          by_cases h0 : temp = 0
          · subst h0
            rw [decodeBitsAux, decodeBitsAux, if_pos rfl, if_pos rfl]
          · rw [decodeBitsAux, decodeBitsAux, if_neg h0, if_neg h0]
            have hd : temp / 2 < temp := Nat.div_lt_self (Nat.pos_of_ne_zero h0) (by omega)
            rw [ih f (by omega) f' (temp / 2) (i + 1) (by omega) (by omega)]

theorem decodeBits_eq (comps : List Cls) (temp i : Nat) :
    decodeBits comps temp i
      = if temp = 0 then []
        else (if temp % 2 = 1 then [comps.get? i] else [])
          ++ decodeBits comps (temp / 2) (i + 1) := by
  by_cases h0 : temp = 0
  · subst h0
    rw [if_pos rfl]
    rfl
  · rw [if_neg h0]
    show decodeBitsAux comps temp temp i = _
    match temp, h0 with
    | t + 1, _ =>
        rw [decodeBitsAux, if_neg (by omega : ¬t + 1 = 0)]
        congr 1
        exact decodeBitsAux_fuel comps t ((t + 1) / 2) ((t + 1) / 2) (i + 1)
          (by omega) (le_refl _)

/-- When every set bit of `temp` addresses a registered index, appending to
the registry cannot change the decoded list (old indices read the same). -/
theorem decodeBits_append (comps ext : List Cls) (temp i : Nat)
    (h : temp < 2 ^ (comps.length - i)) :
    decodeBits (comps ++ ext) temp i = decodeBits comps temp i := by
  induction temp using Nat.strong_induction_on generalizing i with
  | _ temp ih =>
      by_cases h0 : temp = 0
      · rw [decodeBits_eq (comps ++ ext) temp i, decodeBits_eq comps temp i,
          if_pos h0, if_pos h0]
      · have hiL : i < comps.length := by
          by_contra hge
          push_neg at hge
          have hz : comps.length - i = 0 := by omega
          rw [hz, pow_zero] at h
          omega
        have hget : (comps ++ ext).get? i = comps.get? i := by
          rw [List.get?_eq_getElem?, List.get?_eq_getElem?, List.getElem?_append,
            if_pos hiL]
        have hrec : temp / 2 < 2 ^ (comps.length - (i + 1)) := by
          have he : comps.length - i = (comps.length - (i + 1)) + 1 := by omega
          rw [he, pow_succ] at h
          omega
        rw [decodeBits_eq (comps ++ ext) temp i, decodeBits_eq comps temp i,
          if_neg h0, if_neg h0, hget,
          ih (temp / 2) (Nat.div_lt_self (Nat.pos_of_ne_zero h0) one_lt_two)
            (i + 1) hrec]

/-- Every entry of the decoded list is a present (registered) class when the
bits are in range. -/
theorem decodeBits_all_isSome (comps : List Cls) (temp i : Nat)
    (h : temp < 2 ^ (comps.length - i)) :
    ∀ o ∈ decodeBits comps temp i, o.isSome := by
  induction temp using Nat.strong_induction_on generalizing i with
  | _ temp ih =>
      by_cases h0 : temp = 0
      · rw [decodeBits_eq, if_pos h0]
        simp
      · have hiL : i < comps.length := by
          by_contra hge
          push_neg at hge
          have hz : comps.length - i = 0 := by omega
          rw [hz, pow_zero] at h
          omega
        have hrec : temp / 2 < 2 ^ (comps.length - (i + 1)) := by
          have he : comps.length - i = (comps.length - (i + 1)) + 1 := by omega
          rw [he, pow_succ] at h
          omega
        rw [decodeBits_eq, if_neg h0]
        intro o ho
        rcases List.mem_append.mp ho with h₁ | h₂
        · by_cases hb : temp % 2 = 1
          · rw [if_pos hb] at h₁
            simp at h₁
            subst h₁
            simp [List.get?_eq_getElem?, List.getElem?_eq_getElem hiL]
          · rw [if_neg hb] at h₁
            simp at h₁
        · exact ih (temp / 2) (Nat.div_lt_self (Nat.pos_of_ne_zero h0) one_lt_two)
            (i + 1) hrec o h₂

/-- Membership in the decoded list: exactly the registered classes whose bit
is set (offset by the walk's start index). -/
theorem mem_decodeBits (comps : List Cls) (d i : Nat) (c : Cls) :
    some c ∈ decodeBits comps d i
      ↔ ∃ j, comps.get? (i + j) = some c ∧ d.testBit j := by
  induction d using Nat.strong_induction_on generalizing i with
  | _ d ih =>
      by_cases h0 : d = 0
      · subst h0
        rw [decodeBits_eq, if_pos rfl]
        simp [Nat.zero_testBit]
      · rw [decodeBits_eq, if_neg h0]
        rw [List.mem_append,
          ih (d / 2) (Nat.div_lt_self (Nat.pos_of_ne_zero h0) one_lt_two) (i + 1)]
        constructor
        · rintro (h₁ | ⟨j, hj, hb⟩)
          · by_cases hb : d % 2 = 1
            · rw [if_pos hb] at h₁
              simp at h₁
              exact ⟨0, by simpa using h₁.symm, by simp [Nat.testBit_zero, hb]⟩
            · rw [if_neg hb] at h₁
              simp at h₁
          · exact ⟨j + 1, by rw [show i + (j + 1) = i + 1 + j by omega]; exact hj,
              by rw [Nat.testBit_succ]; exact hb⟩
        · rintro ⟨j, hj, hb⟩
          cases j with
          | zero =>
              left
              rw [Nat.testBit_zero] at hb
              simp at hb
              rw [if_pos hb]
              simp at hj
              simp [hj]
          | succ j' =>
              right
              rw [Nat.testBit_succ] at hb
              exact ⟨j', by rw [show i + 1 + j' = i + (j' + 1) by omega]; exact hj, hb⟩

/-- Clearing bits (`a & ~b`) stays below any power bound on `a`. -/
theorem ldiff_lt_two_pow (a b n : Nat) (h : a < 2 ^ n) : Nat.ldiff a b < 2 ^ n := by
  apply Nat.lt_pow_two_of_testBit
  intro j hj
  rw [Nat.testBit_ldiff,
    Nat.testBit_lt_two_pow (lt_of_lt_of_le h (Nat.pow_le_pow_right (by norm_num) hj))]
  rfl

/-- A single shifted bit with index below `n` is below `2 ^ n`. -/
theorem shiftLeft_one_lt (i n : Nat) (h : i < n) : (1 <<< i) < 2 ^ n := by
  rw [Nat.shiftLeft_eq, one_mul]
  exact Nat.pow_lt_pow_right (by norm_num) h

/-- Geometry of a world table: its archetype only uses registered bits, its
sized component list and its column count are those of the decoded archetype. -/
def TableShape (components : List Cls) (t : Table) : Prop :=
  t.archetype < 2 ^ components.length
  ∧ t.compsT = (decodeBits components t.archetype 0).reduceOption.filter isSizedComponent
  ∧ t.columns.length = (decodeBits components t.archetype 0).length

/-- Structural invariant of every reachable world (well-formed or not): the
registry starts with `Entity` and has no duplicates; slot 0 is the sentinel;
table ids equal their slots; the archetype map is a key-unique index of the
tables; every table satisfies `TableShape`; locations address existing
tables; staged destinations only use registered bits; the staging maps are
key-unique. -/
structure BaseInv (s : WorldState) : Prop where
  regHead : s.components.get? 0 = some EntityC
  regNodup : s.components.Nodup
  sentinel : s.tables.get? 0 = some createTable
  ids : ∀ i < s.tables.length, (s.tables.getD i default).tid = i
  mapCoh : ∀ p ∈ s.archToTable,
    p.2 < s.tables.length ∧ (s.tables.getD p.2 default).archetype = p.1
  mapKeys : (s.archToTable.map Prod.fst).Nodup
  mapCompl : ∀ i < s.tables.length,
    ((s.tables.getD i default).archetype, i) ∈ s.archToTable
  shape : ∀ i < s.tables.length, TableShape s.components (s.tables.getD i default)
  locsLt : ∀ e, (s.locs e).tableId < s.tables.length
  destsBound : ∀ p ∈ s.dests, p.2 < 2 ^ s.components.length
  destsKeys : (s.dests.map Prod.fst).Nodup
  pendKeys : (s.pending.map Prod.fst).Nodup

/-- `TableShape` is stable under registry growth. -/
theorem TableShape_mono (components ext : List Cls) (t : Table)
    (h : TableShape components t) : TableShape (components ++ ext) t := by
  obtain ⟨hb, hc, hl⟩ := h
  have hd : decodeBits (components ++ ext) t.archetype 0
      = decodeBits components t.archetype 0 :=
    decodeBits_append components ext t.archetype 0 (by simpa using hb)
  refine ⟨lt_of_lt_of_le hb (Nat.pow_le_pow_right (by norm_num) (by simp)), ?_, ?_⟩
  · rw [hd]; exact hc
  · rw [hd]; exact hl

/-- `indexOf?` returns an in-range index holding the element. -/
theorem indexOf?_spec (l : List Cls) (x : Cls) (i : Nat)
    (h : l.indexOf? x = some i) : i < l.length ∧ l.get? i = some x := by
  induction l generalizing i with
  | nil => simp at h
  | cons a as ih =>
      rw [List.indexOf?_cons] at h
      by_cases hax : a == x
      · rw [if_pos hax] at h
        simp at h
        subst h
        exact ⟨by simp, by simpa using (eq_of_beq hax)⟩
      · rw [if_neg hax] at h
        rcases Option.map_eq_some'.mp h with ⟨j, hj, rfl⟩
        obtain ⟨h₁, h₂⟩ := ih j hj
        exact ⟨by simpa using h₁, by simpa using h₂⟩

/-- `getComponentId` only appends to the registry, leaving the rest of the
world alone; the returned id addresses the component in the new registry. -/
theorem getComponentIdW_spec (s : WorldState) (c : Cls) :
    (∃ ext, (getComponentIdW s c).2 = { s with components := s.components ++ ext })
    ∧ (getComponentIdW s c).1 < (getComponentIdW s c).2.components.length
    ∧ (getComponentIdW s c).2.components.get? (getComponentIdW s c).1 = some c
    ∧ s.components.length ≤ (getComponentIdW s c).2.components.length := by
  unfold getComponentIdW
  cases hf : s.components.indexOf? c with
  | some i =>
      obtain ⟨h₁, h₂⟩ := indexOf?_spec s.components c i hf
      exact ⟨⟨[], by simp⟩, h₁, h₂, le_refl _⟩
  | none =>
      refine ⟨⟨[c], rfl⟩, by simp, ?_, by simp⟩
      simp [List.get?_eq_getElem?, List.getElem?_append_right (le_refl _)]

/-- `getComponentId` preserves the structural invariant. -/
theorem BaseInv_getComponentIdW (s : WorldState) (c : Cls) (h : BaseInv s) :
    BaseInv (getComponentIdW s c).2 := by
  unfold getComponentIdW
  cases hf : s.components.indexOf? c with
  | some i => exact h
  | none =>
      have hnotmem : c ∉ s.components := by
        intro hmem
        have := List.indexOf?_eq_none_iff.mp hf c hmem
        simp at this
      dsimp only
      refine ⟨?_, ?_, h.sentinel, h.ids, h.mapCoh, h.mapKeys, h.mapCompl, ?_,
        h.locsLt, ?_, h.destsKeys, h.pendKeys⟩
      · have hrh := h.regHead
        rw [List.get?_eq_getElem?] at hrh
        have hlt : 0 < s.components.length := by
          by_contra hc
          push_neg at hc
          rw [List.getElem?_eq_none (by omega)] at hrh
          exact Option.noConfusion hrh
        rw [List.get?_eq_getElem?, List.getElem?_append, if_pos hlt]
        exact hrh
      · simp only [List.nodup_append]
        exact ⟨h.regNodup, by simp, by
          intro a ha hb
          simp at hb
          subst hb
          exact hnotmem ha⟩
      · intro i hi
        exact TableShape_mono _ [c] _ (h.shape i hi)
      · intro p hp
        exact lt_of_lt_of_le (h.destsBound p hp)
          (Nat.pow_le_pow_right (by norm_num) (by simp))

/-- OR-ing keeps the Entity bit. -/
theorem odd_lor (a m : Nat) (h : a % 2 = 1) : (a ||| m) % 2 = 1 := by
  have ht : (a ||| m).testBit 0 = true := by
    rw [Nat.testBit_lor, Nat.testBit_zero]
    simp [h]
  rw [Nat.testBit_zero] at ht
  simpa using ht

/-- `1 <<< i` tests exactly bit `i`. -/
theorem testBit_one_shiftLeft (i j : Nat) :
    ((1 : Nat) <<< i).testBit j = decide (i = j) := by
  rw [Nat.shiftLeft_eq, one_mul, Nat.testBit_two_pow]

/-- Registry indices are stable under growth. -/
theorem get?_stable (l ext : List Cls) (i : Nat) (c : Cls)
    (h : l.get? i = some c) : (l ++ ext).get? i = some c := by
  have hi : i < l.length := by
    rw [List.get?_eq_getElem?] at h
    by_contra hc
    push_neg at hc
    rw [List.getElem?_eq_none hc] at h
    exact Option.noConfusion h
  rw [List.get?_eq_getElem?, List.getElem?_append, if_pos hi]
  rw [List.get?_eq_getElem?] at h
  exact h

/-- The archetype accumulation fold: it only appends to the registry and
preserves the structural invariant; the accumulated mask keeps bounds and the
Entity bit; its bits are the initial bits plus one registered bit per folded
class (read back through the final registry). -/
theorem archFoldl_spec (cs : List Cls) (a : Nat) (s : WorldState) (h : BaseInv s) :
    (∃ ext, (cs.foldl archFold (a, s)).2 = { s with components := s.components ++ ext })
    ∧ BaseInv (cs.foldl archFold (a, s)).2
    ∧ (a < 2 ^ s.components.length →
        (cs.foldl archFold (a, s)).1 < 2 ^ (cs.foldl archFold (a, s)).2.components.length)
    ∧ (a % 2 = 1 → (cs.foldl archFold (a, s)).1 % 2 = 1)
    ∧ s.components.length ≤ (cs.foldl archFold (a, s)).2.components.length
    ∧ (∀ j, (cs.foldl archFold (a, s)).1.testBit j
        ↔ (a.testBit j ∨ ∃ c ∈ cs,
            (cs.foldl archFold (a, s)).2.components.get? j = some c)) := by
  induction cs generalizing a s with
  | nil => exact ⟨⟨[], by simp⟩, h, fun hb => hb, fun ho => ho, le_refl _, by simp⟩
  | cons c rest ih =>
      obtain ⟨⟨ext₁, hext₁⟩, hlt₁, hget₁, hlen₁⟩ := getComponentIdW_spec s c
      have hinv₁ : BaseInv (getComponentIdW s c).2 := BaseInv_getComponentIdW s c h
      have hstep : (c :: rest).foldl archFold (a, s)
          = rest.foldl archFold
              (a ||| (1 <<< (getComponentIdW s c).1), (getComponentIdW s c).2) := by
        rw [List.foldl_cons]
        rfl
      obtain ⟨⟨ext₂, hext₂⟩, hinv₂, hb₂, ho₂, hlen₂, hbits₂⟩ :=
        ih (a ||| (1 <<< (getComponentIdW s c).1)) (getComponentIdW s c).2 hinv₁
      rw [hstep]
      refine ⟨?_, hinv₂, ?_, ?_, ?_, ?_⟩
      · refine ⟨ext₁ ++ ext₂, ?_⟩
        rw [hext₂, hext₁]
        simp
      · intro hb
        apply hb₂
        rw [hext₁]
        exact Nat.or_lt_two_pow
          (lt_of_lt_of_le hb (Nat.pow_le_pow_right (by norm_num) (by simp)))
          (by
            rw [hext₁] at hlt₁
            exact shiftLeft_one_lt _ _ hlt₁)
      · intro ho
        exact ho₂ (odd_lor _ _ ho)
      · calc s.components.length ≤ (getComponentIdW s c).2.components.length := hlen₁
          _ ≤ _ := hlen₂
      · intro j
        rw [hbits₂ j, Nat.testBit_lor, testBit_one_shiftLeft]
        simp only [Bool.or_eq_true, decide_eq_true_eq]
        have hgetfin : (rest.foldl archFold
            (a ||| (1 <<< (getComponentIdW s c).1),
              (getComponentIdW s c).2)).2.components.get? (getComponentIdW s c).1
            = some c := by
          rw [hext₂]
          exact get?_stable _ _ _ _ hget₁
        constructor
        · rintro ((ha | hc) | ⟨d, hd, hget⟩)
          · exact Or.inl ha
          · right
            refine ⟨c, by simp, ?_⟩
            rw [← hc]
            exact hgetfin
          · exact Or.inr ⟨d, by simp [hd], hget⟩
        · rintro (ha | ⟨d, hd, hget⟩)
          · exact Or.inl (Or.inl ha)
          · rcases List.mem_cons.mp hd with hd0 | hd'
            · rw [hd0] at hget
              left
              right
              have hnodup : (rest.foldl archFold
                  (a ||| (1 <<< (getComponentIdW s c).1),
                    (getComponentIdW s c).2)).2.components.Nodup := hinv₂.regNodup
              have hj : (getComponentIdW s c).1 = j := by
                have h1 := hgetfin
                rw [List.get?_eq_getElem?] at h1 hget
                have hilt : (getComponentIdW s c).1
                    < (rest.foldl archFold
                        (a ||| (1 <<< (getComponentIdW s c).1),
                          (getComponentIdW s c).2)).2.components.length := by
                  by_contra hc2
                  push_neg at hc2
                  rw [List.getElem?_eq_none hc2] at h1
                  exact Option.noConfusion h1
                exact List.getElem?_inj hilt hnodup (h1.trans hget.symm)
              exact hj
            · exact Or.inr ⟨d, hd', hget⟩

/-- A successful `lookupMap` exhibits a member. -/
theorem lookupMap_mem {α : Type} (m : List (Nat × α)) (k : Nat) (v : α)
    (h : lookupMap m k = some v) : (k, v) ∈ m := by
  unfold lookupMap at h
  rcases Option.map_eq_some'.mp h with ⟨p, hf, hv⟩
  have hkey : p.1 = k := by simpa using List.find?_some hf
  have hmem := List.mem_of_find?_eq_some hf
  have : p = (k, v) := by
    obtain ⟨p₁, p₂⟩ := p
    simp at hkey hv
    simp [hkey, hv]
  rw [← this]
  exact hmem

/-- The staged-or-current archetype only uses registered bits. -/
theorem getEntityArchetype_bound (s : WorldState) (e : Nat) (h : BaseInv s) :
    getEntityArchetype s e < 2 ^ s.components.length := by
  unfold getEntityArchetype
  cases hd : lookupMap s.dests e with
  | some d => exact h.destsBound (e, d) (lookupMap_mem _ _ _ hd)
  | none =>
      unfold getTableArchetype
      exact (h.shape (s.locs e).tableId (h.locsLt e)).1

/-- `getD`-form of list append, left part. -/
theorem getD_append_left {α : Type} [Inhabited α] (l : List α) (t : α) (i : Nat)
    (h : i < l.length) : (l ++ [t]).getD i default = l.getD i default := by
  rw [List.getD_eq_getElem?_getD, List.getD_eq_getElem?_getD, List.getElem?_append,
    if_pos h]

/-- `getD`-form of list append, appended element. -/
theorem getD_append_at {α : Type} [Inhabited α] (l : List α) (t : α) :
    (l ++ [t]).getD l.length default = t := by
  rw [List.getD_eq_getElem?_getD, List.getElem?_append, if_neg (by omega)]
  simp

/-- Members of `mapSet` are old members or the written pair. -/
theorem mem_mapSet {α : Type} (m : List (Nat × α)) (k : Nat) (v : α)
    (p : Nat × α) (hp : p ∈ mapSet m k v) : p ∈ m ∨ p = (k, v) := by
  unfold mapSet at hp
  by_cases hany : m.any (fun q => q.1 = k)
  · rw [if_pos hany] at hp
    rcases List.mem_map.mp hp with ⟨q, hq, hqe⟩
    by_cases hqk : q.1 = k
    · rw [if_pos hqk] at hqe
      exact Or.inr hqe.symm
    · rw [if_neg hqk] at hqe
      exact Or.inl (hqe ▸ hq)
  · rw [if_neg hany] at hp
    rcases List.mem_append.mp hp with h₁ | h₂
    · exact Or.inl h₁
    · simp at h₂
      exact Or.inr (by simp [h₂])

/-- The structural invariant does not constrain `nextId` and is closed под
replacing the staging maps and locations by ones satisfying its bounds. -/
theorem BaseInv_update (s : WorldState) (n : Nat) (d : List (Nat × Nat))
    (pd : List (Nat × List Value)) (L : Nat → Loc) (h : BaseInv s)
    (hd : ∀ p ∈ d, p.2 < 2 ^ s.components.length)
    (hdk : (d.map Prod.fst).Nodup) (hpk : (pd.map Prod.fst).Nodup)
    (hL : ∀ e, (L e).tableId < s.tables.length) :
    BaseInv { s with nextId := n, dests := d, pending := pd, locs := L } :=
  ⟨h.regHead, h.regNodup, h.sentinel, h.ids, h.mapCoh, h.mapKeys, h.mapCompl,
    h.shape, hL, hd, hdk, hpk⟩

/-- The one-bit destinations staged by the entity API stay in bounds. -/
theorem mapSet_dests_bound (s : WorldState) (h : BaseInv s) (k a : Nat)
    (ha : a < 2 ^ s.components.length) :
    ∀ p ∈ mapSet s.dests k a, p.2 < 2 ^ s.components.length := by
  intro p hp
  rcases mem_mapSet _ _ _ p hp with h₁ | h₂
  · exact h.destsBound p h₁
  · rw [h₂]
    exact ha

/-- `spawn` preserves the structural invariant. -/
theorem BaseInv_spawnW (s : WorldState) (comps : List Value) (h : BaseInv s) :
    BaseInv (spawnW s comps).2 := by
  have hlen : 0 < s.components.length := by
    have hrh := h.regHead
    rw [List.get?_eq_getElem?] at hrh
    by_contra hc
    push_neg at hc
    rw [List.getElem?_eq_none (by omega)] at hrh
    exact Option.noConfusion hrh
  simp only [spawnW]
  have hone : (1 : Nat) < 2 ^ s.components.length :=
    Nat.one_lt_two_pow_iff.mpr (by omega)
  have hinv₁ : BaseInv { s with nextId := s.nextId + 1, dests := mapSet s.dests s.nextId 1, pending := s.pending, locs := s.locs } :=
    BaseInv_update s _ _ _ _ h (mapSet_dests_bound s h _ 1 hone)
      (mapSet_keys_nodup _ _ _ h.destsKeys) h.pendKeys h.locsLt
  rw [List.foldl_map Value.ctor archFold comps _ |>.symm]
  obtain ⟨⟨ext, hext⟩, hinv₂, hb₂, _, hlen₂, _⟩ :=
    archFoldl_spec (comps.map Value.ctor) _ _ hinv₁
  have hbound := hb₂ (getEntityArchetype_bound _ s.nextId hinv₁)
  exact BaseInv_update _ _ _ _ _ hinv₂
    (mapSet_dests_bound _ hinv₂ s.nextId _ hbound)
    (mapSet_keys_nodup _ _ _ hinv₂.destsKeys)
    (mapSet_keys_nodup _ _ _ hinv₂.pendKeys) hinv₂.locsLt

/-- `insertTag` preserves the structural invariant. -/
theorem BaseInv_insertTagW (s : WorldState) (eid : Nat) (c : Cls) (h : BaseInv s) :
    BaseInv (insertTagW s eid c) := by
  simp only [insertTagW]
  obtain ⟨⟨ext, hext⟩, hlt, _, hlen⟩ := getComponentIdW_spec s c
  have hinv' : BaseInv (getComponentIdW s c).2 := BaseInv_getComponentIdW s c h
  have hcur : getEntityArchetype s eid < 2 ^ (getComponentIdW s c).2.components.length := by
    refine lt_of_lt_of_le (getEntityArchetype_bound s eid h) ?_
    exact Nat.pow_le_pow_right (by norm_num) hlen
  have hb : getEntityArchetype s eid ||| (1 <<< (getComponentIdW s c).1)
      < 2 ^ (getComponentIdW s c).2.components.length :=
    Nat.or_lt_two_pow hcur (shiftLeft_one_lt _ _ hlt)
  exact BaseInv_update _ _ _ _ _ hinv'
    (mapSet_dests_bound _ hinv' eid _ hb)
    (mapSet_keys_nodup _ _ _ hinv'.destsKeys) hinv'.pendKeys hinv'.locsLt

/-- `insert` preserves the structural invariant. -/
theorem BaseInv_insertW (s : WorldState) (eid : Nat) (v : Value) (h : BaseInv s) :
    BaseInv (insertW s eid v) := by
  simp only [insertW]
  have hinv₁ : BaseInv (insertTagW s eid v.ctor) := BaseInv_insertTagW s eid v.ctor h
  exact BaseInv_update _ _ _ _ _ hinv₁ hinv₁.destsBound hinv₁.destsKeys
    (mapSet_keys_nodup _ _ _ hinv₁.pendKeys) hinv₁.locsLt

/-- `remove` preserves the structural invariant. -/
theorem BaseInv_removeW (s : WorldState) (eid : Nat) (c : Cls) (h : BaseInv s) :
    BaseInv (removeW s eid c) := by
  simp only [removeW]
  obtain ⟨⟨ext, hext⟩, hlt, _, hlen⟩ := getComponentIdW_spec s c
  have hinv' : BaseInv (getComponentIdW s c).2 := BaseInv_getComponentIdW s c h
  have hb : Nat.ldiff (getEntityArchetype s eid) (1 <<< (getComponentIdW s c).1)
      < 2 ^ (getComponentIdW s c).2.components.length := by
    apply ldiff_lt_two_pow
    refine lt_of_lt_of_le (getEntityArchetype_bound s eid h) ?_
    exact Nat.pow_le_pow_right (by norm_num) hlen
  exact BaseInv_update _ _ _ _ _ hinv'
    (mapSet_dests_bound _ hinv' eid _ hb)
    (mapSet_keys_nodup _ _ _ hinv'.destsKeys) hinv'.pendKeys hinv'.locsLt

/-- `despawn` preserves the structural invariant. -/
theorem BaseInv_despawnW (s : WorldState) (eid : Nat) (h : BaseInv s) :
    BaseInv (despawnW s eid) := by
  simp only [despawnW]
  have hzero : (0 : Nat) < 2 ^ s.components.length := Nat.pos_pow_of_pos _ (by norm_num)
  have hinv₁ : BaseInv { s with nextId := s.nextId, dests := mapSet s.dests eid 0, pending := s.pending, locs := s.locs } :=
    BaseInv_update s _ _ _ _ h (mapSet_dests_bound s h eid 0 hzero)
      (mapSet_keys_nodup _ _ _ h.destsKeys) h.pendKeys h.locsLt
  cases hp : lookupMap s.pending eid with
  | some vs =>
      exact BaseInv_update s _ _ _ _ h (mapSet_dests_bound s h eid 0 hzero)
        (mapSet_keys_nodup _ _ _ h.destsKeys)
        (mapSet_keys_nodup _ _ _ h.pendKeys) h.locsLt
  | none => exact hinv₁

/-- `World.getTable`: preserves the invariant; the returned slot holds a table
with the requested archetype; existing tables, the registry, the staging maps
and the locations are untouched. -/
theorem getTableW_spec (s : WorldState) (d : Nat) (h : BaseInv s)
    (hd : d < 2 ^ s.components.length) :
    BaseInv (getTableW s d).2
    ∧ (getTableW s d).1 < (getTableW s d).2.tables.length
    ∧ ((getTableW s d).2.tables.getD (getTableW s d).1 default).archetype = d
    ∧ (getTableW s d).2.components = s.components
    ∧ s.tables.length ≤ (getTableW s d).2.tables.length
    ∧ (∀ i < s.tables.length,
        (getTableW s d).2.tables.getD i default = s.tables.getD i default)
    ∧ (getTableW s d).2.locs = s.locs
    ∧ (getTableW s d).2.dests = s.dests
    ∧ (getTableW s d).2.pending = s.pending
    ∧ (getTableW s d).2.nextId = s.nextId := by
  simp only [getTableW]
  cases hf : lookupMap s.archToTable d with
  | some t =>
      obtain ⟨hlt, harch⟩ := h.mapCoh (d, t) (lookupMap_mem _ _ _ hf)
      exact ⟨h, hlt, harch, rfl, le_refl _, fun i _ => rfl, rfl, rfl, rfl, rfl⟩
  | none =>
      have hkey : ∀ p ∈ s.archToTable, p.1 ≠ d := (lookupMap_eq_none_iff _ _).mp hf
      have hshape : TableShape s.components
          (mkTable s.tables.length d (getComponentsForArchetype s d)) := by
        refine ⟨hd, rfl, ?_⟩
        simp [mkTable, getComponentsForArchetype]
      refine ⟨?_, by simp, ?_, rfl, by simp, ?_, rfl, rfl, rfl, rfl⟩
      · refine ⟨h.regHead, h.regNodup, ?_, ?_, ?_, ?_, ?_, ?_, ?_, h.destsBound,
          h.destsKeys, h.pendKeys⟩
        · rw [List.get?_eq_getElem?, List.getElem?_append, if_pos]
          · have hs := h.sentinel
            rw [List.get?_eq_getElem?] at hs
            exact hs
          · have hs := h.sentinel
            rw [List.get?_eq_getElem?] at hs
            by_contra hc
            push_neg at hc
            rw [List.getElem?_eq_none (by omega)] at hs
            exact Option.noConfusion hs
        · intro i hi
          rw [List.length_append, List.length_singleton] at hi
          by_cases hil : i < s.tables.length
          · rw [getD_append_left _ _ _ hil]
            exact h.ids i hil
          · have : i = s.tables.length := by omega
            subst this
            rw [getD_append_at]
            rfl
        · intro p hp
          rcases List.mem_append.mp hp with h₁ | h₂
          · obtain ⟨hlt, harch⟩ := h.mapCoh p h₁
            refine ⟨by simp; omega, ?_⟩
            rw [getD_append_left _ _ _ hlt]
            exact harch
          · simp at h₂
            subst h₂
            refine ⟨by simp, ?_⟩
            rw [getD_append_at]
            rfl
        · rw [List.map_append, List.nodup_append]
          refine ⟨h.mapKeys, by simp, ?_⟩
          intro a ha hb
          simp at hb
          subst hb
          rcases List.mem_map.mp ha with ⟨p, hp, rfl⟩
          exact hkey p hp rfl
        · intro i hi
          rw [List.length_append, List.length_singleton] at hi
          by_cases hil : i < s.tables.length
          · rw [getD_append_left _ _ _ hil]
            exact List.mem_append_left _ (h.mapCompl i hil)
          · have : i = s.tables.length := by omega
            subst this
            rw [getD_append_at]
            exact List.mem_append_right _ (by simp [mkTable])
        · intro i hi
          rw [List.length_append, List.length_singleton] at hi
          by_cases hil : i < s.tables.length
          · rw [getD_append_left _ _ _ hil]
            exact h.shape i hil
          · have : i = s.tables.length := by omega
            subst this
            rw [getD_append_at]
            exact hshape
        · intro e
          refine lt_of_lt_of_le (h.locsLt e) (by simp)
      · rw [getD_append_at]
        rfl
      · intro i hi
        exact getD_append_left _ _ _ hi

/-- The first `move` loop rewrites each processed column by its
`swapRemove` and keeps everything else in the accumulator. -/
theorem foldl_moveStep1_cols (tgt : Table) (row : Int)
    (l : List (Cls × List (Option Value))) (acc : MoveAcc) :
    (l.foldl (moveStep1 tgt row) acc).cols
      = acc.cols ++ l.map (fun p => (swapRemove p.2 row).2) := by
  induction l generalizing acc with
  | nil => simp
  | cons p rest ih =>
      obtain ⟨c, col⟩ := p
      rw [List.foldl_cons, ih]
      rcases hsw : swapRemove col row with ⟨removed, col'⟩
      simp only [moveStep1, hsw]
      cases removed <;> simp [hsw]

/-- `pushColumn` only changes one column's contents. -/
theorem pushColumn_fields (t : Table) (c : Cls) (v : Value) :
    (t.pushColumn c v).tid = t.tid
    ∧ (t.pushColumn c v).archetype = t.archetype
    ∧ (t.pushColumn c v).compsT = t.compsT
    ∧ (t.pushColumn c v).columns.length = t.columns.length := by
  unfold Table.pushColumn
  cases t.getColumnIdx c with
  | some j => simp
  | none => simp

/-- Pushing the staged values only changes column contents. -/
theorem foldl_pushColumn_fields (l : List (Cls × Value)) (t : Table) :
    (l.foldl (fun t kv => t.pushColumn kv.1 kv.2) t).tid = t.tid
    ∧ (l.foldl (fun t kv => t.pushColumn kv.1 kv.2) t).archetype = t.archetype
    ∧ (l.foldl (fun t kv => t.pushColumn kv.1 kv.2) t).compsT = t.compsT
    ∧ (l.foldl (fun t kv => t.pushColumn kv.1 kv.2) t).columns.length
        = t.columns.length := by
  induction l generalizing t with
  | nil => exact ⟨rfl, rfl, rfl, rfl⟩
  | cons kv rest ih =>
      rw [List.foldl_cons]
      obtain ⟨h₁, h₂, h₃, h₄⟩ := ih (t.pushColumn kv.1 kv.2)
      obtain ⟨g₁, g₂, g₃, g₄⟩ := pushColumn_fields t kv.1 kv.2
      exact ⟨h₁.trans g₁, h₂.trans g₂, h₃.trans g₃, h₄.trans g₄⟩

/-- The same-table overwrite loop only changes column contents. -/
theorem foldl_sameMove_fields (comps : List Value) (t : Table) :
    (comps.foldl (fun t v =>
      match t.getColumnIdx v.ctor with
      | some j => { t with columns := t.columns.set j (jsWrite (t.columns.getD j []) row v) }
      | none => t) t).tid = t.tid
    ∧ (comps.foldl (fun t v =>
      match t.getColumnIdx v.ctor with
      | some j => { t with columns := t.columns.set j (jsWrite (t.columns.getD j []) row v) }
      | none => t) t).archetype = t.archetype
    ∧ (comps.foldl (fun t v =>
      match t.getColumnIdx v.ctor with
      | some j => { t with columns := t.columns.set j (jsWrite (t.columns.getD j []) row v) }
      | none => t) t).compsT = t.compsT
    ∧ (comps.foldl (fun t v =>
      match t.getColumnIdx v.ctor with
      | some j => { t with columns := t.columns.set j (jsWrite (t.columns.getD j []) row v) }
      | none => t) t).columns.length = t.columns.length := by
  induction comps generalizing t with
  | nil => exact ⟨rfl, rfl, rfl, rfl⟩
  | cons v rest ih =>
      rw [List.foldl_cons]
      rcases hidx : t.getColumnIdx v.ctor with _ | j
      · simpa [hidx] using ih t
      · obtain ⟨h₁, h₂, h₃, h₄⟩ := ih { t with columns := t.columns.set j (jsWrite (t.columns.getD j []) row v) }
        rw [hidx] at *
        exact ⟨h₁, h₂, h₃, by rw [h₄]; simp⟩

/-- `move` never changes a table's id, archetype, sized component list or
column count, nor the number of tables. -/
theorem moveTables_struct (tables : List Table) (srcIdx tgtIdx : Nat) (row : Int)
    (comps : List Value)
    (hsc : (tables.getD srcIdx default).compsT.length
      ≤ (tables.getD srcIdx default).columns.length) :
    (moveTables tables srcIdx tgtIdx row comps).tables.length = tables.length
    ∧ ∀ i, ((moveTables tables srcIdx tgtIdx row comps).tables.getD i default).tid
          = (tables.getD i default).tid
      ∧ ((moveTables tables srcIdx tgtIdx row comps).tables.getD i default).archetype
          = (tables.getD i default).archetype
      ∧ ((moveTables tables srcIdx tgtIdx row comps).tables.getD i default).compsT
          = (tables.getD i default).compsT
      ∧ ((moveTables tables srcIdx tgtIdx row comps).tables.getD i
            default).columns.length
          = (tables.getD i default).columns.length := by
  simp only [moveTables]
  by_cases hst : srcIdx = tgtIdx
  · rw [if_pos hst]
    obtain ⟨h₁, h₂, h₃, h₄⟩ := foldl_sameMove_fields comps (tables.getD srcIdx default)
    refine ⟨by simp, ?_⟩
    intro i
    by_cases hi : i = srcIdx
    · subst hi
      by_cases hlen : i < tables.length
      · rw [getD_set_same _ _ _ _ hlen]
        exact ⟨h₁, h₂, h₃, h₄⟩
      · rw [List.getD_eq_getElem?_getD, List.getElem?_set, if_pos rfl, if_neg hlen,
          List.getD_eq_getElem?_getD, List.getElem?_eq_none (by omega)]
        exact ⟨rfl, rfl, rfl, rfl⟩
    · rw [getD_set_diff _ _ _ _ _ (fun he => hi he.symm)]
      exact ⟨rfl, rfl, rfl, rfl⟩
  · rw [if_neg hst]
    have hcols := foldl_moveStep1_cols (tables.getD tgtIdx default) row
      ((tables.getD srcIdx default).compsT.zip (tables.getD srcIdx default).columns)
      ⟨[], [], []⟩
    obtain ⟨g₁, g₂, g₃, g₄⟩ := foldl_pushColumn_fields
      (List.foldl (fun m v =>
        if (tables.getD tgtIdx default).hasColumn v.ctor = true
        then mapSetC m v.ctor v else m)
        (List.foldl (moveStep1 (tables.getD tgtIdx default) row)
          { cols := [], final := [], fixups := [] }
          ((tables.getD srcIdx default).compsT.zip
            (tables.getD srcIdx default).columns)).final comps)
      (tables.getD tgtIdx default)
    have hsrclen : ([] ++ ((tables.getD srcIdx default).compsT.zip
          (tables.getD srcIdx default).columns).map
            (fun p : Cls × List (Option Value) => (swapRemove p.2 row).2)
        ++ (tables.getD srcIdx default).columns.drop
            (tables.getD srcIdx default).compsT.length).length
        = (tables.getD srcIdx default).columns.length := by
      rw [List.nil_append, List.length_append, List.length_map, List.length_zip,
        List.length_drop]
      omega
    refine ⟨by simp, ?_⟩
    intro i
    by_cases hit : i = tgtIdx
    · subst hit
      by_cases hlen : i < tables.length
      · rw [getD_set_same _ _ _ _ (by simpa using hlen)]
        exact ⟨g₁, g₂, g₃, g₄⟩
      · rw [List.getD_eq_getElem?_getD, List.getElem?_set, if_pos rfl,
          if_neg (by simpa using hlen),
          List.getD_eq_getElem?_getD, List.getElem?_eq_none (by omega)]
        exact ⟨rfl, rfl, rfl, rfl⟩
    · rw [getD_set_diff _ _ _ _ _ (fun he => hit he.symm)]
      by_cases his : i = srcIdx
      · subst his
        by_cases hlen : i < tables.length
        · rw [getD_set_same _ _ _ _ hlen]
          refine ⟨rfl, rfl, rfl, ?_⟩
          dsimp only
          rw [hcols]
          exact hsrclen
        · rw [List.getD_eq_getElem?_getD, List.getElem?_set, if_pos rfl,
            if_neg hlen, List.getD_eq_getElem?_getD,
            List.getElem?_eq_none (by omega)]
          exact ⟨rfl, rfl, rfl, rfl⟩
      · rw [getD_set_diff _ _ _ _ _ (fun he => his he.symm)]
        exact ⟨rfl, rfl, rfl, rfl⟩

/-- Back-fill fix-ups only change rows, never the table id. -/
theorem applyFixups_tableId (locs : Nat → Loc) (fixups : List (Nat × Nat)) (e : Nat) :
    ((applyFixups locs fixups) e).tableId = (locs e).tableId := by
  induction fixups generalizing locs with
  | nil => rfl
  | cons p rest ih =>
      unfold applyFixups at ih ⊢
      rw [List.foldl_cons, ih]
      by_cases he : e = p.1 <;> simp [he]

/-- The location returned by `move` names the target table's id (the source's
in the same-table branch). -/
theorem moveTables_ret (tables : List Table) (srcIdx tgtIdx : Nat) (row : Int)
    (comps : List Value) :
    (moveTables tables srcIdx tgtIdx row comps).retTableId
      = if srcIdx = tgtIdx then (tables.getD srcIdx default).tid
        else (tables.getD tgtIdx default).tid := by
  simp only [moveTables]
  by_cases hst : srcIdx = tgtIdx
  · rw [if_pos hst, if_pos hst]
    exact (foldl_sameMove_fields comps (tables.getD srcIdx default)).1
  · rw [if_neg hst, if_neg hst]

/-- The sentinel (no columns at all) is never touched by `move`. -/
theorem moveTables_sentinel (tables : List Table) (srcIdx tgtIdx : Nat)
    (row : Int) (comps : List Value)
    (hsent : tables.getD 0 default = createTable)
    (hsc : (tables.getD srcIdx default).compsT.length
      ≤ (tables.getD srcIdx default).columns.length) :
    (moveTables tables srcIdx tgtIdx row comps).tables.getD 0 default
      = createTable := by
  obtain ⟨hlen, hfields⟩ := moveTables_struct tables srcIdx tgtIdx row comps hsc
  obtain ⟨h₁, h₂, h₃, h₄⟩ := hfields 0
  rw [hsent] at h₁ h₂ h₃ h₄
  have hcols : ((moveTables tables srcIdx tgtIdx row comps).tables.getD 0
      default).columns = [] := by
    have : ((moveTables tables srcIdx tgtIdx row comps).tables.getD 0
        default).columns.length = 0 := by
      rw [h₄]
      rfl
    exact List.length_eq_zero.mp this
  rcases hT : (moveTables tables srcIdx tgtIdx row comps).tables.getD 0 default
    with ⟨a, b, c, d⟩
  rw [hT] at h₁ h₂ h₃ hcols
  simp only [createTable, mkTable] at *
  simp [h₁, h₂, h₃, hcols]

/-- A shaped table has at least as many column slots as sized components. -/
theorem TableShape.compsT_le {components : List Cls} {t : Table}
    (h : TableShape components t) : t.compsT.length ≤ t.columns.length := by
  rw [h.2.1, h.2.2]
  calc ((decodeBits components t.archetype 0).reduceOption.filter
      isSizedComponent).length
      ≤ (decodeBits components t.archetype 0).reduceOption.length :=
        List.length_filter_le _ _
    _ ≤ (decodeBits components t.archetype 0).length :=
        List.reduceOption_length_le _

/-- `get?`/`getD` bridge for nonempty lists. -/
theorem get?_zero_of_getD {α : Type} [Inhabited α] (l : List α)
    (h : 0 < l.length) : l.get? 0 = some (l.getD 0 default) := by
  rw [List.get?_eq_getElem?, List.getD_eq_getElem?_getD, List.getElem?_eq_getElem h]
  rfl

/-- One `flush` iteration preserves the structural invariant; the registry,
staging maps and `nextId` are untouched, table ids of other entities'
locations survive, and the moved entity's new `tableId` is the slot of the
acquired table (whose archetype is the staged destination). -/
theorem BaseInv_flushStep (s : WorldState) (ed : Nat × Nat) (h : BaseInv s)
    (hd : ed.2 < 2 ^ s.components.length) :
    BaseInv (flushStep s ed)
    ∧ (flushStep s ed).dests = s.dests
    ∧ (flushStep s ed).components = s.components
    ∧ (flushStep s ed).pending = s.pending
    ∧ (flushStep s ed).nextId = s.nextId
    ∧ s.tables.length ≤ (flushStep s ed).tables.length
    ∧ (∀ e, e ≠ ed.1 →
        ((flushStep s ed).locs e).tableId = (s.locs e).tableId)
    ∧ (((flushStep s ed).tables.getD
          (((flushStep s ed).locs ed.1).tableId) default).archetype = ed.2)
    ∧ (∀ i < s.tables.length,
        ((flushStep s ed).tables.getD i default).archetype
          = (s.tables.getD i default).archetype
        ∧ ((flushStep s ed).tables.getD i default).compsT
          = (s.tables.getD i default).compsT) := by
  obtain ⟨hinv₁, htgt, harch, hcomps, hlen, hpres, hlocs, hdests, hpend, hnext⟩ :=
    getTableW_spec s ed.2 h hd
  have hslen : 0 < s.tables.length := by
    have hs := h.sentinel
    rw [List.get?_eq_getElem?] at hs
    by_contra hc
    push_neg at hc
    rw [List.getElem?_eq_none (by omega)] at hs
    exact Option.noConfusion hs
  have hsrc : (s.locs ed.1).tableId < s.tables.length := h.locsLt ed.1
  have hsentinel : s.tables.getD 0 default = createTable := by
    have hs := h.sentinel
    rw [get?_zero_of_getD _ hslen] at hs
    exact (Option.some_inj.mp hs)
  have hsc : ((getTableW s ed.2).2.tables.getD (s.locs ed.1).tableId
        default).compsT.length
      ≤ ((getTableW s ed.2).2.tables.getD (s.locs ed.1).tableId
        default).columns.length := by
    rw [hpres _ hsrc]
    exact (h.shape _ hsrc).compsT_le
  obtain ⟨hmlen, hmfields⟩ := moveTables_struct (getTableW s ed.2).2.tables
    (s.locs ed.1).tableId (getTableW s ed.2).1
    ((s.locs ed.1).tableRow : Int)
    ((lookupMap s.pending ed.1).getD []) hsc
  have hret : (moveTables (getTableW s ed.2).2.tables (s.locs ed.1).tableId
      (getTableW s ed.2).1 ((s.locs ed.1).tableRow : Int)
      ((lookupMap s.pending ed.1).getD [])).retTableId
      < (getTableW s ed.2).2.tables.length := by
    rw [moveTables_ret]
    by_cases hst : (s.locs ed.1).tableId = (getTableW s ed.2).1
    · rw [if_pos hst, hpres _ hsrc, h.ids _ hsrc]
      omega
    · rw [if_neg hst, hinv₁.ids _ htgt]
      exact htgt
  simp only [flushStep]
  rw [hlocs]
  refine ⟨?_, hdests, hcomps, hpend, hnext, ?_, ?_, ?_, ?_⟩
  · refine ⟨hinv₁.regHead, hinv₁.regNodup, ?_, ?_, ?_, hinv₁.mapKeys, ?_, ?_, ?_,
      hinv₁.destsBound, hinv₁.destsKeys, hinv₁.pendKeys⟩
    · have hz : (moveTables (getTableW s ed.2).2.tables (s.locs ed.1).tableId
          (getTableW s ed.2).1 ((s.locs ed.1).tableRow : Int)
          ((lookupMap s.pending ed.1).getD [])).tables.getD 0 default
          = createTable := by
        apply moveTables_sentinel
        · rw [hpres 0 hslen]
          exact hsentinel
        · exact hsc
      rw [get?_zero_of_getD _ (by rw [hmlen]; omega), hz]
    · intro i hi
      rw [hmlen] at hi
      rw [(hmfields i).1]
      exact hinv₁.ids i hi
    · intro p hp
      obtain ⟨hlt₂, harch₂⟩ := hinv₁.mapCoh p hp
      refine ⟨by rw [hmlen]; exact hlt₂, ?_⟩
      rw [(hmfields p.2).2.1]
      exact harch₂
    · intro i hi
      rw [hmlen] at hi
      rw [(hmfields i).2.1]
      exact hinv₁.mapCompl i hi
    · intro i hi
      rw [hmlen] at hi
      obtain ⟨f₁, f₂, f₃, f₄⟩ := hmfields i
      have hsh := hinv₁.shape i hi
      refine ⟨?_, ?_, ?_⟩
      · rw [f₂]; exact hsh.1
      · rw [f₃, f₂]; exact hsh.2.1
      · rw [f₄, f₂]; exact hsh.2.2
    · intro e
      rw [hmlen]
      dsimp only
      by_cases he : e = ed.1
      · subst he
        rw [if_pos rfl]
        exact hret
      · rw [if_neg he, applyFixups_tableId]
        exact lt_of_lt_of_le (h.locsLt e) hlen
  · rw [hmlen]
    exact hlen
  · intro e he
    rw [if_neg he, applyFixups_tableId]
  · dsimp only
    rw [if_pos trivial]
    rw [moveTables_ret]
    by_cases hst : (s.locs ed.1).tableId = (getTableW s ed.2).1
    · rw [if_pos hst, hpres _ hsrc, h.ids _ hsrc, (hmfields _).2.1, hst, harch]
    · rw [if_neg hst, hinv₁.ids _ htgt, (hmfields _).2.1, harch]
  · intro i hi
    refine ⟨?_, ?_⟩
    · rw [(hmfields i).2.1, hpres i hi]
    · rw [(hmfields i).2.2.1, hpres i hi]

/-- In a list of pairs whose first components are `Nodup`, the key determines
the value. -/
theorem nodup_fst_inj {α β : Type} (l : List (α × β))
    (h : (l.map Prod.fst).Nodup) (a : α) (b c : β)
    (hb : (a, b) ∈ l) (hc : (a, c) ∈ l) : b = c := by
  induction l with
  | nil => cases hb
  | cons x xs ih =>
      rw [List.map_cons, List.nodup_cons] at h
      rcases List.mem_cons.mp hb with hxb | hb'
      · rcases List.mem_cons.mp hc with hxc | hc'
        · rw [← hxb] at hxc
          exact ((Prod.ext_iff.mp hxc).2).symm
        · exfalso
          apply h.1
          have ha : x.1 = a := by rw [← hxb]
          rw [ha]
          exact List.mem_map_of_mem Prod.fst hc'
      · rcases List.mem_cons.mp hc with hxc | hc'
        · exfalso
          apply h.1
          have ha : x.1 = a := by rw [← hxc]
          rw [ha]
          exact List.mem_map_of_mem Prod.fst hb'
        · exact ih h.2 hb' hc'

/-- Under the structural invariant, a table's archetype determines its slot:
every slot is registered in `archToTable` under its archetype and the map's
keys are distinct. -/
theorem arch_inj (s : WorldState) (h : BaseInv s) (i j : Nat)
    (hi : i < s.tables.length) (hj : j < s.tables.length)
    (he : (s.tables.getD i default).archetype
      = (s.tables.getD j default).archetype) : i = j := by
  have hmi := h.mapCompl i hi
  have hmj := h.mapCompl j hj
  rw [he] at hmi
  exact nodup_fst_inj s.archToTable h.mapKeys _ i j hmi hmj

/-- Folding `flushStep` over a list of staged `(entity, archetype)` pairs
preserves the structural invariant; destinations, pending, registry and
`nextId` are untouched, table slots keep their archetype and component list,
unlisted entities keep their `tableId`, and (when the listed entities are
distinct) each listed entity ends at a table whose archetype is its staged
destination. -/
theorem BaseInv_flushFold (l : List (Nat × Nat)) (s : WorldState) (h : BaseInv s)
    (hb : ∀ p ∈ l, p.2 < 2 ^ s.components.length) :
    BaseInv (l.foldl flushStep s)
    ∧ (l.foldl flushStep s).components = s.components
    ∧ (l.foldl flushStep s).dests = s.dests
    ∧ (l.foldl flushStep s).pending = s.pending
    ∧ (l.foldl flushStep s).nextId = s.nextId
    ∧ s.tables.length ≤ (l.foldl flushStep s).tables.length
    ∧ (∀ e, e ∉ l.map Prod.fst →
        ((l.foldl flushStep s).locs e).tableId = (s.locs e).tableId)
    ∧ (∀ i < s.tables.length,
        ((l.foldl flushStep s).tables.getD i default).archetype
          = (s.tables.getD i default).archetype
        ∧ ((l.foldl flushStep s).tables.getD i default).compsT
          = (s.tables.getD i default).compsT)
    ∧ ((l.map Prod.fst).Nodup → ∀ p ∈ l,
        ((l.foldl flushStep s).tables.getD
            (((l.foldl flushStep s).locs p.1).tableId) default).archetype
          = p.2) := by
  induction l generalizing s with
  | nil =>
      exact ⟨h, rfl, rfl, rfl, rfl, le_refl _, fun e _ => rfl,
        fun i _ => ⟨rfl, rfl⟩, fun _ p hp => absurd hp (List.not_mem_nil p)⟩
  | cons ed rest ih =>
      obtain ⟨h1, h2, h3, h4, h5, h6, h7, h8, h9⟩ :=
        BaseInv_flushStep s ed h (hb ed (List.mem_cons_self ed rest))
      obtain ⟨g1, g2, g3, g4, g5, g6, g7, g8, g9⟩ := ih (flushStep s ed) h1
        (fun p hp => by rw [h3]; exact hb p (List.mem_cons_of_mem _ hp))
      rw [List.foldl_cons]
      refine ⟨g1, by rw [g2, h3], by rw [g3, h2], by rw [g4, h4],
        by rw [g5, h5], le_trans h6 g6, ?_, ?_, ?_⟩
      · intro e he
        rw [List.map_cons, List.mem_cons] at he
        push_neg at he
        rw [g7 e he.2, h7 e he.1]
      · intro i hi
        obtain ⟨a1, a2⟩ := g8 i (lt_of_lt_of_le hi h6)
        obtain ⟨b1, b2⟩ := h9 i hi
        exact ⟨by rw [a1, b1], by rw [a2, b2]⟩
      · intro hnd p hp
        rw [List.map_cons, List.nodup_cons] at hnd
        rcases List.mem_cons.mp hp with hpe | hp'
        · subst hpe
          have hne : p.1 ∉ rest.map Prod.fst := hnd.1
          rw [g7 p.1 hne]
          have hlt : ((flushStep s p).locs p.1).tableId
              < (flushStep s p).tables.length := h1.locsLt p.1
          rw [(g8 _ hlt).1]
          exact h8
        · exact g9 hnd.2 p hp'

/-- `Entities.flush()` preserves the structural invariant, clears the staged
maps, leaves the registry and `nextId` untouched, never shrinks or retypes
existing tables, keeps the `tableId` of unstaged entities, and lands every
staged entity in a table whose archetype is its staged destination. -/
theorem BaseInv_flushW (s : WorldState) (h : BaseInv s) :
    BaseInv (flushW s)
    ∧ (flushW s).components = s.components
    ∧ (flushW s).nextId = s.nextId
    ∧ (flushW s).dests = []
    ∧ (flushW s).pending = []
    ∧ s.tables.length ≤ (flushW s).tables.length
    ∧ (∀ e, e ∉ s.dests.map Prod.fst →
        ((flushW s).locs e).tableId = (s.locs e).tableId)
    ∧ (∀ i < s.tables.length,
        ((flushW s).tables.getD i default).archetype
          = (s.tables.getD i default).archetype
        ∧ ((flushW s).tables.getD i default).compsT
          = (s.tables.getD i default).compsT)
    ∧ (∀ p ∈ s.dests,
        ((flushW s).tables.getD
            (((flushW s).locs p.1).tableId) default).archetype = p.2) := by
  obtain ⟨g1, g2, g3, g4, g5, g6, g7, g8, g9⟩ :=
    BaseInv_flushFold s.dests s h h.destsBound
  simp only [flushW]
  refine ⟨?_, g2, g5, trivial, trivial, g6, g7, g8, g9 h.destsKeys⟩
  exact BaseInv_update _ _ _ _ _ g1 (by intro p hp; cases hp)
    List.nodup_nil List.nodup_nil g1.locsLt

/-- The freshly created world satisfies the structural invariant. -/
theorem BaseInv_initWorld : BaseInv initWorld := by
  refine ⟨rfl, ?_, rfl, ?_, ?_, ?_, ?_, ?_, ?_, ?_, ?_, ?_⟩
  · simp [initWorld]
  · intro i hi
    simp only [initWorld, List.length_singleton] at hi ⊢
    interval_cases i
    rfl
  · intro p hp
    simp only [initWorld] at hp
    rcases List.mem_singleton.mp hp with rfl
    exact ⟨by simp [initWorld], rfl⟩
  · simp [initWorld]
  · intro i hi
    simp only [initWorld, List.length_singleton] at hi ⊢
    interval_cases i
    simp [createTable, mkTable]
  · intro i hi
    simp only [initWorld, List.length_singleton] at hi ⊢
    interval_cases i
    rw [show ([createTable].getD 0 default) = createTable from rfl]
    refine ⟨by norm_num [createTable, mkTable], ?_, ?_⟩
    · rw [show (createTable.archetype) = 0 from rfl, decodeBits_eq]
      norm_num [createTable, mkTable]
    · rw [show (createTable.archetype) = 0 from rfl, decodeBits_eq]
      norm_num [createTable, mkTable]
  · intro e
    simp [initWorld]
  · intro p hp
    cases hp
  · simp [initWorld]
  · simp [initWorld]

/-- Every entity-API operation preserves the structural invariant. -/
theorem BaseInv_applyOp (s : WorldState) (op : Op) (h : BaseInv s) :
    BaseInv (applyOp s op) := by
  cases op with
  | spawn comps => exact BaseInv_spawnW s comps h
  | insert eid v => exact BaseInv_insertW s eid v h
  | remove eid c => exact BaseInv_removeW s eid c h
  | despawn eid => exact BaseInv_despawnW s eid h
  | flush => exact (BaseInv_flushW s h).1

/-- The structural invariant holds after any sequence of entity-API
operations. -/
theorem BaseInv_applyOps (ops : List Op) (s : WorldState) (h : BaseInv s) :
    BaseInv (applyOps s ops) := by
  induction ops generalizing s with
  | nil => exact h
  | cons op rest ih =>
      simp only [applyOps, List.foldl_cons]
      exact ih (applyOp s op) (BaseInv_applyOp s op h)

/-- OR-ing bits into an odd number keeps it odd. -/
theorem or_mod_two_one (x y : Nat) (h : x % 2 = 1) : (x ||| y) % 2 = 1 := by
  have hb : (x ||| y).testBit 0 = true := by
    rw [Nat.testBit_or]
    simp [Nat.testBit_zero, h]
  simpa [Nat.testBit_zero] using hb

/-- The first projection of one encoder step. -/
theorem archFold_fst (p : Nat × WorldState) (c : Cls) :
    (archFold p c).1 = p.1 ||| (1 <<< (getComponentIdW p.2 c).1) := rfl

/-- The encoder fold keeps the accumulated archetype odd. -/
theorem foldl_archFold_odd (cs : List Cls) (p : Nat × WorldState)
    (h : p.1 % 2 = 1) : (cs.foldl archFold p).1 % 2 = 1 := by
  induction cs generalizing p with
  | nil => exact h
  | cons c rest ih =>
      rw [List.foldl_cons]
      refine ih _ ?_
      rw [archFold_fst]
      exact or_mod_two_one _ _ h

/-- The kept entries of the decoder's bit walk are a sublist of the registry
tail it reads from: decoding emits types in ascending registry-index order
without repetition. -/
theorem decodeBits_reduceOption_sublist (comps : List Cls) (d i : Nat) :
    (decodeBits comps d i).reduceOption.Sublist (comps.drop i) := by
  induction d using Nat.strong_induction_on generalizing i with
  | _ d ih =>
      by_cases h0 : d = 0
      · rw [decodeBits_eq, if_pos h0]
        simp
      · rw [decodeBits_eq, if_neg h0, List.reduceOption_append]
        have htail := ih (d / 2)
          (Nat.div_lt_self (Nat.pos_of_ne_zero h0) (by omega)) (i + 1)
        have hdrop : (comps.drop (i + 1)).Sublist (comps.drop i) := by
          have hd := List.drop_sublist 1 (comps.drop i)
          rwa [List.drop_drop] at hd
        by_cases h1 : d % 2 = 1
        · rw [if_pos h1]
          cases hg : comps.get? i with
          | none =>
              simp only [List.reduceOption_cons_of_none, List.reduceOption_nil,
                List.nil_append]
              exact htail.trans hdrop
          | some c =>
              rw [List.get?_eq_getElem?] at hg
              have hlt : i < comps.length := by
                by_contra hc
                rw [List.getElem?_eq_none (by omega)] at hg
                exact Option.noConfusion hg
              have hcons : comps.drop i = c :: comps.drop (i + 1) := by
                rw [List.drop_eq_getElem_cons hlt]
                congr 1
                have := List.getElem?_eq_getElem hlt
                rw [this] at hg
                exact Option.some_inj.mp hg
              rw [hcons]
              simp only [List.reduceOption_cons_of_some, List.reduceOption_nil,
                List.singleton_append]
              exact htail.cons₂ c
        · rw [if_neg h1]
          simp only [List.reduceOption_nil, List.nil_append]
          exact htail.trans hdrop

/-- C8 counterexample: decoding archetype `5` in the fresh world (registry
`[Entity]`) pushes a placeholder for the unregistered bit 2 instead of
skipping it, so the decoded list is not the list of registered types. -/
theorem c8_claim_counterexample :
    getComponentsForArchetype initWorld 5 = [some EntityC, none]
    ∧ none ∈ getComponentsForArchetype initWorld 5 := by
  have h : getComponentsForArchetype initWorld 5 = [some EntityC, none] := by
    show decodeBits [EntityC] 5 0 = [some EntityC, none]
    simp [decodeBits_eq]
  exact ⟨h, by rw [h]; simp⟩

/-- C8 (amended): the encoder always sets bit 0 and never returns 0; in every
reachable world each table's stored component list is the decode of its
archetype (placeholders dropped, zero-sized types filtered out) and is a
sublist of the registry, hence in ascending component-ID order; and the
decoder emits a placeholder (not a skip) for a set bit with no registered
type, as decoding `5` over registry `[Entity]` shows. -/
theorem c8_archetype_codec :
    (∀ (s : WorldState) (cs : List Cls),
      (getArchetypeW s cs).1 % 2 = 1 ∧ (getArchetypeW s cs).1 ≠ 0)
    ∧ (∀ ops : List Op, ∀ i < (applyOps initWorld ops).tables.length,
        ((applyOps initWorld ops).tables.getD i default).compsT
          = ((decodeBits (applyOps initWorld ops).components
                (((applyOps initWorld ops).tables.getD i default).archetype)
                0).reduceOption.filter isSizedComponent)
        ∧ (((applyOps initWorld ops).tables.getD i default).compsT).Sublist
            (applyOps initWorld ops).components)
    ∧ getComponentsForArchetype initWorld 5 = [some EntityC, none] := by
  refine ⟨?_, ?_, ?_⟩
  · intro s cs
    have hodd : (getArchetypeW s cs).1 % 2 = 1 :=
      foldl_archFold_odd cs (1, s) (by norm_num)
    exact ⟨hodd, by omega⟩
  · intro ops i hi
    have hinv : BaseInv (applyOps initWorld ops) :=
      BaseInv_applyOps ops initWorld BaseInv_initWorld
    have hshape := hinv.shape i hi
    refine ⟨hshape.2.1, ?_⟩
    rw [hshape.2.1]
    have h₁ := List.filter_sublist (p := isSizedComponent)
      (decodeBits (applyOps initWorld ops).components
        (((applyOps initWorld ops).tables.getD i default).archetype)
        0).reduceOption
    have h₂ := decodeBits_reduceOption_sublist
      (applyOps initWorld ops).components
      (((applyOps initWorld ops).tables.getD i default).archetype) 0
    rw [List.drop_zero] at h₂
    exact h₁.trans h₂
  · show decodeBits [EntityC] 5 0 = [some EntityC, none]
    simp [decodeBits_eq]

/-- Witness for C8 at the fresh world: slot 0 exists and its component list
is empty, matching the decode of archetype `0`. -/
theorem c8_archetype_codec_witness :
    (0 < (applyOps initWorld []).tables.length
      ∧ ((applyOps initWorld []).tables.getD 0 default).compsT
          = ((decodeBits (applyOps initWorld []).components
                (((applyOps initWorld []).tables.getD 0 default).archetype)
                0).reduceOption.filter isSizedComponent)) := by
  have h0 : 0 < (applyOps initWorld []).tables.length := by
    show 0 < initWorld.tables.length
    simp [initWorld]
  exact ⟨h0, (c8_archetype_codec.2.1 [] 0 h0).1⟩

/-- An invariant world has at least the sentinel table. -/
theorem BaseInv_tables_pos (s : WorldState) (h : BaseInv s) :
    0 < s.tables.length := by
  have hs := h.sentinel
  rw [List.get?_eq_getElem?] at hs
  by_contra hc
  push_neg at hc
  rw [List.getElem?_eq_none (by omega)] at hs
  exact Option.noConfusion hs

/-- Slot 0 of an invariant world is the sentinel table. -/
theorem BaseInv_sentinel_getD (s : WorldState) (h : BaseInv s) :
    s.tables.getD 0 default = createTable := by
  have hs := h.sentinel
  rw [get?_zero_of_getD _ (BaseInv_tables_pos s h)] at hs
  exact Option.some_inj.mp hs

/-- `despawn` stages destination `0` regardless of the pending branch. -/
theorem despawnW_dests (s : WorldState) (eid : Nat) :
    (despawnW s eid).dests = mapSet s.dests eid 0 := by
  unfold despawnW
  cases h : lookupMap s.pending eid <;> simp [h]

/-- C9: the world starts with the sentinel table (archetype `0`, no columns,
length `0`) at slot 0; slot 0 still holds that exact table after every
operation sequence, so nothing is ever appended to it; and despawning any
entity and flushing lands it at `tableId` 0 (`isAlive` is false there). -/
theorem c9_sentinel_emptiness :
    (initWorld.tables.get? 0 = some createTable
      ∧ createTable.archetype = 0
      ∧ createTable.columns = []
      ∧ Table.length createTable = 0)
    ∧ (∀ ops : List Op,
        (applyOps initWorld ops).tables.get? 0 = some createTable)
    ∧ (∀ (ops : List Op) (e : Nat),
        ((flushW (despawnW (applyOps initWorld ops) e)).locs e).tableId = 0) := by
  refine ⟨⟨rfl, rfl, rfl, rfl⟩, ?_, ?_⟩
  · intro ops
    exact (BaseInv_applyOps ops initWorld BaseInv_initWorld).sentinel
  · intro ops e
    have h : BaseInv (applyOps initWorld ops) :=
      BaseInv_applyOps ops initWorld BaseInv_initWorld
    have hd : BaseInv (despawnW (applyOps initWorld ops) e) :=
      BaseInv_despawnW _ e h
    obtain ⟨f1, f2, f3, f4, f5, f6, f7, f8, f9⟩ := BaseInv_flushW _ hd
    have hmem : (e, 0) ∈ (despawnW (applyOps initWorld ops) e).dests := by
      rw [despawnW_dests]
      exact lookupMap_mem _ _ _ (lookupMap_mapSet_same _ e 0)
    have harch := f9 (e, 0) hmem
    have hlt := f1.locsLt e
    have hslen := BaseInv_tables_pos _ f1
    apply arch_inj _ f1 _ 0 hlt hslen
    rw [harch, BaseInv_sentinel_getD _ f1]
    rfl

/-- Registering a component only appends to the registry. -/
theorem getComponentIdW_locs (s : WorldState) (c : Cls) :
    (getComponentIdW s c).2.locs = s.locs := by
  obtain ⟨ext, he⟩ := (getComponentIdW_spec s c).1
  rw [he]

/-- The encoder fold never touches entity locations. -/
theorem archFoldl_locs (cs : List Cls) (p : Nat × WorldState) :
    (cs.foldl archFold p).2.locs = p.2.locs := by
  induction cs generalizing p with
  | nil => rfl
  | cons c rest ih =>
      rw [List.foldl_cons, ih (archFold p c)]
      exact getComponentIdW_locs p.2 c

/-- `spawn` stages state but never touches entity locations. -/
theorem spawnW_locs (s : WorldState) (cs : List Value) :
    (spawnW s cs).2.locs = s.locs := by
  simp only [spawnW]
  rw [(List.foldl_map Value.ctor archFold cs _).symm, archFoldl_locs]

/-- `insertTag` never touches entity locations. -/
theorem insertTagW_locs (s : WorldState) (eid : Nat) (c : Cls) :
    (insertTagW s eid c).locs = s.locs := by
  simp only [insertTagW]
  exact getComponentIdW_locs s c

/-- `insert` never touches entity locations. -/
theorem insertW_locs (s : WorldState) (eid : Nat) (v : Value) :
    (insertW s eid v).locs = s.locs := by
  simp only [insertW]
  exact insertTagW_locs s eid v.ctor

/-- `remove` never touches entity locations. -/
theorem removeW_locs (s : WorldState) (eid : Nat) (c : Cls) :
    (removeW s eid c).locs = s.locs := by
  simp only [removeW]
  exact getComponentIdW_locs s c

/-- `despawn` never touches entity locations. -/
theorem despawnW_locs (s : WorldState) (eid : Nat) :
    (despawnW s eid).locs = s.locs := by
  unfold despawnW
  cases h : lookupMap s.pending eid <;> simp [h]

/-- Before the first `flush`, no operation moves any entity: locations are
exactly as at world creation. -/
theorem applyOps_locs_noflush (ops : List Op) (s : WorldState)
    (h : Op.flush ∉ ops) : (applyOps s ops).locs = s.locs := by
  induction ops generalizing s with
  | nil => rfl
  | cons op rest ih =>
      rw [List.mem_cons] at h
      push_neg at h
      simp only [applyOps, List.foldl_cons]
      rw [show (rest.foldl applyOp (applyOp s op)) = applyOps (applyOp s op) rest from rfl,
        ih (applyOp s op) h.2]
      cases op with
      | spawn cs => exact spawnW_locs s cs
      | insert eid v => exact insertW_locs s eid v
      | remove eid c => exact removeW_locs s eid c
      | despawn eid => exact despawnW_locs s eid
      | flush => exact absurd rfl h.1

/-- A filter list whose require masks are all odd rejects archetype `0`. -/
theorem testArchetype_zero : ∀ (l : List Nat), reqOdd l = true →
    testArchetype l 0 = false
  | [], _ => rfl
  | [_], h => by simp [reqOdd] at h
  | w :: wo :: rest, h => by
      simp only [reqOdd, Bool.and_eq_true, beq_iff_eq] at h
      simp only [testArchetype, Nat.and_zero, testArchetype_zero rest h.2,
        Bool.or_false, Bool.and_eq_false_iff]
      left
      simp only [beq_eq_false_iff_ne, ne_eq]
      omega

/-- `With`'s even-slot OR keeps the filter shape: it never clears bit 0. -/
theorem reqOdd_enumMap_with (a : Nat) : ∀ (l : List Nat) (n : Nat),
    n % 2 = 0 → reqOdd l = true →
    reqOdd ((List.enumFrom n l).map
      fun p => if p.1 % 2 = 0 then p.2 ||| a else p.2) = true
  | [], n, _, _ => rfl
  | [x], n, _, h => by simp [reqOdd] at h
  | w :: wo :: rest, n, hn, h => by
      simp only [reqOdd, Bool.and_eq_true, beq_iff_eq] at h
      simp only [List.enumFrom, List.map_cons]
      rw [if_pos hn, if_neg (by omega : ¬(n + 1) % 2 = 0)]
      simp only [reqOdd, Bool.and_eq_true, beq_iff_eq]
      exact ⟨or_mod_two_one w a h.1,
        reqOdd_enumMap_with a rest (n + 2) (by omega) h.2⟩

/-- `Without`'s odd-slot OR leaves the require masks untouched. -/
theorem reqOdd_enumMap_without (a : Nat) : ∀ (l : List Nat) (n : Nat),
    n % 2 = 0 → reqOdd l = true →
    reqOdd ((List.enumFrom n l).map
      fun p => if p.1 % 2 = 1 then p.2 ||| a else p.2) = true
  | [], n, _, _ => rfl
  | [x], n, _, h => by simp [reqOdd] at h
  | w :: wo :: rest, n, hn, h => by
      simp only [reqOdd, Bool.and_eq_true, beq_iff_eq] at h
      simp only [List.enumFrom, List.map_cons]
      rw [if_neg (by omega : ¬n % 2 = 1), if_pos (by omega : (n + 1) % 2 = 1)]
      simp only [reqOdd, Bool.and_eq_true, beq_iff_eq]
      exact ⟨h.1, reqOdd_enumMap_without a rest (n + 2) (by omega) h.2⟩

/-- The filter shape is preserved by concatenation. -/
theorem reqOdd_append : ∀ (l l' : List Nat), reqOdd l = true →
    reqOdd l' = true → reqOdd (l ++ l') = true
  | [], l', _, h' => h'
  | [x], l', h, _ => by simp [reqOdd] at h
  | w :: wo :: rest, l', h, h' => by
      simp only [reqOdd, Bool.and_eq_true, beq_iff_eq] at h
      simp only [List.cons_append, reqOdd, Bool.and_eq_true, beq_iff_eq]
      exact ⟨h.1, reqOdd_append rest l' h.2 h'⟩

mutual
/-- `filter.execute` preserves the compiled filter shape. -/
theorem executeF_reqOdd (s : WorldState) (f : FilterExpr) (cur : List Nat)
    (h : reqOdd cur = true) : reqOdd (executeF s f cur).1 = true :=
  match f with
  | .baseF => h
  | .withF ts => by
      simp only [executeF]
      exact reqOdd_enumMap_with _ cur 0 rfl h
  | .withoutF ts => by
      simp only [executeF]
      exact reqOdd_enumMap_without _ cur 0 rfl h
  | .andF cs => executeAnd_reqOdd s cs cur h
  | .orF cs => executeOr_reqOdd s cs cur h

/-- `And.execute` preserves the compiled filter shape. -/
theorem executeAnd_reqOdd (s : WorldState) (cs : List FilterExpr)
    (cur : List Nat) (h : reqOdd cur = true) :
    reqOdd (executeAnd s cs cur).1 = true :=
  match cs with
  | [] => h
  | c :: rest => by
      simp only [executeAnd]
      exact executeAnd_reqOdd _ rest _ (executeF_reqOdd s c cur h)

/-- `Or.execute` preserves the compiled filter shape. -/
theorem executeOr_reqOdd (s : WorldState) (cs : List FilterExpr)
    (cur : List Nat) (h : reqOdd cur = true) :
    reqOdd (executeOr s cs cur).1 = true :=
  match cs with
  | [] => rfl
  | c :: rest => by
      simp only [executeOr]
      exact reqOdd_append _ _ (executeF_reqOdd s c cur h)
        (executeOr_reqOdd _ rest cur h)
end

/-- `matchTable` only appends column views; the filter list is unchanged. -/
theorem matchTable_filters (tables : List Table) (q : Query) (i : Nat) :
    (matchTable tables q i).filters = q.filters := by
  unfold matchTable
  by_cases h : testArchetype q.filters (tables.getD i default).archetype
  · rw [if_pos h]
  · rw [if_neg h]

/-- Matching every table leaves the filter list unchanged. -/
theorem foldl_matchTable_filters (tables : List Table) (l : List Nat) (q : Query) :
    (l.foldl (matchTable tables) q).filters = q.filters := by
  induction l generalizing q with
  | nil => rfl
  | cons i rest ih => rw [List.foldl_cons, ih, matchTable_filters]

/-- Every compiled query's filter list pairs up with odd require masks: the
initial pair is `[getArchetype(non-Maybe accessors), 0n]` whose require is
odd, and the filter algebra preserves the shape. -/
theorem mkQuery_reqOdd (s : WorldState) (accessors : List Accessor)
    (ind : Bool) (fe : Option FilterExpr) :
    reqOdd (mkQuery s accessors ind fe).1.filters = true := by
  simp only [mkQuery]
  rw [foldl_matchTable_filters]
  have hbase : reqOdd [(getArchetypeW s ((accessors.filter fun a =>
      match a with | .plain _ => true | .maybe _ => false).map Accessor.cls)).1,
      0] = true := by
    simp only [reqOdd, Bool.and_eq_true, beq_iff_eq]
    exact ⟨foldl_archFold_odd _ _ rfl, trivial⟩
  cases fe with
  | none => exact hbase
  | some f => exact executeF_reqOdd _ f _ hbase

/-- `Query.get` on an entity sitting in the sentinel table returns `null`:
archetype `0` fails every pair of a well-shaped filter list. -/
theorem queryGet_sentinel_jsNull (s : WorldState) (q : Query) (e : Nat)
    (h : BaseInv s) (hloc : (s.locs e).tableId = 0)
    (hq : reqOdd q.filters = true) : queryGet s q e = .jsNull := by
  simp only [queryGet]
  rw [hloc, BaseInv_sentinel_getD s h,
    show createTable.archetype = 0 from rfl, testArchetype_zero q.filters hq]
  rfl

/-- C10: before the first `flush`, every entity's location is the fresh
`{tableId: 0, tableRow: 0}`; every compiled query's require masks include the
Entity base bit (odd, paired shape); and `Query.get` returns `null` for any
entity whose location points at the sentinel table — so staged components are
never observable through `get` before `flush`, and despawned-and-flushed
entities (whose `tableId` is 0) are equally invisible. -/
theorem c10_preflush_query_blindness :
    (∀ (ops : List Op), Op.flush ∉ ops →
      ∀ e, (applyOps initWorld ops).locs e = ⟨0, 0⟩)
    ∧ (∀ (s : WorldState) (accessors : List Accessor) (ind : Bool)
        (fe : Option FilterExpr),
        reqOdd (mkQuery s accessors ind fe).1.filters = true)
    ∧ (∀ (s : WorldState) (q : Query) (e : Nat), BaseInv s →
        (s.locs e).tableId = 0 → reqOdd q.filters = true →
        queryGet s q e = .jsNull) := by
  refine ⟨?_, mkQuery_reqOdd, queryGet_sentinel_jsNull⟩
  intro ops h e
  rw [applyOps_locs_noflush ops initWorld h]
  rfl

/-- Witness for C10: spawning one `Position` entity without flushing leaves
entity 0 at the sentinel location, and a `Position` query's `get` on it
yields `null`. -/
theorem c10_preflush_query_blindness_witness :
    Op.flush ∉ ([Op.spawn [pos 3]] : List Op)
    ∧ (applyOps initWorld [Op.spawn [pos 3]]).locs 0 = ⟨0, 0⟩
    ∧ queryGet (applyOps initWorld [Op.spawn [pos 3]])
        (mkQuery (applyOps initWorld [Op.spawn [pos 3]])
          [.plain PositionC] true none).1 0 = .jsNull := by
  have hnf : Op.flush ∉ ([Op.spawn [pos 3]] : List Op) := by decide
  have hloc := c10_preflush_query_blindness.1 [Op.spawn [pos 3]] hnf 0
  refine ⟨hnf, hloc, ?_⟩
  exact c10_preflush_query_blindness.2.2 _ _ 0
    (BaseInv_applyOps _ _ BaseInv_initWorld)
    (by rw [hloc])
    (c10_preflush_query_blindness.2.1 _ _ _ _)

/-- `_testArchetype` succeeds exactly when some `(require, forbid)` pair of
the flat filter list is satisfied. -/
theorem testArchetype_iff : ∀ (fs : List Nat) (a : Nat),
    testArchetype fs a = true
      ↔ ∃ k r f, fs.get? (2 * k) = some r ∧ fs.get? (2 * k + 1) = some f
          ∧ r &&& a = r ∧ f &&& a = 0
  | [], a => by
      constructor
      · intro h
        simp [testArchetype] at h
      · rintro ⟨k, r, f, h1, h2, h3, h4⟩
        rw [List.get?_eq_none.mpr (by simp)] at h1
        exact Option.noConfusion h1
  | [x], a => by
      constructor
      · intro h
        simp [testArchetype] at h
      · rintro ⟨k, r, f, h1, h2, h3, h4⟩
        rw [List.get?_eq_none.mpr (by simp only [List.length_singleton]; omega)] at h2
        exact Option.noConfusion h2
  | w :: wo :: rest, a => by
      rw [show testArchetype (w :: wo :: rest) a
        = (((w &&& a == w) && (wo &&& a == 0)) || testArchetype rest a) from rfl]
      rw [Bool.or_eq_true, testArchetype_iff rest a]
      constructor
      · rintro (h | ⟨k, r, f, h1, h2, h3, h4⟩)
        · rw [Bool.and_eq_true, beq_iff_eq, beq_iff_eq] at h
          exact ⟨0, w, wo, rfl, rfl, h.1, h.2⟩
        · refine ⟨k + 1, r, f, ?_, ?_, h3, h4⟩
          · rw [show 2 * (k + 1) = 2 * k + 1 + 1 from by ring,
              List.get?_cons_succ, List.get?_cons_succ]
            exact h1
          · rw [show 2 * (k + 1) + 1 = 2 * k + 1 + 1 + 1 from by ring,
              List.get?_cons_succ, List.get?_cons_succ]
            exact h2
      · rintro ⟨k, r, f, h1, h2, h3, h4⟩
        match k with
        | 0 =>
            left
            rw [show 2 * 0 = 0 from rfl, List.get?_cons_zero,
              Option.some_inj] at h1
            rw [show 2 * 0 + 1 = 0 + 1 from rfl, List.get?_cons_succ,
              List.get?_cons_zero, Option.some_inj] at h2
            subst h1
            subst h2
            rw [Bool.and_eq_true, beq_iff_eq, beq_iff_eq]
            exact ⟨h3, h4⟩
        | k + 1 =>
            right
            rw [show 2 * (k + 1) = 2 * k + 1 + 1 from by ring,
              List.get?_cons_succ, List.get?_cons_succ] at h1
            rw [show 2 * (k + 1) + 1 = 2 * k + 1 + 1 + 1 from by ring,
              List.get?_cons_succ, List.get?_cons_succ] at h2
            exact ⟨k, r, f, h1, h2, h3, h4⟩

/-- `Without.execute` ORs the stripped encode into exactly the odd (forbid)
slots and leaves the even (require) slots alone. -/
theorem without_execute_char (s : WorldState) (ts : List Cls)
    (cur : List Nat) (i : Nat) :
    (executeF s (.withoutF ts) cur).1.get? i
      = (cur.get? i).map fun x =>
          if i % 2 = 1 then x ||| ((getArchetypeW s ts).1 ^^^ 1) else x := by
  simp only [executeF]
  rw [List.get?_eq_getElem?, List.getElem?_map, List.getElem?_enum]
  cases h : cur[i]? with
  | none => rw [List.get?_eq_getElem?, h]; rfl
  | some x => rw [List.get?_eq_getElem?, h]; rfl

/-- XOR-ing `1` into an odd encode clears exactly the Entity base bit. -/
theorem xor_one_strips_bit_zero (x : Nat) (h : x % 2 = 1) :
    x ^^^ 1 = Nat.ldiff x 1 := by
  apply Nat.eq_of_testBit_eq
  intro j
  rw [Nat.testBit_xor, Nat.testBit_ldiff]
  cases j with
  | zero =>
      have hx : x.testBit 0 = true := by simp [Nat.testBit_zero, h]
      simp [hx]
  | succ n =>
      have h1 : (1 : Nat).testBit (n + 1) = false := by
        rw [Nat.testBit_succ]
        simp
      simp [h1]

/-- C2: a table archetype matches a query exactly when some `(require,
forbid)` pair `i` of the flat compiled filter list has `(require_i & a) ==
require_i` and `(forbid_i & a) == 0`; `Without(types)` ORs
`encode(types) ^ 1n` (the encode with the Entity base bit cleared) into every
forbid slot, leaving requires untouched; and in the S5 scenario the compiled
filters are `[3n, 4n]` and the `Position`-`Without(Velocity)` query yields
exactly the first entity's `Position` value. -/
theorem c2_query_filter_semantics :
    (∀ (fs : List Nat) (a : Nat),
      testArchetype fs a = true
        ↔ ∃ k r f, fs.get? (2 * k) = some r ∧ fs.get? (2 * k + 1) = some f
            ∧ r &&& a = r ∧ f &&& a = 0)
    ∧ (∀ (s : WorldState) (ts : List Cls) (cur : List Nat) (i : Nat),
        (executeF s (.withoutF ts) cur).1.get? i
          = (cur.get? i).map fun x =>
              if i % 2 = 1 then x ||| ((getArchetypeW s ts).1 ^^^ 1) else x)
    ∧ (∀ (s : WorldState) (ts : List Cls),
        (getArchetypeW s ts).1 ^^^ 1 = Nat.ldiff (getArchetypeW s ts).1 1)
    ∧ q5.filters = [3, 4]
    ∧ queryRows s5World.tables q5 = [[some (pos 10)]] := by
  refine ⟨testArchetype_iff, without_execute_char, ?_, by decide, by decide⟩
  intro s ts
  exact xor_one_strips_bit_zero _ (foldl_archFold_odd ts (1, s) rfl)

/-- Witness for C2: the S5 filters accept the `{Entity, Position}` archetype
`3n` through their single pair, and `Without(Velocity)` ORs `4n` into the
forbid slot of the base pair (`Velocity` is component 2 of the S5 world). -/
theorem c2_query_filter_semantics_witness :
    testArchetype q5.filters 3 = true
    ∧ (executeF s5World (.withoutF [VelocityC]) [3, 0]).1.get? 1 = some 4 := by
  constructor
  · exact (c2_query_filter_semantics.1 q5.filters 3).mpr
      ⟨0, 3, 4, by decide, by decide, by decide, by decide⟩
  · rw [c2_query_filter_semantics.2.1 s5World [VelocityC] [3, 0] 1]
    decide

/-- C5 counterexample: `Query.get` on a live entity that fails the filters
returns JS `null`, which is a different JS value from the `undefined` the
spec promises. -/
theorem c5_claim_counterexample :
    queryGet s5World q5 2 = .jsNull
    ∧ GetResult.jsNull ≠ GetResult.jsUndefined := by
  exact ⟨by decide, by decide⟩

/-- C5 (amended): on a filter mismatch `Query.get` returns `null` (not
`undefined`, and not an exception); `get` never returns `undefined` at all;
and on a match with all accessor columns present it returns the component
values read at the entity's current row in input accessor order. -/
theorem c5_get_mismatch :
    (∀ (s : WorldState) (q : Query) (e : Nat),
      testArchetype q.filters
          ((s.tables.getD (s.locs e).tableId default).archetype) = false →
      queryGet s q e = .jsNull)
    ∧ (∀ (s : WorldState) (q : Query) (e : Nat),
        queryGet s q e ≠ .jsUndefined)
    ∧ (∀ (s : WorldState) (q : Query) (e : Nat),
        testArchetype q.filters
            ((s.tables.getD (s.locs e).tableId default).archetype) = true →
        (∀ c ∈ q.componentsQ,
          ((s.tables.getD (s.locs e).tableId default).getColumn c).isSome) →
        queryGet s q e = .values (q.componentsQ.map fun c =>
          jsRead
            (((s.tables.getD (s.locs e).tableId default).getColumn c).getD [])
            (((s.locs e).tableRow : Int))))
    ∧ queryGet s5World q5 2 = .jsNull := by
  refine ⟨?_, ?_, ?_, by decide⟩
  · intro s q e h
    simp only [queryGet]
    rw [h]
    rfl
  · intro s q e
    simp only [queryGet]
    by_cases h : testArchetype q.filters
        ((s.tables.getD (s.locs e).tableId default).archetype) = true
    · rw [if_pos h]
      by_cases ha : ((q.componentsQ.map fun c =>
          match (s.tables.getD (s.locs e).tableId default).getColumn c with
          | some col => some (jsRead col (((s.locs e).tableRow : Int)))
          | none => none).all (·.isSome)) = true
      · rw [if_pos ha]
        intro hc
        exact GetResult.noConfusion hc
      · rw [if_neg ha]
        intro hc
        exact GetResult.noConfusion hc
    · rw [if_neg h]
      intro hc
      exact GetResult.noConfusion hc
  · intro s q e h hcols
    simp only [queryGet]
    rw [if_pos h]
    have hall : ((q.componentsQ.map fun c =>
        match (s.tables.getD (s.locs e).tableId default).getColumn c with
        | some col => some (jsRead col (((s.locs e).tableRow : Int)))
        | none => none).all (·.isSome)) = true := by
      rw [List.all_eq_true]
      intro o ho
      rcases List.mem_map.mp ho with ⟨c, hc, hco⟩
      have hS := hcols c hc
      cases hcol : (s.tables.getD (s.locs e).tableId default).getColumn c with
      | none => rw [hcol] at hS; exact Bool.noConfusion hS
      | some col =>
          rw [hcol] at hco
          rw [← hco]
          rfl
    rw [if_pos hall]
    congr 1
    rw [List.map_map]
    refine List.map_congr_left ?_
    intro c hc
    have hS := hcols c hc
    cases hcol : (s.tables.getD (s.locs e).tableId default).getColumn c with
    | none => rw [hcol] at hS; exact Bool.noConfusion hS
    | some col =>
        simp only [Function.comp_apply, hcol]
        rfl

/-- Witness for C5: entity 0 of the S5 world matches the `Position` query
and `get` reads its `Position` value `10`. -/
theorem c5_get_mismatch_witness :
    queryGet s5World q5 0 = .values [some (pos 10)] := by
  have h := c5_get_mismatch.2.2.1 s5World q5 0 (by decide) (by decide)
  rw [h]
  decide

/-- In a duplicate-free list, an element's position is its `indexOf?`. -/
theorem indexOf?_of_get?_nodup : ∀ (l : List Cls) (i : Nat) (c : Cls),
    l.Nodup → l.get? i = some c → l.indexOf? c = some i
  | [], i, c, _, h => by simp at h
  | x :: xs, 0, c, hnd, h => by
      rw [List.get?_cons_zero, Option.some_inj] at h
      subst h
      rw [List.indexOf?_cons, if_pos (by simp)]
  | x :: xs, i + 1, c, hnd, h => by
      rw [List.get?_cons_succ] at h
      rw [List.nodup_cons] at hnd
      have hx : ¬(x == c) = true := by
        simp only [beq_iff_eq]
        intro hcx
        subst hcx
        exact hnd.1 (List.get?_mem h)
      rw [List.indexOf?_cons, if_neg hx,
        indexOf?_of_get?_nodup xs i c hnd.2 h]
      rfl

/-- Looking up an already-registered component in any later state with the
same duplicate-free registry returns the same id without touching the
state. -/
theorem getComponentIdW_stable (s t : WorldState) (c : Cls)
    (hc : t.components = (getComponentIdW s c).2.components)
    (hnd : t.components.Nodup) :
    getComponentIdW t c = ((getComponentIdW s c).1, t) := by
  have hget : t.components.get? (getComponentIdW s c).1 = some c := by
    rw [hc]
    exact (getComponentIdW_spec s c).2.2.1
  have hidx := indexOf?_of_get?_nodup t.components _ c hnd hget
  unfold getComponentIdW
  rw [hidx]
  rfl

/-- Clearing a mask's bits makes the conjunction with that mask vanish. -/
theorem ldiff_and_self (x m : Nat) : Nat.ldiff x m &&& m = 0 := by
  apply Nat.eq_of_testBit_eq
  intro j
  rw [Nat.testBit_and, Nat.testBit_ldiff, Nat.zero_testBit]
  cases m.testBit j <;> simp

/-- The state after `insert`: the component is registered, the staged
destination ORs its bit into the staged-or-current archetype, and tables,
locations and destinations of other entities are untouched. -/
theorem insertW_fields (s : WorldState) (e : Nat) (v : Value) :
    (insertW s e v).components = (getComponentIdW s v.ctor).2.components
    ∧ (insertW s e v).dests
        = mapSet s.dests e
            (getEntityArchetype s e ||| (1 <<< (getComponentIdW s v.ctor).1))
    ∧ (insertW s e v).tables = s.tables
    ∧ (insertW s e v).pending
        = mapSet s.pending e
            (if ((lookupMap s.pending e).getD []).any
                (fun c => c.ctor = v.ctor) then
              ((lookupMap s.pending e).getD []).map
                (fun c => if c.ctor = v.ctor then v else c)
            else ((lookupMap s.pending e).getD []) ++ [v]) := by
  obtain ⟨ext, hext⟩ := (getComponentIdW_spec s v.ctor).1
  simp only [insertW, insertTagW]
  rw [hext]
  exact ⟨by trivial, by trivial, by trivial, by trivial⟩

/-- The state after `remove`: the staged destination clears the component's
bit from the staged-or-current archetype; pending, tables and locations are
untouched. -/
theorem removeW_fields (s : WorldState) (e : Nat) (c : Cls) :
    (removeW s e c).components = (getComponentIdW s c).2.components
    ∧ (removeW s e c).dests
        = mapSet s.dests e
            (Nat.ldiff (getEntityArchetype s e) (1 <<< (getComponentIdW s c).1))
    ∧ (removeW s e c).tables = s.tables
    ∧ (removeW s e c).pending = s.pending := by
  obtain ⟨ext, hext⟩ := (getComponentIdW_spec s c).1
  simp only [removeW]
  rw [hext]
  exact ⟨by trivial, by trivial, by trivial, by trivial⟩

/-- The value staged by `insert` is in the staged payload afterwards. -/
theorem insertW_pending_mem (s : WorldState) (e : Nat) (v : Value) :
    v ∈ (lookupMap (insertW s e v).pending e).getD [] := by
  rw [(insertW_fields s e v).2.2.2, lookupMap_mapSet_same, Option.getD_some]
  by_cases hany : (((lookupMap s.pending e).getD []).any
      (fun c => c.ctor = v.ctor)) = true
  · rw [if_pos hany]
    rcases List.any_eq_true.mp hany with ⟨c, hc, hcv⟩
    refine List.mem_map.mpr ⟨c, hc, ?_⟩
    rw [if_pos (by simpa using hcv)]
  · rw [if_neg hany]
    exact List.mem_append_right _ (List.mem_singleton.mpr rfl)

/-- C3: in any invariant world, `insert(v); remove(type(v)); flush()` leaves
`has(type(v))` false; the staged value survives `remove` in the pending
payload; the flushed entity's table has no column for the removed type (the
payload entry is silently discarded by the move); and `has` reads only the
current table's archetype — the staged destinations are invisible to it. -/
theorem c3_insert_remove_round_trip :
    ∀ (s : WorldState) (e : Nat) (v : Value), BaseInv s →
      (hasW (flushW (removeW (insertW s e v) e v.ctor)) e v.ctor).1 = false
      ∧ v ∈ (lookupMap (removeW (insertW s e v) e v.ctor).pending e).getD []
      ∧ ((flushW (removeW (insertW s e v) e v.ctor)).tables.getD
            (((flushW (removeW (insertW s e v) e v.ctor)).locs e).tableId)
            default).hasColumn v.ctor = false
      ∧ (∀ (t : WorldState) (e' : Nat) (c : Cls) (d : List (Nat × Nat)),
          (hasW { t with dests := d } e' c).1 = (hasW t e' c).1) := by
  intro s e v h
  have h' : BaseInv (insertW s e v) := BaseInv_insertW s e v h
  have h₁ : BaseInv (removeW (insertW s e v) e v.ctor) :=
    BaseInv_removeW _ e v.ctor h'
  obtain ⟨f1, f2, f3, f4, f5, f6, f7, f8, f9⟩ := BaseInv_flushW _ h₁
  obtain ⟨rc, rd, rt, rp⟩ := removeW_fields (insertW s e v) e v.ctor
  have hd : lookupMap (removeW (insertW s e v) e v.ctor).dests e
      = some (Nat.ldiff (getEntityArchetype (insertW s e v) e)
          (1 <<< (getComponentIdW (insertW s e v) v.ctor).1)) := by
    rw [rd]
    exact lookupMap_mapSet_same _ e _
  have hmem := lookupMap_mem _ _ _ hd
  have harch := f9 _ hmem
  have hcomp : (flushW (removeW (insertW s e v) e v.ctor)).components
      = (getComponentIdW (insertW s e v) v.ctor).2.components := by
    rw [f2, rc]
  have hstable := getComponentIdW_stable (insertW s e v)
    (flushW (removeW (insertW s e v) e v.ctor)) v.ctor hcomp f1.regNodup
  have htb : Nat.ldiff (getEntityArchetype (insertW s e v) e)
        (1 <<< (getComponentIdW (insertW s e v) v.ctor).1)
      &&& (1 <<< (getComponentIdW (insertW s e v) v.ctor).1) = 0 :=
    ldiff_and_self _ _
  refine ⟨?_, ?_, ?_, ?_⟩
  · simp only [hasW, hstable]
    unfold getTableArchetype
    rw [harch, htb]
    simp
  · rw [rp]
    exact insertW_pending_mem s e v
  · have hlt := f1.locsLt e
    have hshape := f1.shape _ hlt
    have hnotmem : v.ctor ∉ ((flushW (removeW (insertW s e v) e v.ctor)).tables.getD
        (((flushW (removeW (insertW s e v) e v.ctor)).locs e).tableId)
        default).compsT := by
      rw [hshape.2.1]
      intro hmemf
      have hro := (List.mem_filter.mp hmemf).1
      have hsome : some v.ctor ∈ decodeBits
          (flushW (removeW (insertW s e v) e v.ctor)).components
          ((flushW (removeW (insertW s e v) e v.ctor)).tables.getD
            (((flushW (removeW (insertW s e v) e v.ctor)).locs e).tableId)
            default).archetype 0 := List.reduceOption_mem_iff.mp hro
      rcases (mem_decodeBits _ _ _ _).mp hsome with ⟨j, hj, hbit⟩
      rw [Nat.zero_add] at hj
      have hidxj := indexOf?_of_get?_nodup _ j v.ctor f1.regNodup hj
      have hget : (flushW (removeW (insertW s e v) e v.ctor)).components.get?
          (getComponentIdW (insertW s e v) v.ctor).1 = some v.ctor := by
        rw [hcomp]
        exact (getComponentIdW_spec (insertW s e v) v.ctor).2.2.1
      have hidxi := indexOf?_of_get?_nodup _ _ v.ctor f1.regNodup hget
      rw [hidxj] at hidxi
      have hji : j = (getComponentIdW (insertW s e v) v.ctor).1 :=
        Option.some_inj.mp hidxi
      rw [harch, hji, Nat.testBit_ldiff, testBit_one_shiftLeft] at hbit
      simp at hbit
    unfold Table.hasColumn
    rw [Bool.eq_false_iff]
    intro hc
    exact hnotmem (List.elem_iff.mp hc)
  · intro t e' c d
    simp only [hasW]
    unfold getTableArchetype getComponentIdW
    dsimp only
    cases hidx : t.components.indexOf? c <;> rfl

/-- Witness for C3 in the fresh world: inserting then removing `Position` on
entity 0 and flushing leaves `has(Position)` false, the staged `Position`
value still pending before the flush, and no `Position` column at the
entity's table. -/
theorem c3_insert_remove_round_trip_witness :
    (hasW (flushW (removeW (insertW initWorld 0 (pos 5)) 0 PositionC))
        0 PositionC).1 = false
    ∧ pos 5 ∈ (lookupMap (removeW (insertW initWorld 0 (pos 5)) 0
        PositionC).pending 0).getD [] := by
  have h := c3_insert_remove_round_trip initWorld 0 (pos 5) BaseInv_initWorld
  exact ⟨h.1, h.2.1⟩

/-- Bits at or above the bound of a bounded number are clear. -/
theorem testBit_false_of_lt (x n j : Nat) (hx : x < 2 ^ n) (hj : n ≤ j) :
    x.testBit j = false := by
  by_contra hc
  rw [Bool.not_eq_false] at hc
  have := Nat.testBit_implies_ge hc
  have h2 : (2 : Nat) ^ n ≤ 2 ^ j := Nat.pow_le_pow_right (by norm_num) hj
  omega

/-- `swapRemove` returns the cell at the index. -/
theorem swapRemove_fst (col : List (Option Value)) (row : Nat) :
    (swapRemove col (row : Int)).1 = (col.get? row).join := by
  show jsRead col (row : Int) = _
  unfold jsRead
  rw [if_neg (by omega : ¬(row : Int) < 0)]
  norm_num

/-- `swapRemove` at a valid index of a column with a present last element:
the column shrinks by one and every surviving cell is unchanged except the
index, which now holds the old last cell. -/
theorem swapRemove_snd (col : List (Option Value)) (row : Nat)
    (hrow : row < col.length)
    (hlast : (col.get? (col.length - 1)).join.isSome) :
    ((swapRemove col (row : Int)).2).length = col.length - 1
    ∧ ∀ r < col.length - 1,
        ((swapRemove col (row : Int)).2).get? r
          = if r = row then col.get? (col.length - 1) else col.get? r := by
  obtain ⟨w, hw⟩ := Option.isSome_iff_exists.mp hlast
  have hcl : col.get? (col.length - 1) = some (some w) := by
    cases hg : col.get? (col.length - 1) with
    | none => rw [hg] at hw; exact Option.noConfusion hw
    | some o =>
        rw [hg] at hw
        cases o with
        | none => exact Option.noConfusion hw
        | some v => rw [Option.some_inj.mp hw]
  have hread : jsRead col ((col.length : Int) - 1) = some w := by
    unfold jsRead
    rw [if_neg (by omega : ¬(col.length : Int) - 1 < 0)]
    rw [show ((col.length : Int) - 1).toNat = col.length - 1 from by omega, hcl]
    rfl
  have hwr : jsWrite col (row : Int) w = col.set row (some w) := by
    unfold jsWrite
    rw [if_neg (by omega : ¬(row : Int) < 0)]
    rw [if_pos (by simpa using hrow)]
    norm_num
  have h2 : (swapRemove col (row : Int)).2 = (col.set row (some w)).dropLast := by
    show (match jsRead col ((col.length : Int) - 1) with
      | some v => jsWrite col (row : Int) v
      | none => col).dropLast = _
    rw [hread]
    dsimp only
    rw [hwr]
  rw [h2]
  constructor
  · rw [List.length_dropLast, List.length_set]
  · intro r hr
    rw [List.dropLast_eq_take, List.length_set, List.get?_eq_getElem?,
      List.getElem?_take_of_lt hr]
    by_cases hrr : r = row
    · subst hrr
      rw [if_pos rfl, hcl]
      simp [List.getElem?_set, hrow]
    · rw [if_neg hrr, List.get?_eq_getElem?]
      simp [List.getElem?_set, Ne.symm hrr]

/-- `Map.set` with a fresh key appends. -/
theorem mapSetC_fresh (m : List (Cls × Value)) (k : Cls) (v : Value)
    (h : k ∉ m.map Prod.fst) : mapSetC m k v = m ++ [(k, v)] := by
  unfold mapSetC
  rw [if_neg]
  intro hc
  rcases List.any_eq_true.mp hc with ⟨p, hp, hpk⟩
  have hpk' : p.1 = k := by simpa using hpk
  exact h (hpk' ▸ List.mem_map_of_mem Prod.fst hp)

/-- The key set after `Map.set`. -/
theorem mapSetC_keys_iff (m : List (Cls × Value)) (k : Cls) (v : Value) (x : Cls) :
    x ∈ (mapSetC m k v).map Prod.fst ↔ x ∈ m.map Prod.fst ∨ x = k := by
  unfold mapSetC
  by_cases hany : (m.any fun p => p.1 = k) = true
  · rw [if_pos hany]
    rcases List.any_eq_true.mp hany with ⟨p, hp, hpk⟩
    have hpk' : p.1 = k := by simpa using hpk
    constructor
    · intro hx
      rcases List.mem_map.mp hx with ⟨q, hq, hqx⟩
      rcases List.mem_map.mp hq with ⟨p', hp', hpq⟩
      by_cases hp'k : p'.1 = k
      · right
        rw [← hqx, ← hpq, if_pos hp'k]
      · left
        rw [← hqx, ← hpq, if_neg hp'k]
        exact List.mem_map_of_mem Prod.fst hp'
    · intro hx
      rcases hx with hx | hx
      · rcases List.mem_map.mp hx with ⟨p', hp', hpx⟩
        by_cases hp'k : p'.1 = k
        · refine List.mem_map.mpr ⟨(k, v), List.mem_map.mpr ⟨p', hp', by rw [if_pos hp'k]⟩, ?_⟩
          rw [← hpx, hp'k]
        · exact List.mem_map.mpr ⟨p', List.mem_map.mpr ⟨p', hp', by rw [if_neg hp'k]⟩, hpx⟩
      · rw [hx]
        exact List.mem_map.mpr ⟨(k, v), List.mem_map.mpr ⟨p, hp, by rw [if_pos hpk']⟩, rfl⟩
  · rw [if_neg hany, List.map_append]
    simp only [List.map_cons, List.map_nil, List.mem_append, List.mem_singleton]

/-- `Map.set` keeps the keys duplicate-free. -/
theorem mapSetC_keys_nodup (m : List (Cls × Value)) (k : Cls) (v : Value)
    (h : (m.map Prod.fst).Nodup) : ((mapSetC m k v).map Prod.fst).Nodup := by
  unfold mapSetC
  by_cases hany : (m.any fun p => p.1 = k) = true
  · rw [if_pos hany]
    have : (m.map (fun p => if p.1 = k then (k, v) else p)).map Prod.fst
        = m.map Prod.fst := by
      rw [List.map_map]
      refine List.map_congr_left ?_
      intro p hp
      by_cases hpk : p.1 = k
      · simp only [Function.comp_apply]
        rw [if_pos hpk]
        exact hpk.symm
      · simp only [Function.comp_apply]
        rw [if_neg hpk]
    rw [this]
    exact h
  · rw [if_neg hany, List.map_append]
    simp only [List.map_cons, List.map_nil]
    rw [List.nodup_append]
    refine ⟨h, List.nodup_singleton k, ?_⟩
    intro x hx hk
    rw [List.mem_singleton] at hk
    subst hk
    apply hany
    rcases List.mem_map.mp hx with ⟨p, hp, hpx⟩
    exact List.any_eq_true.mpr ⟨p, hp, by simpa using hpx⟩

/-- Where the pairs of `Map.set` come from. -/
theorem mapSetC_mem (m : List (Cls × Value)) (k : Cls) (v : Value)
    (q : Cls × Value) (hq : q ∈ mapSetC m k v) : q = (k, v) ∨ q ∈ m := by
  unfold mapSetC at hq
  by_cases hany : (m.any fun p => p.1 = k) = true
  · rw [if_pos hany] at hq
    rcases List.mem_map.mp hq with ⟨p, hp, hpq⟩
    by_cases hpk : p.1 = k
    · rw [if_pos hpk] at hpq
      exact Or.inl hpq.symm
    · rw [if_neg hpk] at hpq
      exact Or.inr (hpq ▸ hp)
  · rw [if_neg hany] at hq
    rcases List.mem_append.mp hq with hq | hq
    · exact Or.inr hq
    · exact Or.inl (List.mem_singleton.mp hq)

/-- The second loop of `move` (staging the caller's `components`): keys stay
duplicate-free, every staged pair is class-correct, present in the target's
component list, `Entity`-keyed pairs hold the moved entity, keys are never
lost, and every component the target has a column for gets staged. -/
theorem finalFold_ok (tgt : Table) (e0 : Nat) (vs : List Value) :
    ∀ (m : List (Cls × Value)),
    (∀ v ∈ vs, v = Value.ent e0 ∨ ∃ c x, v = Value.comp c x ∧ c ≠ EntityC) →
    ((m.map Prod.fst).Nodup) →
    (∀ q ∈ m, q.2.ctor = q.1 ∧ q.1 ∈ tgt.compsT
      ∧ (q.1 = EntityC → q.2 = Value.ent e0)) →
    (((vs.foldl (fun m v =>
        if tgt.hasColumn v.ctor then mapSetC m v.ctor v else m) m).map
          Prod.fst).Nodup)
    ∧ (∀ q ∈ vs.foldl (fun m v =>
          if tgt.hasColumn v.ctor then mapSetC m v.ctor v else m) m,
        q.2.ctor = q.1 ∧ q.1 ∈ tgt.compsT
          ∧ (q.1 = EntityC → q.2 = Value.ent e0))
    ∧ (∀ x ∈ m.map Prod.fst,
        x ∈ (vs.foldl (fun m v =>
          if tgt.hasColumn v.ctor then mapSetC m v.ctor v else m) m).map
            Prod.fst)
    ∧ (∀ v ∈ vs, tgt.hasColumn v.ctor = true →
        v.ctor ∈ (vs.foldl (fun m v =>
          if tgt.hasColumn v.ctor then mapSetC m v.ctor v else m) m).map
            Prod.fst) := by
  induction vs with
  | nil =>
      intro m hvs hnd hty
      exact ⟨hnd, hty, fun x hx => hx, fun v hv => absurd hv (List.not_mem_nil v)⟩
  | cons v₀ rest ih =>
      intro m hvs hnd hty
      rw [List.foldl_cons]
      have hv₀ := hvs v₀ (List.mem_cons_self v₀ rest)
      by_cases hcol : tgt.hasColumn v₀.ctor = true
      · rw [if_pos hcol]
        have hnd₁ : ((mapSetC m v₀.ctor v₀).map Prod.fst).Nodup :=
          mapSetC_keys_nodup m v₀.ctor v₀ hnd
        have hty₁ : ∀ q ∈ mapSetC m v₀.ctor v₀, q.2.ctor = q.1
            ∧ q.1 ∈ tgt.compsT ∧ (q.1 = EntityC → q.2 = Value.ent e0) := by
          intro q hq
          rcases mapSetC_mem m v₀.ctor v₀ q hq with hq | hq
          · subst hq
            refine ⟨rfl, List.elem_iff.mp hcol, ?_⟩
            intro hek
            rcases hv₀ with hv₀ | ⟨c, x, hv₀, hc⟩
            · exact hv₀
            · exfalso
              apply hc
              rw [hv₀] at hek
              exact hek
          · exact hty q hq
        obtain ⟨g1, g2, g3, g4⟩ := ih (mapSetC m v₀.ctor v₀)
          (fun v hv => hvs v (List.mem_cons_of_mem _ hv)) hnd₁ hty₁
        refine ⟨g1, g2, ?_, ?_⟩
        · intro x hx
          exact g3 x ((mapSetC_keys_iff m v₀.ctor v₀ x).mpr (Or.inl hx))
        · intro v hv hvc
          rcases List.mem_cons.mp hv with hv | hv
          · subst hv
            exact g3 v.ctor ((mapSetC_keys_iff m v.ctor v v.ctor).mpr (Or.inr rfl))
          · exact g4 v hv hvc
      · rw [if_neg hcol]
        obtain ⟨g1, g2, g3, g4⟩ := ih m
          (fun v hv => hvs v (List.mem_cons_of_mem _ hv)) hnd hty
        refine ⟨g1, g2, g3, ?_⟩
        intro v hv hvc
        rcases List.mem_cons.mp hv with hv | hv
        · subst hv
          exact absurd hvc hcol
        · exact g4 v hv hvc

/-- One `move` first-loop step when the removal returns a value. -/
theorem moveStep1_char (tgt : Table) (row : Int) (acc : MoveAcc)
    (p : Cls × List (Option Value)) (v : Value)
    (hv : (swapRemove p.2 row).1 = some v) :
    moveStep1 tgt row acc p
      = { cols := acc.cols ++ [(swapRemove p.2 row).2]
          final := if tgt.hasColumn p.1 then mapSetC acc.final p.1 v
            else acc.final
          fixups := if p.1 = EntityC then
              match jsRead (swapRemove p.2 row).2 row with
              | some (Value.ent e) => acc.fixups ++ [(e, row.toNat)]
              | _ => acc.fixups
            else acc.fixups } := by
  obtain ⟨c, col⟩ := p
  unfold moveStep1
  dsimp only
  rcases hsw : swapRemove col row with ⟨removed, col'⟩
  rw [hsw] at hv
  dsimp only at hv
  subst hv
  rfl

/-- A JS array read at a natural index. -/
theorem jsRead_nat (a : List (Option Value)) (r : Nat) :
    jsRead a (r : Int) = (a.get? r).join := by
  unfold jsRead
  rw [if_neg (by omega : ¬(r : Int) < 0)]
  norm_num

/-- The first loop of a cross-table `move` over typed, aligned source
columns at a valid row: every column is `swapRemove`d, exactly the
target-supported classes are staged with the removed cell, and the Entity
column contributes the single back-fill fix-up unless the moved row is the
last one. -/
theorem foldl_moveStep1_char (tgt : Table) (row L : Nat) (hrowL : row < L) :
    ∀ (ps : List (Cls × List (Option Value))) (acc : MoveAcc),
    (∀ p ∈ ps, p.2.length = L) →
    (∀ p ∈ ps, ∀ r < L, ∃ v, p.2.get? r = some (some v) ∧ v.ctor = p.1) →
    (∀ p ∈ ps, p.1 = EntityC →
      ∀ r < L, ∃ e, p.2.get? r = some (some (Value.ent e))) →
    ((acc.final.map Prod.fst ++ ps.map Prod.fst).Nodup) →
    ((ps.foldl (moveStep1 tgt (row : Int)) acc).cols
        = acc.cols ++ ps.map (fun p => (swapRemove p.2 (row : Int)).2)
      ∧ (ps.foldl (moveStep1 tgt (row : Int)) acc).final
          = acc.final ++ (ps.filter (fun p => tgt.hasColumn p.1)).map
              (fun p => (p.1, ((p.2.get? row).join).getD (Value.ent 0)))
      ∧ (ps.foldl (moveStep1 tgt (row : Int)) acc).fixups
          = acc.fixups ++ (if row + 1 = L then [] else
              (ps.filter (fun p => p.1 == EntityC)).map
                (fun p => (match (p.2.get? (L - 1)).join with
                  | some (Value.ent e) => e
                  | _ => 0, row)))) := by
  intro ps
  induction ps with
  | nil =>
      intro acc _ _ _ _
      refine ⟨by simp, by simp, ?_⟩
      by_cases hL : row + 1 = L
      · rw [if_pos hL]
        simp
      · rw [if_neg hL]
        simp
  | cons p₀ rest ih =>
      intro acc hlen htyped hent hnd
      have hmem₀ : p₀ ∈ p₀ :: rest := List.mem_cons_self p₀ rest
      obtain ⟨v₀, hv₀, hv₀c⟩ := htyped p₀ hmem₀ row hrowL
      have hL0 : p₀.2.length = L := hlen p₀ hmem₀
      have hfst : (swapRemove p₀.2 (row : Int)).1 = some v₀ := by
        rw [swapRemove_fst, hv₀]
        rfl
      obtain ⟨vL, hvL, hvLc⟩ := htyped p₀ hmem₀ (L - 1) (by omega)
      have hlast : (p₀.2.get? (p₀.2.length - 1)).join.isSome = true := by
        rw [hL0, hvL]
        rfl
      obtain ⟨hslen, hscell⟩ := swapRemove_snd p₀.2 row (by omega) hlast
      rw [List.foldl_cons, moveStep1_char tgt (row : Int) acc p₀ v₀ hfst]
      -- split the Nodup hypothesis
      rw [List.map_cons] at hnd
      obtain ⟨hA, hcR, hdisj⟩ := List.nodup_append.mp hnd
      rw [List.nodup_cons] at hcR
      have hfresh : p₀.1 ∉ acc.final.map Prod.fst := by
        intro hk
        exact hdisj hk (List.mem_cons_self _ _)
      have hndAR : (acc.final.map Prod.fst ++ rest.map Prod.fst).Nodup := by
        rw [List.nodup_append]
        exact ⟨hA, hcR.2, fun a ha hr => hdisj ha (List.mem_cons_of_mem _ hr)⟩
      have hlen' : ∀ p ∈ rest, p.2.length = L :=
        fun p hp => hlen p (List.mem_cons_of_mem _ hp)
      have htyped' : ∀ p ∈ rest, ∀ r < L,
          ∃ v, p.2.get? r = some (some v) ∧ v.ctor = p.1 :=
        fun p hp => htyped p (List.mem_cons_of_mem _ hp)
      have hent' : ∀ p ∈ rest, p.1 = EntityC →
          ∀ r < L, ∃ e, p.2.get? r = some (some (Value.ent e)) :=
        fun p hp => hent p (List.mem_cons_of_mem _ hp)
      by_cases hcol : tgt.hasColumn p₀.1 = true
      · -- the head class is staged
        have hsetC : mapSetC acc.final p₀.1 v₀ = acc.final ++ [(p₀.1, v₀)] :=
          mapSetC_fresh acc.final p₀.1 v₀ hfresh
        have hndr : ((if tgt.hasColumn p₀.1 then mapSetC acc.final p₀.1 v₀
            else acc.final).map Prod.fst ++ rest.map Prod.fst).Nodup := by
          rw [if_pos hcol, hsetC, List.map_append]
          rw [List.append_assoc]
          rw [List.nodup_append]
          refine ⟨hA, ?_, ?_⟩
          · rw [List.map_cons, List.map_nil, List.singleton_append,
              List.nodup_cons]
            exact ⟨hcR.1, hcR.2⟩
          · intro a ha hr
            rw [List.map_cons, List.map_nil, List.singleton_append] at hr
            exact hdisj ha hr
        obtain ⟨g1, g2, g3⟩ := ih ⟨acc.cols ++ [(swapRemove p₀.2 (row : Int)).2],
          if tgt.hasColumn p₀.1 then mapSetC acc.final p₀.1 v₀ else acc.final,
          if p₀.1 = EntityC then
              match jsRead (swapRemove p₀.2 (row : Int)).2 (row : Int) with
              | some (Value.ent e) => acc.fixups ++ [(e, (row : Int).toNat)]
              | _ => acc.fixups
            else acc.fixups⟩ hlen' htyped' hent' hndr
        refine ⟨?_, ?_, ?_⟩
        · rw [g1]
          dsimp only
          rw [List.map_cons, List.append_assoc]
          rfl
        · rw [g2]
          dsimp only
          rw [if_pos hcol, hsetC]
          rw [List.filter_cons_of_pos (by simpa using hcol), List.map_cons]
          rw [List.append_assoc]
          congr 2
          rw [List.singleton_append]
          congr 1
          rw [hv₀]
          rfl
        · rw [g3]
          dsimp only
          by_cases hE : p₀.1 = EntityC
          · rw [if_pos hE]
            by_cases hL : row + 1 = L
            · -- moving the last row: no back-fill
              have hnone : jsRead (swapRemove p₀.2 (row : Int)).2 (row : Int)
                  = none := by
                rw [jsRead_nat, List.get?_eq_getElem?,
                  List.getElem?_eq_none (by omega)]
                rfl
              rw [hnone]
              rw [if_pos hL, if_pos hL]
            · -- the old last entity is backfilled to the vacated row
              obtain ⟨eb, heb⟩ := hent p₀ hmem₀ hE (L - 1) (by omega)
              have hcell : ((swapRemove p₀.2 (row : Int)).2).get? row
                  = some (some (Value.ent eb)) := by
                rw [hscell row (by omega), if_pos rfl, hL0, heb]
              have hread : jsRead (swapRemove p₀.2 (row : Int)).2 (row : Int)
                  = some (Value.ent eb) := by
                rw [jsRead_nat, hcell]
                rfl
              rw [hread]
              rw [if_neg hL, if_neg hL]
              rw [List.filter_cons_of_pos (by simpa using hE), List.map_cons]
              rw [heb]
              dsimp only
              rw [List.append_assoc]
              congr 2
          · rw [if_neg hE]
            by_cases hL : row + 1 = L
            · rw [if_pos hL, if_pos hL]
            · rw [if_neg hL, if_neg hL]
              rw [List.filter_cons_of_neg (by simpa using hE)]
      · -- the head class is not staged
        have hndr : ((if tgt.hasColumn p₀.1 then mapSetC acc.final p₀.1 v₀
            else acc.final).map Prod.fst ++ rest.map Prod.fst).Nodup := by
          rw [if_neg hcol]
          exact hndAR
        obtain ⟨g1, g2, g3⟩ := ih ⟨acc.cols ++ [(swapRemove p₀.2 (row : Int)).2],
          if tgt.hasColumn p₀.1 then mapSetC acc.final p₀.1 v₀ else acc.final,
          if p₀.1 = EntityC then
              match jsRead (swapRemove p₀.2 (row : Int)).2 (row : Int) with
              | some (Value.ent e) => acc.fixups ++ [(e, (row : Int).toNat)]
              | _ => acc.fixups
            else acc.fixups⟩ hlen' htyped' hent' hndr
        refine ⟨?_, ?_, ?_⟩
        · rw [g1]
          dsimp only
          rw [List.map_cons, List.append_assoc]
          rfl
        · rw [g2]
          dsimp only
          rw [if_neg hcol]
          rw [List.filter_cons_of_neg (by simpa using hcol)]
        · rw [g3]
          dsimp only
          by_cases hE : p₀.1 = EntityC
          · -- Entity is always a column of a legitimate target, but the
            -- fix-up bookkeeping itself does not need that fact
            by_cases hL : row + 1 = L
            · rw [if_pos hE]
              have hnone : jsRead (swapRemove p₀.2 (row : Int)).2 (row : Int)
                  = none := by
                rw [jsRead_nat, List.get?_eq_getElem?,
                  List.getElem?_eq_none (by omega)]
                rfl
              rw [hnone]
              rw [if_pos hL, if_pos hL]
            · rw [if_pos hE]
              obtain ⟨eb, heb⟩ := hent p₀ hmem₀ hE (L - 1) (by omega)
              have hcell : ((swapRemove p₀.2 (row : Int)).2).get? row
                  = some (some (Value.ent eb)) := by
                rw [hscell row (by omega), if_pos rfl, hL0, heb]
              have hread : jsRead (swapRemove p₀.2 (row : Int)).2 (row : Int)
                  = some (Value.ent eb) := by
                rw [jsRead_nat, hcell]
                rfl
              rw [hread]
              rw [if_neg hL, if_neg hL]
              rw [List.filter_cons_of_pos (by simpa using hE), List.map_cons]
              rw [heb]
              dsimp only
              rw [List.append_assoc]
              congr 2
          · rw [if_neg hE]
            by_cases hL : row + 1 = L
            · rw [if_pos hL, if_pos hL]
            · rw [if_neg hL, if_neg hL]
              rw [List.filter_cons_of_neg (by simpa using hE)]

/-- `getColumnIdx` on a present class with enough columns: the index is the
class's position in the component list. -/
theorem getColumnIdx_of_mem (t : Table) (c : Cls) (hc : c ∈ t.compsT)
    (hlen : t.compsT.length ≤ t.columns.length) :
    t.getColumnIdx c = some (t.compsT.indexOf c)
      ∧ t.compsT.indexOf c < t.compsT.length
      ∧ t.compsT.getD (t.compsT.indexOf c) EntityC = c := by
  unfold Table.getColumnIdx
  rw [if_pos hc]
  have hidx : t.compsT.indexOf c < t.compsT.length :=
    List.indexOf_lt_length.mpr hc
  rw [if_pos (by omega)]
  refine ⟨rfl, hidx, ?_⟩
  rw [List.getD_eq_getElem?_getD, List.getElem?_eq_getElem hidx]
  simp [List.getElem_indexOf]

/-- The third loop of `move` (pushing the staged values): every staged class
appends its value to that class's column, other columns are untouched, and
the table's identity fields are unchanged. -/
theorem foldl_pushColumn_char (tgt : Table) :
    ∀ (kvs : List (Cls × Value)),
    (∀ q ∈ kvs, q.1 ∈ tgt.compsT) →
    ((kvs.map Prod.fst).Nodup) →
    (tgt.compsT.length ≤ tgt.columns.length) →
    (tgt.compsT.Nodup) →
    ((kvs.foldl (fun t kv => t.pushColumn kv.1 kv.2) tgt).tid = tgt.tid
      ∧ (kvs.foldl (fun t kv => t.pushColumn kv.1 kv.2) tgt).archetype
          = tgt.archetype
      ∧ (kvs.foldl (fun t kv => t.pushColumn kv.1 kv.2) tgt).compsT
          = tgt.compsT
      ∧ (kvs.foldl (fun t kv => t.pushColumn kv.1 kv.2) tgt).columns.length
          = tgt.columns.length
      ∧ (∀ j < tgt.compsT.length,
          (kvs.foldl (fun t kv => t.pushColumn kv.1 kv.2) tgt).columns.getD j []
            = tgt.columns.getD j []
              ++ (match kvs.find?
                    (fun q => q.1 = tgt.compsT.getD j EntityC) with
                  | some q => [some q.2]
                  | none => []))
      ∧ (∀ j, tgt.compsT.length ≤ j →
          (kvs.foldl (fun t kv => t.pushColumn kv.1 kv.2) tgt).columns.getD j []
            = tgt.columns.getD j [])) := by
  intro kvs
  induction kvs generalizing tgt with
  | nil =>
      intro _ _ _ _
      exact ⟨rfl, rfl, rfl, rfl, fun j hj => by simp, fun j hj => rfl⟩
  | cons q₀ rest ih =>
      intro hsub hnd hlen hcnd
      have hq₀ : q₀.1 ∈ tgt.compsT := hsub q₀ (List.mem_cons_self q₀ rest)
      obtain ⟨hidx, hlt, hat⟩ := getColumnIdx_of_mem tgt q₀.1 hq₀ hlen
      have hstep : tgt.pushColumn q₀.1 q₀.2
          = { tgt with columns := tgt.columns.set (tgt.compsT.indexOf q₀.1) ((tgt.columns.getD (tgt.compsT.indexOf q₀.1) []) ++ [some q₀.2]) } := by
        unfold Table.pushColumn
        rw [hidx]
      rw [List.foldl_cons, hstep]
      rw [List.map_cons, List.nodup_cons] at hnd
      obtain ⟨g1, g2, g3, g4, g5, g6⟩ := ih { tgt with columns := tgt.columns.set (tgt.compsT.indexOf q₀.1) ((tgt.columns.getD (tgt.compsT.indexOf q₀.1) []) ++ [some q₀.2]) }
        (by intro q hq; exact hsub q (List.mem_cons_of_mem _ hq))
        hnd.2
        (by simpa using hlen)
        hcnd
      refine ⟨g1, g2, g3, by simpa using g4, ?_, ?_⟩
      · intro j hj
        rw [g5 j hj]
        dsimp only
        by_cases hjq : j = tgt.compsT.indexOf q₀.1
        · subst hjq
          rw [getD_set_same _ _ _ _ (by omega), hat]
          have hnone : rest.find? (fun q => q.1 = q₀.1) = none := by
            rw [List.find?_eq_none]
            intro q hq
            simp only [decide_eq_true_eq]
            intro hq1
            exact hnd.1 (hq1 ▸ List.mem_map_of_mem Prod.fst hq)
          rw [hnone, List.find?_cons_of_pos _ (by simp)]
          dsimp only
          rw [List.append_nil]
        · have hne : tgt.compsT.getD j EntityC ≠ q₀.1 := by
            intro hcon
            apply hjq
            rw [List.getD_eq_getElem?_getD, List.getElem?_eq_getElem hj] at hcon
            simp only [Option.getD_some] at hcon
            have h2 : tgt.compsT[tgt.compsT.indexOf q₀.1] = q₀.1 :=
              List.getElem_indexOf hlt
            rw [← h2] at hcon
            exact (List.Nodup.getElem_inj_iff hcnd).mp hcon
          rw [getD_set_diff _ _ _ _ _ (fun hcon => hjq hcon.symm)]
          rw [List.find?_cons]
          rw [show (decide (q₀.1 = tgt.compsT.getD j EntityC)) = false from by
            simp only [decide_eq_false_iff_not]
            intro hcon
            exact hne hcon.symm]

      · intro j hj
        rw [g6 j hj]
        dsimp only
        rw [getD_set_diff _ _ _ _ _ (by omega)]

/-- `table.length` is the length of the leading column. -/
theorem Table.length_eq (t : Table) :
    Table.length t = (t.columns.getD 0 []).length := by
  unfold Table.length
  cases hg : t.columns.get? 0 with
  | none =>
      rw [List.getD_eq_getElem?_getD, ← List.get?_eq_getElem?, hg]
      rfl
  | some col =>
      rw [List.getD_eq_getElem?_getD, ← List.get?_eq_getElem?, hg]
      rfl

/-- A table's component list is a sublist of the registry. -/
theorem compsT_sublist_registry (s : WorldState) (h : BaseInv s) (i : Nat)
    (hi : i < s.tables.length) :
    ((s.tables.getD i default).compsT).Sublist s.components := by
  rw [(h.shape i hi).2.1]
  refine (List.filter_sublist _).trans ?_
  have hsub := decodeBits_reduceOption_sublist s.components
    ((s.tables.getD i default).archetype) 0
  rwa [List.drop_zero] at hsub

/-- A table's component list has no duplicates. -/
theorem compsT_nodup (s : WorldState) (h : BaseInv s) (i : Nat)
    (hi : i < s.tables.length) :
    ((s.tables.getD i default).compsT).Nodup :=
  (compsT_sublist_registry s h i hi).nodup h.regNodup

/-- A table with an odd archetype lists `Entity` first. -/
theorem compsT_head_of_odd (s : WorldState) (h : BaseInv s) (i : Nat)
    (hi : i < s.tables.length)
    (hodd : (s.tables.getD i default).archetype % 2 = 1) :
    ∃ cs, (s.tables.getD i default).compsT = EntityC :: cs := by
  have hsh := (h.shape i hi).2.1
  rw [hsh, decodeBits_eq, if_neg (by omega), if_pos hodd, h.regHead]
  rw [List.singleton_append, List.reduceOption_cons_of_some]
  rw [List.filter_cons_of_pos (by rfl)]
  exact ⟨_, rfl⟩

/-- Core location/column consistency invariant of the world: tables are
column-aligned and class-typed, the Entity column of every non-sentinel table
and the entity locations are mutually inverse, dead entities sit at
`{0, 0}`, fresh ids are untouched, staged destinations are `0` or odd and
keyed below `nextId`, pending payloads are well-typed, and every staged
non-zero destination's component set is covered by the entity's current table
together with its pending payload. -/
structure CoreInv (s : WorldState) : Prop where
  base : BaseInv s
  oddT : ∀ i, 0 < i → i < s.tables.length →
    (s.tables.getD i default).archetype % 2 = 1
  aligned : ∀ i < s.tables.length,
    ∀ j < (s.tables.getD i default).compsT.length,
    ((s.tables.getD i default).columns.getD j []).length
      = Table.length (s.tables.getD i default)
  typed : ∀ i < s.tables.length,
    ∀ j < (s.tables.getD i default).compsT.length,
    ∀ r < Table.length (s.tables.getD i default),
    ∃ v, ((s.tables.getD i default).columns.getD j []).get? r
        = some (some v)
      ∧ v.ctor = (s.tables.getD i default).compsT.getD j EntityC
  entCol : ∀ i, 0 < i → i < s.tables.length →
    ∀ r < Table.length (s.tables.getD i default),
    ∃ e, ((s.tables.getD i default).columns.getD 0 []).get? r
        = some (some (Value.ent e))
      ∧ s.locs e = ⟨i, r⟩
  locA : ∀ e, (s.locs e).tableId ≠ 0 →
    (s.locs e).tableRow
        < Table.length (s.tables.getD (s.locs e).tableId default)
    ∧ ((s.tables.getD (s.locs e).tableId default).columns.getD 0 []).get?
        (s.locs e).tableRow = some (some (Value.ent e))
  deadZero : ∀ e, (s.locs e).tableId = 0 → (s.locs e).tableRow = 0
  pendTyped : ∀ p ∈ s.pending, ∀ v ∈ p.2,
    v = Value.ent p.1 ∨ ∃ c x, v = Value.comp c x ∧ c ≠ EntityC
  locsFresh : ∀ e, s.nextId ≤ e →
    s.locs e = ⟨0, 0⟩ ∧ lookupMap s.pending e = none
      ∧ lookupMap s.dests e = none
  destsLt : ∀ p ∈ s.dests, p.1 < s.nextId
  destsOdd : ∀ p ∈ s.dests, p.2 = 0 ∨ p.2 % 2 = 1
  cover : ∀ e d, (e, d) ∈ s.dests → d ≠ 0 →
    ((s.locs e).tableId ≠ 0
      ∨ Value.ent e ∈ (lookupMap s.pending e).getD [])
    ∧ (∀ j c, s.components.get? j = some c → d.testBit j →
        isSizedComponent c = true → c ≠ EntityC →
        ((s.tables.getD (s.locs e).tableId default).archetype.testBit j
          ∨ ∃ v ∈ (lookupMap s.pending e).getD [], v.ctor = c))

/-- Two live entities at the same location coincide. -/
theorem CoreInv.loc_inj (s : WorldState) (h : CoreInv s) (e e' : Nat)
    (hne : (s.locs e).tableId ≠ 0) (heq : s.locs e = s.locs e') : e = e' := by
  have ha := (h.locA e hne).2
  have hb := (h.locA e' (by rw [← heq]; exact hne)).2
  rw [← heq] at hb
  rw [ha] at hb
  exact Value.ent.inj (Option.some_inj.mp (Option.some_inj.mp hb))

/-- Every column of a freshly constructed table is empty. -/
theorem mkTable_cols_empty (tid arch : Nat) (cs : List (Option Cls)) (j : Nat) :
    (mkTable tid arch cs).columns.getD j [] = [] := by
  show ((cs.map fun _ => []).getD j []) = []
  rw [List.getD_eq_getElem?_getD]
  cases hj : (cs.map fun _ => ([] : List (Option Value)))[j]? with
  | none => rfl
  | some col =>
      rcases List.getElem?_eq_some.mp hj with ⟨hb, hcol⟩
      rw [List.getElem_map] at hcol
      rw [← hcol]
      rfl

/-- `getTable` either returns an existing slot untouched or appends a fresh
empty table for the archetype at the next slot. -/
theorem getTableW_new_or_old (s : WorldState) (d : Nat) (h : BaseInv s) :
    ((getTableW s d).1 < s.tables.length
        ∧ (getTableW s d).2.tables = s.tables)
    ∨ ((getTableW s d).1 = s.tables.length
        ∧ (getTableW s d).2.tables
            = s.tables ++ [mkTable s.tables.length d
                (getComponentsForArchetype s d)]) := by
  simp only [getTableW]
  cases hf : lookupMap s.archToTable d with
  | some t =>
      left
      have hmem := lookupMap_mem _ _ _ hf
      exact ⟨(h.mapCoh (d, t) hmem).1, rfl⟩
  | none =>
      right
      exact ⟨rfl, rfl⟩

/-- Acquiring the target table preserves the core invariant (the fresh table
is empty, has the requested archetype, and hosts no entity). -/
theorem CoreInv_getTableW (s : WorldState) (d : Nat) (h : CoreInv s)
    (hd : d < 2 ^ s.components.length) (hodd : d = 0 ∨ d % 2 = 1) :
    CoreInv (getTableW s d).2 := by
  obtain ⟨hinv₁, htgt, harch, hcomps, hlen, hpres, hlocs, hdests, hpend, hnext⟩ :=
    getTableW_spec s d h.base hd
  rcases getTableW_new_or_old s d h.base with ⟨hlt, htb⟩ | ⟨hidx, htb⟩
  · -- existing slot: the state is unchanged except possibly nothing
    refine ⟨hinv₁, ?_, ?_, ?_, ?_, ?_, ?_, ?_, ?_, ?_, ?_, ?_⟩
    · intro i h0 hi
      rw [htb] at hi ⊢
      exact h.oddT i h0 hi
    · intro i hi
      rw [htb] at hi ⊢
      exact h.aligned i hi
    · intro i hi
      rw [htb] at hi ⊢
      exact h.typed i hi
    · intro i h0 hi
      rw [htb] at hi ⊢
      rw [hlocs]
      exact h.entCol i h0 hi
    · intro e he
      rw [hlocs] at he ⊢
      rw [htb]
      exact h.locA e he
    · intro e
      rw [hlocs]
      exact h.deadZero e
    · rw [hpend]
      exact h.pendTyped
    · intro e he
      rw [hnext] at he
      rw [hlocs, hpend, hdests]
      exact h.locsFresh e he
    · rw [hdests, hnext]
      exact h.destsLt
    · rw [hdests]
      exact h.destsOdd
    · intro e d' hmem hd'
      rw [hdests] at hmem
      rw [hlocs, hpend, htb, hcomps]
      exact h.cover e d' hmem hd'
  · -- fresh slot at the end
    have hfresh : ∀ j, ((getTableW s d).2.tables.getD s.tables.length
        default).columns.getD j [] = [] := by
      intro j
      rw [htb, getD_append_at]
      exact mkTable_cols_empty _ _ _ j
    have hflen : Table.length ((getTableW s d).2.tables.getD
        s.tables.length default) = 0 := by
      rw [Table.length_eq, hfresh 0]
      rfl
    have hsplit : ∀ i, i < (getTableW s d).2.tables.length →
        i < s.tables.length ∨ i = s.tables.length := by
      intro i hi
      rw [htb, List.length_append] at hi
      simp only [List.length_cons, List.length_nil] at hi
      omega
    refine ⟨hinv₁, ?_, ?_, ?_, ?_, ?_, ?_, ?_, ?_, ?_, ?_, ?_⟩
    · intro i h0 hi
      rcases hsplit i hi with hi' | hi'
      · rw [hpres i hi']
        exact h.oddT i h0 hi'
      · subst hi'
        rw [← hidx, harch]
        rcases hodd with h0' | h0'
        · subst h0'
          -- archetype 0 is the sentinel's: getTable would have found slot 0
          exfalso
          have hm := h.base.mapCompl 0 (BaseInv_tables_pos s h.base)
          rw [BaseInv_sentinel_getD s h.base] at hm
          have hl : lookupMap s.archToTable 0 = some 0 :=
            lookupMap_of_mem_nodup s.archToTable 0 0 hm h.base.mapKeys
          rcases getTableW_new_or_old s 0 h.base with ⟨hlt0, _⟩ | ⟨hi0, _⟩
          · omega
          · simp only [getTableW, hl] at hi0
            have := BaseInv_tables_pos s h.base
            omega
        · exact h0'
    · intro i hi
      rcases hsplit i hi with hi' | hi'
      · rw [hpres i hi']
        exact h.aligned i hi'
      · subst hi'
        intro j hj
        rw [hfresh j, hflen]
        rfl
    · intro i hi
      rcases hsplit i hi with hi' | hi'
      · rw [hpres i hi']
        exact h.typed i hi'
      · subst hi'
        intro j hj r hr
        rw [hflen] at hr
        omega
    · intro i h0 hi
      rcases hsplit i hi with hi' | hi'
      · rw [hpres i hi', hlocs]
        exact h.entCol i h0 hi'
      · subst hi'
        intro r hr
        rw [hflen] at hr
        omega
    · intro e he
      rw [hlocs] at he ⊢
      have hlt' := h.base.locsLt e
      rw [hpres _ hlt']
      exact h.locA e he
    · intro e
      rw [hlocs]
      exact h.deadZero e
    · rw [hpend]
      exact h.pendTyped
    · intro e he
      rw [hnext] at he
      rw [hlocs, hpend, hdests]
      exact h.locsFresh e he
    · rw [hdests, hnext]
      exact h.destsLt
    · rw [hdests]
      exact h.destsOdd
    · intro e d' hmem hd'
      rw [hdests] at hmem
      rw [hlocs, hpend, hcomps]
      have hlt' := h.base.locsLt e
      rw [hpres _ hlt']
      exact h.cover e d' hmem hd'

/-- What a successful `getColumnIdx` means. -/
theorem getColumnIdx_some (t : Table) (c : Cls) (j : Nat)
    (h : t.getColumnIdx c = some j) :
    c ∈ t.compsT ∧ j = t.compsT.indexOf c ∧ j < t.columns.length := by
  unfold Table.getColumnIdx at h
  by_cases hc : c ∈ t.compsT
  · rw [if_pos hc] at h
    by_cases hj : t.compsT.indexOf c < t.columns.length
    · rw [if_pos hj] at h
      exact ⟨hc, (Option.some_inj.mp h).symm, (Option.some_inj.mp h) ▸ hj⟩
    · rw [if_neg hj] at h
      exact Option.noConfusion h
  · rw [if_neg hc] at h
    exact Option.noConfusion h

/-- The same-table branch of `move` overwrites staged cells at the moved row:
identity fields, the column count, the Entity column and every column's
length and typing are preserved. -/
theorem foldl_sameMove_char (S : Table) (eid row : Nat) (comps : List Value)
    (hp : ∀ v ∈ comps, v = Value.ent eid
      ∨ ∃ c x, v = Value.comp c x ∧ c ≠ EntityC)
    (hheadE : S.compsT ≠ [] → S.compsT.getD 0 EntityC = EntityC)
    (hrow : S.compsT ≠ [] → row < Table.length S)
    (hcell : EntityC ∈ S.compsT →
      (S.columns.getD 0 []).get? row = some (some (Value.ent eid))) :
    ∀ (t : Table), t.tid = S.tid → t.archetype = S.archetype →
    t.compsT = S.compsT → t.columns.length = S.columns.length →
    t.columns.getD 0 [] = S.columns.getD 0 [] →
    (∀ j < S.compsT.length, (t.columns.getD j []).length = Table.length S
      ∧ ∀ r < Table.length S, ∃ v, (t.columns.getD j []).get? r
          = some (some v) ∧ v.ctor = S.compsT.getD j EntityC) →
    ((comps.foldl (fun t v => match t.getColumnIdx v.ctor with
        | some j => { t with columns := t.columns.set j (jsWrite (t.columns.getD j []) (row : Int) v) }
        | none => t) t).tid = S.tid
      ∧ (comps.foldl (fun t v => match t.getColumnIdx v.ctor with
          | some j => { t with columns := t.columns.set j (jsWrite (t.columns.getD j []) (row : Int) v) }
          | none => t) t).archetype = S.archetype
      ∧ (comps.foldl (fun t v => match t.getColumnIdx v.ctor with
          | some j => { t with columns := t.columns.set j (jsWrite (t.columns.getD j []) (row : Int) v) }
          | none => t) t).compsT = S.compsT
      ∧ (comps.foldl (fun t v => match t.getColumnIdx v.ctor with
          | some j => { t with columns := t.columns.set j (jsWrite (t.columns.getD j []) (row : Int) v) }
          | none => t) t).columns.length = S.columns.length
      ∧ (comps.foldl (fun t v => match t.getColumnIdx v.ctor with
          | some j => { t with columns := t.columns.set j (jsWrite (t.columns.getD j []) (row : Int) v) }
          | none => t) t).columns.getD 0 [] = S.columns.getD 0 []
      ∧ (∀ j < S.compsT.length,
          (((comps.foldl (fun t v => match t.getColumnIdx v.ctor with
            | some j => { t with columns := t.columns.set j (jsWrite (t.columns.getD j []) (row : Int) v) }
            | none => t) t).columns.getD j []).length = Table.length S)
          ∧ ∀ r < Table.length S, ∃ v,
              ((comps.foldl (fun t v => match t.getColumnIdx v.ctor with
                | some j => { t with columns := t.columns.set j (jsWrite (t.columns.getD j []) (row : Int) v) }
                | none => t) t).columns.getD j []).get? r = some (some v)
                ∧ v.ctor = S.compsT.getD j EntityC)) := by
  induction comps with
  | nil =>
      intro t h1 h2 h3 h4 h5 h6
      exact ⟨h1, h2, h3, h4, h5, h6⟩
  | cons v₀ rest ih =>
      intro t h1 h2 h3 h4 h5 h6
      rw [List.foldl_cons]
      have hp₀ := hp v₀ (List.mem_cons_self v₀ rest)
      have hp' : ∀ v ∈ rest, v = Value.ent eid
          ∨ ∃ c x, v = Value.comp c x ∧ c ≠ EntityC :=
        fun v hv => hp v (List.mem_cons_of_mem _ hv)
      cases hidx : t.getColumnIdx v₀.ctor with
      | none =>
          dsimp only
          exact ih hp' t h1 h2 h3 h4 h5 h6
      | some j₀ =>
          dsimp only
          obtain ⟨hmem, hj₀, hj₀lt⟩ := getColumnIdx_some t v₀.ctor j₀ hidx
          rw [h3] at hmem hj₀
          have hne : S.compsT ≠ [] := by
            intro hnil
            rw [hnil] at hmem
            exact List.not_mem_nil _ hmem
          have hrowL := hrow hne
          have hj₀c : j₀ < S.compsT.length := by
            rw [hj₀]
            exact List.indexOf_lt_length.mpr hmem
          have hLj := (h6 j₀ hj₀c).1
          have hwr : jsWrite (t.columns.getD j₀ []) (row : Int) v₀
              = (t.columns.getD j₀ []).set row (some v₀) := by
            unfold jsWrite
            rw [if_neg (by omega : ¬(row : Int) < 0)]
            rw [if_pos (by rw [show (row : Int).toNat = row from by omega, hLj]; exact hrowL)]
            norm_num
          have hcompat : S.compsT.getD j₀ EntityC = v₀.ctor := by
            rw [hj₀]
            rw [List.getD_eq_getElem?_getD,
              List.getElem?_eq_getElem (List.indexOf_lt_length.mpr hmem)]
            simp [List.getElem_indexOf]
          refine ih hp' _ h1 h2 h3 ?_ ?_ ?_
          · rw [List.length_set]
            exact h4
          · by_cases hj00 : j₀ = 0
            · subst hj00
              -- the Entity column: the written value is the cell already there
              have hvE : v₀.ctor = EntityC := by
                rw [← hcompat, hheadE hne]
              have hv₀e : v₀ = Value.ent eid := by
                rcases hp₀ with h | ⟨c, x, hcx, hcne⟩
                · exact h
                · exfalso
                  apply hcne
                  rw [hcx] at hvE
                  exact hvE
              have hmemE : EntityC ∈ S.compsT := by
                rw [← hvE]
                exact hmem
              rw [getD_set_same _ _ _ _ (by omega)]
              rw [hwr, h5, hv₀e]
              exact set_get_self _ _ _ (hcell hmemE)
            · rw [getD_set_diff _ _ _ _ _ hj00]
              exact h5
          · intro j hj
            by_cases hjj : j = j₀
            · subst hjj
              rw [getD_set_same _ _ _ _ (by omega)]
              refine ⟨by rw [hwr, List.length_set]; exact hLj, ?_⟩
              intro r hr
              rw [hwr]
              by_cases hrr : r = row
              · subst hrr
                refine ⟨v₀, ?_, hcompat.symm⟩
                rw [List.get?_eq_getElem?]
                have hLj' : (t.columns[j]?.getD []).length = Table.length S := by
                  rw [← List.getD_eq_getElem?_getD]
                  exact hLj
                simp [List.getElem?_set, hLj', hrowL]
              · obtain ⟨v, hv, hvc⟩ := (h6 j hj).2 r hr
                refine ⟨v, ?_, hvc⟩
                rw [List.get?_eq_getElem?, List.getElem?_set]
                rw [if_neg (fun hc => hrr hc.symm), ← List.get?_eq_getElem?]
                exact hv
            · rw [getD_set_diff _ _ _ _ _ (fun hc => hjj hc.symm)]
              exact h6 j hj

/-- The same-table branch of `move`, as an equation. -/
theorem moveTables_same_eq (tables : List Table) (srcIdx : Nat) (row : Int)
    (comps : List Value) :
    moveTables tables srcIdx srcIdx row comps
      = { tables := tables.set srcIdx (comps.foldl (fun t v =>
            match t.getColumnIdx v.ctor with
            | some j => { t with columns := t.columns.set j (jsWrite (t.columns.getD j []) row v) }
            | none => t) (tables.getD srcIdx default))
          retTableId := (comps.foldl (fun t v =>
            match t.getColumnIdx v.ctor with
            | some j => { t with columns := t.columns.set j (jsWrite (t.columns.getD j []) row v) }
            | none => t) (tables.getD srcIdx default)).tid
          retRow := row
          fixups := [] } := by
  unfold moveTables
  rw [if_pos rfl]

/-- The cross-table branch of `move`, as an equation. -/
theorem moveTables_cross_eq (tables : List Table) (srcIdx tgtIdx : Nat)
    (row : Int) (comps : List Value) (hne : ¬srcIdx = tgtIdx) :
    moveTables tables srcIdx tgtIdx row comps
      = { tables := (tables.set srcIdx { tables.getD srcIdx default with
            columns := ((((tables.getD srcIdx default).compsT.zip
                (tables.getD srcIdx default).columns).foldl
                (moveStep1 (tables.getD tgtIdx default) row)
                ⟨[], [], []⟩).cols
              ++ (tables.getD srcIdx default).columns.drop
                  (tables.getD srcIdx default).compsT.length) }).set tgtIdx
            ((comps.foldl (fun m v =>
                if (tables.getD tgtIdx default).hasColumn v.ctor then
                  mapSetC m v.ctor v else m)
              ((((tables.getD srcIdx default).compsT.zip
                  (tables.getD srcIdx default).columns).foldl
                  (moveStep1 (tables.getD tgtIdx default) row)
                  ⟨[], [], []⟩).final)).foldl
              (fun t kv => t.pushColumn kv.1 kv.2) (tables.getD tgtIdx default))
          retTableId := (tables.getD tgtIdx default).tid
          retRow := ((match (tables.getD tgtIdx default).getColumn EntityC with
            | some col => col.length
            | none => 0 : Nat) : Int)
          fixups := (((tables.getD srcIdx default).compsT.zip
              (tables.getD srcIdx default).columns).foldl
              (moveStep1 (tables.getD tgtIdx default) row)
              ⟨[], [], []⟩).fixups } := by
  unfold moveTables
  rw [if_neg hne]

/-- The same-table overwrite loop is a no-op on a columnless table. -/
theorem foldl_sameMove_nilT (S : Table) (hS : S.compsT = []) (row : Int) :
    ∀ (comps : List Value),
    comps.foldl (fun t v => match t.getColumnIdx v.ctor with
      | some j => { t with columns := t.columns.set j (jsWrite (t.columns.getD j []) row v) }
      | none => t) S = S
  | [] => rfl
  | v :: rest => by
      rw [List.foldl_cons]
      have hidx : S.getColumnIdx v.ctor = none := by
        unfold Table.getColumnIdx
        rw [if_neg]
        rw [hS]
        exact List.not_mem_nil _
      rw [show (match S.getColumnIdx v.ctor with
        | some j => { S with columns := S.columns.set j (jsWrite (S.columns.getD j []) row v) }
        | none => S) = S from by rw [hidx]]
      exact foldl_sameMove_nilT S hS row rest

/-- Pointwise-equal locations and field-equal tables transport the core
invariant. -/
theorem CoreInv_transport (s₁ : WorldState) (h : CoreInv s₁)
    (tables₂ : List Table) (locs₂ : Nat → Loc)
    (hbase : BaseInv { s₁ with tables := tables₂, locs := locs₂ })
    (hlen2 : tables₂.length = s₁.tables.length)
    (hT : ∀ i < s₁.tables.length,
        (tables₂.getD i default).archetype
            = (s₁.tables.getD i default).archetype
        ∧ (tables₂.getD i default).compsT
            = (s₁.tables.getD i default).compsT
        ∧ (tables₂.getD i default).columns.getD 0 []
            = (s₁.tables.getD i default).columns.getD 0 []
        ∧ ∀ j < (s₁.tables.getD i default).compsT.length,
            ((tables₂.getD i default).columns.getD j []).length
                = ((s₁.tables.getD i default).columns.getD j []).length
            ∧ ∀ r < Table.length (s₁.tables.getD i default),
                ∃ v, ((tables₂.getD i default).columns.getD j []).get? r
                    = some (some v)
                  ∧ v.ctor = (s₁.tables.getD i default).compsT.getD j EntityC)
    (hL : ∀ e, locs₂ e = s₁.locs e) :
    CoreInv { s₁ with tables := tables₂, locs := locs₂ } := by
  have hTlen : ∀ i, i < s₁.tables.length →
      Table.length (tables₂.getD i default)
        = Table.length (s₁.tables.getD i default) := by
    intro i hi
    rw [Table.length_eq, Table.length_eq, (hT i hi).2.2.1]
  refine ⟨hbase, ?_, ?_, ?_, ?_, ?_, ?_, ?_, ?_, ?_, ?_, ?_⟩
  · intro i h0 hi
    dsimp only at hi ⊢
    rw [hlen2] at hi
    rw [(hT i hi).1]
    exact h.oddT i h0 hi
  · intro i hi j hj
    dsimp only at hi hj ⊢
    rw [hlen2] at hi
    rw [(hT i hi).2.1] at hj
    rw [hTlen i hi, (hT i hi).2.2.2 j hj |>.1]
    exact h.aligned i hi j hj
  · intro i hi j hj r hr
    dsimp only at hi hj hr ⊢
    rw [hlen2] at hi
    rw [(hT i hi).2.1] at hj
    rw [hTlen i hi] at hr
    obtain ⟨v, hv, hvc⟩ := ((hT i hi).2.2.2 j hj).2 r hr
    refine ⟨v, hv, ?_⟩
    rw [(hT i hi).2.1]
    exact hvc
  · intro i h0 hi r hr
    dsimp only at hi hr ⊢
    rw [hlen2] at hi
    rw [hTlen i hi] at hr
    obtain ⟨e, he, hle⟩ := h.entCol i h0 hi r hr
    refine ⟨e, ?_, ?_⟩
    · rw [(hT i hi).2.2.1]
      exact he
    · rw [hL e]
      exact hle
  · intro e he
    dsimp only at he ⊢
    rw [hL e] at he ⊢
    have hlt := h.base.locsLt e
    obtain ⟨hr, hc⟩ := h.locA e he
    refine ⟨?_, ?_⟩
    · rw [hTlen _ hlt]
      exact hr
    · rw [(hT _ hlt).2.2.1]
      exact hc
  · intro e he
    dsimp only at he ⊢
    rw [hL e] at he ⊢
    exact h.deadZero e he
  · exact h.pendTyped
  · intro e he
    dsimp only at he ⊢
    obtain ⟨h1, h2, h3⟩ := h.locsFresh e he
    exact ⟨by rw [hL e]; exact h1, h2, h3⟩
  · exact h.destsLt
  · exact h.destsOdd
  · intro e d hmem hd
    dsimp only at hmem ⊢
    obtain ⟨h1, h2⟩ := h.cover e d hmem hd
    have hlt := h.base.locsLt e
    refine ⟨?_, ?_⟩
    · rw [hL e]
      exact h1
    · intro j c hj hb hs hcE
      rw [hL e, (hT _ hlt).1]
      exact h2 j c hj hb hs hcE

/-- The staged payload of any entity is well-typed. -/
theorem pending_payload_typed (s₁ : WorldState) (h : CoreInv s₁) (eid : Nat) :
    ∀ v ∈ (lookupMap s₁.pending eid).getD [],
      v = Value.ent eid ∨ ∃ c x, v = Value.comp c x ∧ c ≠ EntityC := by
  cases hlp : lookupMap s₁.pending eid with
  | none =>
      intro v hv
      exact absurd hv (List.not_mem_nil v)
  | some vs =>
      intro v hv
      exact h.pendTyped (eid, vs) (lookupMap_mem _ _ _ hlp) v hv

/-- `flushStep`'s location/column consistency when the staged destination is
the entity's current table: the move is the overwrite branch and nothing
observable changes. -/
theorem CoreInv_moveStep_same (s₁ : WorldState) (h : CoreInv s₁)
    (eid tgtIdx : Nat)
    (hst : (s₁.locs eid).tableId = tgtIdx)
    (hbase : BaseInv { s₁ with
      tables := (moveTables s₁.tables (s₁.locs eid).tableId tgtIdx
        ((s₁.locs eid).tableRow : Int)
        ((lookupMap s₁.pending eid).getD [])).tables,
      locs := fun e => if e = eid then
          ⟨(moveTables s₁.tables (s₁.locs eid).tableId tgtIdx
              ((s₁.locs eid).tableRow : Int)
              ((lookupMap s₁.pending eid).getD [])).retTableId,
            (moveTables s₁.tables (s₁.locs eid).tableId tgtIdx
              ((s₁.locs eid).tableRow : Int)
              ((lookupMap s₁.pending eid).getD [])).retRow.toNat⟩
        else applyFixups s₁.locs (moveTables s₁.tables (s₁.locs eid).tableId
          tgtIdx ((s₁.locs eid).tableRow : Int)
          ((lookupMap s₁.pending eid).getD [])).fixups e }) :
    CoreInv { s₁ with
      tables := (moveTables s₁.tables (s₁.locs eid).tableId tgtIdx
        ((s₁.locs eid).tableRow : Int)
        ((lookupMap s₁.pending eid).getD [])).tables,
      locs := fun e => if e = eid then
          ⟨(moveTables s₁.tables (s₁.locs eid).tableId tgtIdx
              ((s₁.locs eid).tableRow : Int)
              ((lookupMap s₁.pending eid).getD [])).retTableId,
            (moveTables s₁.tables (s₁.locs eid).tableId tgtIdx
              ((s₁.locs eid).tableRow : Int)
              ((lookupMap s₁.pending eid).getD [])).retRow.toNat⟩
        else applyFixups s₁.locs (moveTables s₁.tables (s₁.locs eid).tableId
          tgtIdx ((s₁.locs eid).tableRow : Int)
          ((lookupMap s₁.pending eid).getD [])).fixups e } := by
  rw [← hst] at hbase ⊢
  rw [moveTables_same_eq] at hbase ⊢
  dsimp only at hbase ⊢
  have hp := pending_payload_typed s₁ h eid
  have hsrclt : (s₁.locs eid).tableId < s₁.tables.length := h.base.locsLt eid
  by_cases hs0 : (s₁.locs eid).tableId = 0
  · -- overwriting in the sentinel is a no-op and the location is `{0,0}`
    have hSC : s₁.tables.getD (s₁.locs eid).tableId default = createTable := by
      rw [hs0]
      exact BaseInv_sentinel_getD s₁ h.base
    have hF : ((lookupMap s₁.pending eid).getD []).foldl (fun t v =>
        match t.getColumnIdx v.ctor with
        | some j => { t with columns := t.columns.set j (jsWrite (t.columns.getD j []) ((s₁.locs eid).tableRow : Int) v) }
        | none => t) (s₁.tables.getD (s₁.locs eid).tableId default)
        = createTable := by
      rw [hSC]
      exact foldl_sameMove_nilT createTable rfl _ _
    have htab : s₁.tables.set (s₁.locs eid).tableId (((lookupMap s₁.pending
        eid).getD []).foldl (fun t v =>
        match t.getColumnIdx v.ctor with
        | some j => { t with columns := t.columns.set j (jsWrite (t.columns.getD j []) ((s₁.locs eid).tableRow : Int) v) }
        | none => t) (s₁.tables.getD (s₁.locs eid).tableId default))
        = s₁.tables := by
      rw [hF, hs0]
      exact set_get_self _ _ _ h.base.sentinel
    have hself : s₁.locs eid = ⟨0, 0⟩ := by
      have he : s₁.locs eid = ⟨(s₁.locs eid).tableId, (s₁.locs eid).tableRow⟩ := rfl
      rw [he, hs0, h.deadZero eid hs0]
    have hL : ∀ e, (fun e => if e = eid then
        (⟨(((lookupMap s₁.pending eid).getD []).foldl (fun t v =>
          match t.getColumnIdx v.ctor with
          | some j => { t with columns := t.columns.set j (jsWrite (t.columns.getD j []) ((s₁.locs eid).tableRow : Int) v) }
          | none => t) (s₁.tables.getD (s₁.locs eid).tableId default)).tid,
          (((s₁.locs eid).tableRow : Int)).toNat⟩ : Loc)
        else applyFixups s₁.locs [] e) e = s₁.locs e := by
      intro e
      dsimp only
      by_cases he : e = eid
      · subst he
        rw [if_pos rfl, hF, hself]
        rw [Loc.mk.injEq]
        refine ⟨rfl, ?_⟩
        decide
      · rw [if_neg he]
        rfl
    rw [htab] at hbase ⊢
    exact CoreInv_transport s₁ h s₁.tables _ hbase rfl
      (fun i hi => ⟨rfl, rfl, rfl, fun j hj =>
        ⟨rfl, fun r hr => h.typed i hi j hj r hr⟩⟩) hL
  · -- overwriting a live row changes no observable column content
    have h0lt : 0 < (s₁.locs eid).tableId := by omega
    have hSodd := h.oddT _ h0lt hsrclt
    obtain ⟨cs, hcs⟩ := compsT_head_of_odd s₁ h.base _ hsrclt hSodd
    have hheadE : (s₁.tables.getD (s₁.locs eid).tableId default).compsT ≠ [] →
        (s₁.tables.getD (s₁.locs eid).tableId default).compsT.getD 0 EntityC
          = EntityC := by
      intro hne
      rw [hcs]
      rfl
    obtain ⟨hrowlt, hcellE⟩ := h.locA eid hs0
    have hrow : (s₁.tables.getD (s₁.locs eid).tableId default).compsT ≠ [] →
        (s₁.locs eid).tableRow
          < Table.length (s₁.tables.getD (s₁.locs eid).tableId default) :=
      fun _ => hrowlt
    have hcell : EntityC ∈ (s₁.tables.getD (s₁.locs eid).tableId
        default).compsT →
        ((s₁.tables.getD (s₁.locs eid).tableId default).columns.getD 0
          []).get? (s₁.locs eid).tableRow
          = some (some (Value.ent eid)) :=
      fun _ => hcellE
    obtain ⟨f1, f2, f3, f4, f5, f6⟩ := foldl_sameMove_char
      (s₁.tables.getD (s₁.locs eid).tableId default) eid
      (s₁.locs eid).tableRow ((lookupMap s₁.pending eid).getD [])
      hp hheadE hrow hcell
      (s₁.tables.getD (s₁.locs eid).tableId default) rfl rfl rfl rfl rfl
      (fun j hj => ⟨h.aligned _ hsrclt j hj, fun r hr =>
        h.typed _ hsrclt j hj r hr⟩)
    have hL : ∀ e, (fun e => if e = eid then
        (⟨(((lookupMap s₁.pending eid).getD []).foldl (fun t v =>
          match t.getColumnIdx v.ctor with
          | some j => { t with columns := t.columns.set j (jsWrite (t.columns.getD j []) ((s₁.locs eid).tableRow : Int) v) }
          | none => t) (s₁.tables.getD (s₁.locs eid).tableId default)).tid,
          (((s₁.locs eid).tableRow : Int)).toNat⟩ : Loc)
        else applyFixups s₁.locs [] e) e = s₁.locs e := by
      intro e
      dsimp only
      by_cases he : e = eid
      · subst he
        rw [if_pos rfl, f1, h.base.ids _ hsrclt]
        have he2 : s₁.locs e = ⟨(s₁.locs e).tableId, (s₁.locs e).tableRow⟩ := rfl
        rw [he2, Loc.mk.injEq]
        exact ⟨rfl, by simp⟩
      · rw [if_neg he]
        rfl
    refine CoreInv_transport s₁ h _ _ hbase (by rw [List.length_set]) ?_ hL
    intro i hi
    by_cases hii : i = (s₁.locs eid).tableId
    · subst hii
      rw [getD_set_same _ _ _ _ hi]
      refine ⟨f2, f3, f5, ?_⟩
      intro j hj
      refine ⟨?_, fun r hr => (f6 j hj).2 r hr⟩
      rw [(f6 j hj).1, h.aligned _ hi j hj]
    · rw [getD_set_diff _ _ _ _ _ (fun hc => hii hc.symm)]
      exact ⟨rfl, rfl, rfl, fun j hj => ⟨rfl, fun r hr => h.typed i hi j hj r hr⟩⟩

/-- Members of the component/column zip are indexed pairs. -/
theorem mem_zip_facts (S : Table) (p : Cls × List (Option Value))
    (hp : p ∈ S.compsT.zip S.columns) :
    ∃ k, k < S.compsT.length ∧ p.1 = S.compsT.getD k EntityC
      ∧ p.2 = S.columns.getD k [] := by
  rcases List.get_of_mem hp with ⟨⟨k, hk⟩, hget⟩
  rw [List.get_zip] at hget
  rw [List.length_zip] at hk
  refine ⟨k, by omega, ?_, ?_⟩
  · rw [← hget]
    rw [List.getD_eq_getElem?_getD, List.getElem?_eq_getElem (by omega)]
    rfl
  · rw [← hget]
    rw [List.getD_eq_getElem?_getD, List.getElem?_eq_getElem (by omega)]
    rfl

/-- A key present in a pair list is found by `find?`. -/
theorem find?_key_mem : ∀ (l : List (Cls × Value)) (k : Cls),
    k ∈ l.map Prod.fst →
    ∃ q, l.find? (fun q => q.1 = k) = some q ∧ q.1 = k ∧ q ∈ l
  | [], k, hk => absurd hk (List.not_mem_nil k)
  | q₀ :: rest, k, hk => by
      by_cases hq : q₀.1 = k
      · refine ⟨q₀, ?_, hq, List.mem_cons_self q₀ rest⟩
        rw [List.find?_cons_of_pos _ (by simp [hq])]
      · rw [List.map_cons, List.mem_cons] at hk
        rcases hk with hk | hk
        · exact absurd hk.symm hq
        · obtain ⟨q, hq1, hq2, hq3⟩ := find?_key_mem rest k hk
          refine ⟨q, ?_, hq2, List.mem_cons_of_mem _ hq3⟩
          rw [List.find?_cons]
          rw [show (decide (q₀.1 = k)) = false from by
            simp only [decide_eq_false_iff_not]; exact hq]
          exact hq1

/-- On a table listing `Entity` first, `getColumn(Entity)` is the leading
column. -/
theorem getColumn_entity_head (T : Table) (cs : List Cls)
    (hhead : T.compsT = EntityC :: cs)
    (hlen : T.compsT.length ≤ T.columns.length) :
    T.getColumn EntityC = some (T.columns.getD 0 []) := by
  have hmem : EntityC ∈ T.compsT := by
    rw [hhead]
    exact List.mem_cons_self _ _
  obtain ⟨hidx, hlt, hat⟩ := getColumnIdx_of_mem T EntityC hmem hlen
  have hix0 : T.compsT.indexOf EntityC = 0 := by
    rw [hhead]
    simp [List.indexOf_cons]
  unfold Table.getColumn
  rw [hidx, hix0]
  have h0 : 0 < T.columns.length := by
    rw [hhead] at hlen
    simp only [List.length_cons] at hlen
    omega
  rw [Option.some_bind, List.get?_eq_getElem?,
    List.getElem?_eq_getElem h0, List.getD_eq_getElem?_getD,
    List.getElem?_eq_getElem h0]
  rfl

/-- On a columnless table, `getColumn(Entity)` is `undefined`. -/
theorem getColumn_entity_nil (T : Table) (hnil : T.compsT = []) :
    T.getColumn EntityC = none := by
  unfold Table.getColumn Table.getColumnIdx
  rw [if_neg]
  · rfl
  · rw [hnil]
    exact List.not_mem_nil _

/-- A single back-fill fix-up as a function update. -/
theorem applyFixups_one (locs : Nat → Loc) (e r : Nat) :
    applyFixups locs [(e, r)]
      = fun x => if x = e then ⟨(locs e).tableId, r⟩ else locs x := rfl

/-- No fix-ups, no change. -/
theorem applyFixups_nil (locs : Nat → Loc) : applyFixups locs [] = locs := rfl

/-- The table an entity's current location points at. -/
def srcOf (s : WorldState) (eid : Nat) : Table :=
  s.tables.getD (s.locs eid).tableId default

/-- The accumulator produced by the first `move` loop over the source
table's sized columns. -/
def stage1 (s : WorldState) (eid : Nat) (T : Table) : MoveAcc :=
  ((srcOf s eid).compsT.zip (srcOf s eid).columns).foldl
    (moveStep1 T ((s.locs eid).tableRow : Int)) ⟨[], [], []⟩

/-- The first `move` loop from a live source table: columns are swap-removed
in order, the staged map is duplicate-free, class-correct and holds the moved
entity under `Entity`, it covers every source class the target supports, and
the fix-up list is empty (last row moved) or the single back-fill of the old
last row's entity. -/
theorem stage1_final_char (s₁ : WorldState) (h : CoreInv s₁) (eid : Nat)
    (T : Table) (hs0 : (s₁.locs eid).tableId ≠ 0) :
    (stage1 s₁ eid T).cols
      = ((srcOf s₁ eid).compsT.zip (srcOf s₁ eid).columns).map
          (fun p => (swapRemove p.2 ((s₁.locs eid).tableRow : Int)).2)
    ∧ (((stage1 s₁ eid T).final.map Prod.fst).Nodup)
    ∧ (∀ q ∈ (stage1 s₁ eid T).final,
        q.2.ctor = q.1 ∧ q.1 ∈ T.compsT
          ∧ (q.1 = EntityC → q.2 = Value.ent eid))
    ∧ (∀ c ∈ (srcOf s₁ eid).compsT, T.hasColumn c = true →
        c ∈ (stage1 s₁ eid T).final.map Prod.fst)
    ∧ (((stage1 s₁ eid T).fixups = []
        ∧ (s₁.locs eid).tableRow + 1 = Table.length (srcOf s₁ eid))
      ∨ (∃ eb, (stage1 s₁ eid T).fixups = [(eb, (s₁.locs eid).tableRow)]
          ∧ (s₁.locs eid).tableRow + 1 < Table.length (srcOf s₁ eid)
          ∧ s₁.locs eb
              = ⟨(s₁.locs eid).tableId, Table.length (srcOf s₁ eid) - 1⟩
          ∧ ((srcOf s₁ eid).columns.getD 0 []).get?
              (Table.length (srcOf s₁ eid) - 1)
            = some (some (Value.ent eb)))) := by
  have hsrclt : (s₁.locs eid).tableId < s₁.tables.length := h.base.locsLt eid
  have h0lt : 0 < (s₁.locs eid).tableId := by omega
  have hSodd := h.oddT _ h0lt hsrclt
  obtain ⟨cs, hcs⟩ := compsT_head_of_odd s₁ h.base _ hsrclt hSodd
  have hle := (h.base.shape _ hsrclt).compsT_le
  have hnodupT := compsT_nodup s₁ h.base _ hsrclt
  have hle2 : (srcOf s₁ eid).compsT.length ≤ (srcOf s₁ eid).columns.length :=
    hle
  obtain ⟨hrowlt0, hcellE⟩ := h.locA eid hs0
  have hrowlt : (s₁.locs eid).tableRow < Table.length (srcOf s₁ eid) :=
    hrowlt0
  have hpslen : ∀ p ∈ (srcOf s₁ eid).compsT.zip (srcOf s₁ eid).columns,
      p.2.length = Table.length (srcOf s₁ eid) := by
    intro p hp
    obtain ⟨k, hk, h1, h2⟩ := mem_zip_facts _ p hp
    rw [h2]
    exact h.aligned _ hsrclt k hk
  have hpstyped : ∀ p ∈ (srcOf s₁ eid).compsT.zip (srcOf s₁ eid).columns,
      ∀ r < Table.length (srcOf s₁ eid),
      ∃ v, p.2.get? r = some (some v) ∧ v.ctor = p.1 := by
    intro p hp r hr
    obtain ⟨k, hk, h1, h2⟩ := mem_zip_facts _ p hp
    rw [h2, h1]
    exact h.typed _ hsrclt k hk r hr
  have hkey0 : ∀ k, k < (srcOf s₁ eid).compsT.length →
      (srcOf s₁ eid).compsT.getD k EntityC = EntityC → k = 0 := by
    intro k hk hkE
    by_contra hk0
    have h0mem : (srcOf s₁ eid).compsT.getD 0 EntityC = EntityC := by
      show ((s₁.tables.getD (s₁.locs eid).tableId default).compsT).getD 0
        EntityC = EntityC
      rw [hcs]
      rfl
    have hlen0 : 0 < (srcOf s₁ eid).compsT.length := by
      show 0 < (s₁.tables.getD (s₁.locs eid).tableId default).compsT.length
      rw [hcs]
      simp
    apply hk0
    have he : (srcOf s₁ eid).compsT[k] = (srcOf s₁ eid).compsT[0] := by
      rw [List.getD_eq_getElem?_getD, List.getElem?_eq_getElem hk] at hkE
      rw [List.getD_eq_getElem?_getD, List.getElem?_eq_getElem hlen0] at h0mem
      simp only [Option.getD_some] at hkE h0mem
      rw [hkE, h0mem]
    exact (List.Nodup.getElem_inj_iff hnodupT).mp he
  have hpsent : ∀ p ∈ (srcOf s₁ eid).compsT.zip (srcOf s₁ eid).columns,
      p.1 = EntityC → ∀ r < Table.length (srcOf s₁ eid),
      ∃ e, p.2.get? r = some (some (Value.ent e)) := by
    intro p hp hpE r hr
    obtain ⟨k, hk, h1, h2⟩ := mem_zip_facts _ p hp
    have hk0 : k = 0 := hkey0 k hk (by rw [← h1]; exact hpE)
    subst hk0
    rw [h2]
    obtain ⟨e, he, hle'⟩ := h.entCol _ h0lt hsrclt r hr
    exact ⟨e, he⟩
  have hmapfst : ((srcOf s₁ eid).compsT.zip (srcOf s₁ eid).columns).map
      Prod.fst = (srcOf s₁ eid).compsT :=
    List.map_fst_zip _ _ hle
  have hnd : (((⟨[], [], []⟩ : MoveAcc).final.map Prod.fst)
      ++ ((srcOf s₁ eid).compsT.zip (srcOf s₁ eid).columns).map
          Prod.fst).Nodup := by
    rw [hmapfst]
    exact hnodupT
  obtain ⟨g1, g2, g3⟩ := foldl_moveStep1_char T (s₁.locs eid).tableRow
    (Table.length (srcOf s₁ eid)) hrowlt _ _ hpslen hpstyped hpsent hnd
  have hcellval : ∀ p ∈ (srcOf s₁ eid).compsT.zip (srcOf s₁ eid).columns,
      ∃ v, (p.2.get? (s₁.locs eid).tableRow).join = some v ∧ v.ctor = p.1
        ∧ (p.1 = EntityC → v = Value.ent eid) := by
    intro p hp
    obtain ⟨v, hv, hvc⟩ := hpstyped p hp _ hrowlt
    refine ⟨v, by rw [hv]; rfl, hvc, ?_⟩
    intro hpE
    obtain ⟨k, hk, h1, h2⟩ := mem_zip_facts _ p hp
    have hk0 : k = 0 := hkey0 k hk (by rw [← h1]; exact hpE)
    subst hk0
    rw [h2] at hv
    have hcellE' : ((srcOf s₁ eid).columns.getD 0 []).get?
        (s₁.locs eid).tableRow = some (some (Value.ent eid)) := hcellE
    rw [hcellE'] at hv
    exact (Option.some_inj.mp (Option.some_inj.mp hv)).symm
  have hstg : stage1 s₁ eid T = ((srcOf s₁ eid).compsT.zip
      (srcOf s₁ eid).columns).foldl
      (moveStep1 T ((s₁.locs eid).tableRow : Int)) ⟨[], [], []⟩ := rfl
  refine ⟨by rw [hstg, g1]; dsimp only; rw [List.nil_append], ?_, ?_, ?_, ?_⟩
  · rw [hstg, g2]
    dsimp only
    rw [List.nil_append, List.map_map]
    have hmc : (((srcOf s₁ eid).compsT.zip (srcOf s₁ eid).columns).filter
        (fun p => T.hasColumn p.1)).map (Prod.fst ∘ (fun p =>
          (p.1, ((p.2.get? (s₁.locs eid).tableRow).join).getD (Value.ent 0))))
        = (((srcOf s₁ eid).compsT.zip (srcOf s₁ eid).columns).filter
        (fun p => T.hasColumn p.1)).map Prod.fst := by
      refine List.map_congr_left ?_
      intro p hp
      rfl
    rw [hmc]
    refine List.Nodup.sublist ?_ hnodupT
    have hsub := List.Sublist.map Prod.fst (List.filter_sublist
      (l := (srcOf s₁ eid).compsT.zip (srcOf s₁ eid).columns)
      (p := fun p => T.hasColumn p.1))
    rw [hmapfst] at hsub
    exact hsub
  · rw [hstg, g2]
    dsimp only
    rw [List.nil_append]
    intro q hq
    rcases List.mem_map.mp hq with ⟨p, hpf, hpq⟩
    have hpm := List.mem_of_mem_filter hpf
    have hhc : T.hasColumn p.1 = true := by
      have := List.of_mem_filter hpf
      simpa using this
    obtain ⟨v, hv, hvc, hvE⟩ := hcellval p hpm
    rw [← hpq]
    dsimp only
    rw [hv]
    refine ⟨hvc, List.elem_iff.mp hhc, ?_⟩
    intro hpE
    rw [Option.getD_some]
    exact hvE hpE
  · rw [hstg, g2]
    dsimp only
    rw [List.nil_append]
    intro c hc hhc
    obtain ⟨k, hk⟩ := List.mem_iff_get.mp hc
    have hk2 : (k : Nat) < (srcOf s₁ eid).compsT.length := k.isLt
    have hzlen : k < ((srcOf s₁ eid).compsT.zip
        (srcOf s₁ eid).columns).length := by
      rw [List.length_zip]
      omega
    have hzmem : ((srcOf s₁ eid).compsT.get k,
        (srcOf s₁ eid).columns.get ⟨k, by omega⟩)
        ∈ (srcOf s₁ eid).compsT.zip (srcOf s₁ eid).columns := by
      refine List.mem_iff_get.mpr ⟨⟨k, hzlen⟩, ?_⟩
      rw [List.get_zip]
    rw [hk] at hzmem
    refine List.mem_map.mpr ⟨(c, ((((srcOf s₁ eid).columns.get
      ⟨k.1, by omega⟩).get? (s₁.locs eid).tableRow).join).getD
        (Value.ent 0)), ?_, rfl⟩
    refine List.mem_map.mpr
      ⟨(c, (srcOf s₁ eid).columns.get ⟨k.1, by omega⟩), ?_, rfl⟩
    refine List.mem_filter.mpr ⟨hzmem, by simpa using hhc⟩
  · rw [hstg, g3]
    dsimp only
    rw [List.nil_append]
    by_cases hL : (s₁.locs eid).tableRow + 1 = Table.length (srcOf s₁ eid)
    · left
      rw [if_pos hL]
      exact ⟨rfl, hL⟩
    · right
      have hlast : Table.length (srcOf s₁ eid) - 1
          < Table.length (srcOf s₁ eid) := by omega
      obtain ⟨eb, hebcell0, hebloc⟩ := h.entCol _ h0lt hsrclt _ hlast
      have hebcell : ((srcOf s₁ eid).columns.getD 0 []).get?
          (Table.length (srcOf s₁ eid) - 1) = some (some (Value.ent eb)) :=
        hebcell0
      refine ⟨eb, ?_, by omega, hebloc, hebcell⟩
      rw [if_neg hL]
      have hlen0 : 0 < (srcOf s₁ eid).compsT.length := by
        show 0 < (s₁.tables.getD (s₁.locs eid).tableId default).compsT.length
        rw [hcs]
        simp
      have hclen0 : 0 < (srcOf s₁ eid).columns.length := by omega
      have hcs' : (srcOf s₁ eid).compsT = EntityC :: cs := hcs
      cases hcols : (srcOf s₁ eid).columns with
      | nil =>
          rw [hcols] at hclen0
          simp at hclen0
      | cons γ₀ γr =>
          rw [hcs', List.zip_cons_cons,
            List.filter_cons_of_pos (by simp)]
          have hrest : (cs.zip γr).filter (fun p => p.1 == EntityC) = [] := by
            rw [List.filter_eq_nil]
            intro p hp
            have hmem := (List.of_mem_zip hp).1
            simp only [beq_iff_eq]
            intro hpE
            rw [hcs] at hnodupT
            rw [List.nodup_cons] at hnodupT
            exact hnodupT.1 (hpE ▸ hmem)
          rw [hrest, List.map_cons, List.map_nil]
          have hγ₀ : γ₀ = (srcOf s₁ eid).columns.getD 0 [] := by
            rw [hcols]
            rfl
          rw [hγ₀]
          dsimp only
          rw [hebcell]
          rfl

/-- `finalComponents` after overwriting/extending with the moved entity's
pending payload. -/
def crossFinal (s : WorldState) (eid tgtIdx : Nat) : List (Cls × Value) :=
  ((lookupMap s.pending eid).getD []).foldl (fun m v =>
    if (s.tables.getD tgtIdx default).hasColumn v.ctor then mapSetC m v.ctor v
    else m) (stage1 s eid (s.tables.getD tgtIdx default)).final

/-- The target table after the push loop of a cross-table move. -/
def crossTgt (s : WorldState) (eid tgtIdx : Nat) : Table :=
  (crossFinal s eid tgtIdx).foldl (fun t kv => t.pushColumn kv.1 kv.2)
    (s.tables.getD tgtIdx default)

/-- The source table after the swap-remove loop of a cross-table move. -/
def crossSrc (s : WorldState) (eid tgtIdx : Nat) : Table :=
  { srcOf s eid with columns :=
      (stage1 s eid (s.tables.getD tgtIdx default)).cols
        ++ (srcOf s eid).columns.drop (srcOf s eid).compsT.length }

/-- The cross-table branch of `move`, phrased with the named pieces. -/
theorem moveTables_cross_eq2 (s : WorldState) (eid tgtIdx : Nat)
    (hne : ¬(s.locs eid).tableId = tgtIdx) :
    moveTables s.tables (s.locs eid).tableId tgtIdx
      ((s.locs eid).tableRow : Int) ((lookupMap s.pending eid).getD [])
    = { tables := (s.tables.set (s.locs eid).tableId
          (crossSrc s eid tgtIdx)).set tgtIdx (crossTgt s eid tgtIdx)
        retTableId := (s.tables.getD tgtIdx default).tid
        retRow := ((match (s.tables.getD tgtIdx default).getColumn EntityC with
          | some col => col.length
          | none => 0 : Nat) : Int)
        fixups := (stage1 s eid (s.tables.getD tgtIdx default)).fixups } := by
  rw [moveTables_cross_eq _ _ _ _ _ hne]
  rfl

/-- The overwrite fold of `move` never touches the map when the target has no
columns at all. -/
theorem foldl_mapSetC_nilT (T : Table) (hT : T.compsT = []) :
    ∀ (vs : List Value) (m : List (Cls × Value)),
    vs.foldl (fun m v =>
      if T.hasColumn v.ctor then mapSetC m v.ctor v else m) m = m
  | [], _ => rfl
  | v :: rest, m => by
      rw [List.foldl_cons]
      have hc : T.hasColumn v.ctor = false := by
        show T.compsT.contains v.ctor = false
        rw [hT]
        rfl
      rw [show (if T.hasColumn v.ctor then mapSetC m v.ctor v else m) = m from
        by rw [hc]; rfl]
      exact foldl_mapSetC_nilT T hT rest m

/-- A listed component type has a column. -/
theorem hasColumn_of_mem (t : Table) (c : Cls) (hc : c ∈ t.compsT) :
    t.hasColumn c = true := by
  show t.compsT.elem c = true
  exact List.elem_iff.mpr hc

/-- A `getD` at an in-range index is a member. -/
theorem getD_mem_cls (l : List Cls) (j : Nat) (hj : j < l.length) :
    l.getD j EntityC ∈ l := by
  rw [List.getD_eq_getElem?_getD, List.getElem?_eq_getElem hj,
    Option.getD_some]
  exact List.getElem_mem hj

/-- The rewritten source table of a cross-table move from a live table: its
identity fields are unchanged, every sized column is the swap-remove of the
old one (one shorter, with the old last cell at the vacated row), and its
length drops by one. -/
theorem crossSrc_char (s₁ : WorldState) (h : CoreInv s₁) (eid tgtIdx : Nat)
    (hs0 : (s₁.locs eid).tableId ≠ 0) :
    (crossSrc s₁ eid tgtIdx).tid = (srcOf s₁ eid).tid
    ∧ (crossSrc s₁ eid tgtIdx).archetype = (srcOf s₁ eid).archetype
    ∧ (crossSrc s₁ eid tgtIdx).compsT = (srcOf s₁ eid).compsT
    ∧ (∀ j, j < (srcOf s₁ eid).compsT.length →
        ((crossSrc s₁ eid tgtIdx).columns.getD j []).length
            = Table.length (srcOf s₁ eid) - 1
        ∧ ∀ r, r < Table.length (srcOf s₁ eid) - 1 →
            ((crossSrc s₁ eid tgtIdx).columns.getD j []).get? r
              = if r = (s₁.locs eid).tableRow
                then ((srcOf s₁ eid).columns.getD j []).get?
                  (Table.length (srcOf s₁ eid) - 1)
                else ((srcOf s₁ eid).columns.getD j []).get? r)
    ∧ Table.length (crossSrc s₁ eid tgtIdx)
        = Table.length (srcOf s₁ eid) - 1 := by
  have hsrclt : (s₁.locs eid).tableId < s₁.tables.length := h.base.locsLt eid
  have h0lt : 0 < (s₁.locs eid).tableId := by omega
  have hSodd := h.oddT _ h0lt hsrclt
  obtain ⟨cs, hcs⟩ := compsT_head_of_odd s₁ h.base _ hsrclt hSodd
  have hcs' : (srcOf s₁ eid).compsT = EntityC :: cs := hcs
  have hle : (srcOf s₁ eid).compsT.length ≤ (srcOf s₁ eid).columns.length :=
    (h.base.shape _ hsrclt).compsT_le
  obtain ⟨hrowlt0, hcellE⟩ := h.locA eid hs0
  have hrowlt : (s₁.locs eid).tableRow < Table.length (srcOf s₁ eid) :=
    hrowlt0
  obtain ⟨c1, _, _, _, _⟩ := stage1_final_char s₁ h eid
    (s₁.tables.getD tgtIdx default) hs0
  have hcolj : ∀ j, j < (srcOf s₁ eid).compsT.length →
      (crossSrc s₁ eid tgtIdx).columns.getD j []
        = (swapRemove ((srcOf s₁ eid).columns.getD j [])
            ((s₁.locs eid).tableRow : Int)).2 := by
    intro j hj
    show ((stage1 s₁ eid (s₁.tables.getD tgtIdx default)).cols
        ++ (srcOf s₁ eid).columns.drop (srcOf s₁ eid).compsT.length).getD j []
      = _
    rw [c1]
    have hjz : j < ((srcOf s₁ eid).compsT.zip
        (srcOf s₁ eid).columns).length := by
      rw [List.length_zip]
      omega
    have hz : ((srcOf s₁ eid).compsT.zip (srcOf s₁ eid).columns).get? j
        = some ((srcOf s₁ eid).compsT.getD j EntityC,
            (srcOf s₁ eid).columns.getD j []) := by
      have hb1 : j < (srcOf s₁ eid).compsT.length := by omega
      have hb2 : j < (srcOf s₁ eid).columns.length := by omega
      rw [List.get?_eq_getElem?, List.getElem?_eq_getElem hjz,
        List.getElem_zip]
      rw [List.getD_eq_getElem?_getD,
        List.getElem?_eq_getElem hb1,
        List.getD_eq_getElem?_getD,
        List.getElem?_eq_getElem hb2]
      rfl
    have hjm : j < (((srcOf s₁ eid).compsT.zip (srcOf s₁ eid).columns).map
        (fun p => (swapRemove p.2 ((s₁.locs eid).tableRow : Int)).2)).length := by
      rw [List.length_map]
      exact hjz
    rw [List.getD_eq_getElem?_getD, List.getElem?_append_left hjm,
      ← List.get?_eq_getElem?, List.get?_map, hz]
    rfl
  have hswap : ∀ j, j < (srcOf s₁ eid).compsT.length →
      ((crossSrc s₁ eid tgtIdx).columns.getD j []).length
          = Table.length (srcOf s₁ eid) - 1
      ∧ ∀ r, r < Table.length (srcOf s₁ eid) - 1 →
          ((crossSrc s₁ eid tgtIdx).columns.getD j []).get? r
            = if r = (s₁.locs eid).tableRow
              then ((srcOf s₁ eid).columns.getD j []).get?
                (Table.length (srcOf s₁ eid) - 1)
              else ((srcOf s₁ eid).columns.getD j []).get? r := by
    intro j hj
    rw [hcolj j hj]
    have hlenj : ((srcOf s₁ eid).columns.getD j []).length
        = Table.length (srcOf s₁ eid) := h.aligned _ hsrclt j hj
    have hlastt : (((srcOf s₁ eid).columns.getD j []).get?
        (((srcOf s₁ eid).columns.getD j []).length - 1)).join.isSome := by
      rw [hlenj]
      obtain ⟨v, hv, hvc⟩ := h.typed _ hsrclt j hj
        (Table.length (srcOf s₁ eid) - 1)
        (show Table.length (srcOf s₁ eid) - 1 < Table.length (srcOf s₁ eid)
          from by omega)
      have hv' : ((srcOf s₁ eid).columns.getD j []).get?
          (Table.length (srcOf s₁ eid) - 1) = some (some v) := hv
      rw [hv']
      rfl
    obtain ⟨w1, w2⟩ := swapRemove_snd ((srcOf s₁ eid).columns.getD j [])
      (s₁.locs eid).tableRow (by rw [hlenj]; exact hrowlt) hlastt
    refine ⟨by rw [w1, hlenj], ?_⟩
    intro r hr
    rw [w2 r (by rw [hlenj]; omega), hlenj]
  refine ⟨rfl, rfl, rfl, hswap, ?_⟩
  have h0 : 0 < (srcOf s₁ eid).compsT.length := by
    rw [hcs']
    simp
  rw [Table.length_eq]
  exact (hswap 0 h0).1

/-- The grown target table of a cross-table move toward a non-zero staged
archetype: its identity fields are unchanged, every column gains exactly one
class-correct cell (the `Entity` column gains the moved entity itself), and
its length grows by one.  The staged-destination coverage invariant
guarantees a staged value for every target class. -/
theorem crossTgt_char (s₁ : WorldState) (h : CoreInv s₁) (eid tgtIdx d : Nat)
    (hmem : (eid, d) ∈ s₁.dests)
    (htgt : tgtIdx < s₁.tables.length)
    (harch : (s₁.tables.getD tgtIdx default).archetype = d)
    (hd0 : d ≠ 0) :
    (crossTgt s₁ eid tgtIdx).tid = (s₁.tables.getD tgtIdx default).tid
    ∧ (crossTgt s₁ eid tgtIdx).archetype
        = (s₁.tables.getD tgtIdx default).archetype
    ∧ (crossTgt s₁ eid tgtIdx).compsT = (s₁.tables.getD tgtIdx default).compsT
    ∧ (∀ j, j < (s₁.tables.getD tgtIdx default).compsT.length →
        ∃ v : Value, (crossTgt s₁ eid tgtIdx).columns.getD j []
            = (s₁.tables.getD tgtIdx default).columns.getD j [] ++ [some v]
          ∧ v.ctor = (s₁.tables.getD tgtIdx default).compsT.getD j EntityC
          ∧ ((s₁.tables.getD tgtIdx default).compsT.getD j EntityC = EntityC
              → v = Value.ent eid))
    ∧ Table.length (crossTgt s₁ eid tgtIdx)
        = Table.length (s₁.tables.getD tgtIdx default) + 1 := by
  have hdodd : d % 2 = 1 := by
    rcases h.destsOdd (eid, d) hmem with h0 | h1
    · exact absurd h0 hd0
    · exact h1
  have hTodd : (s₁.tables.getD tgtIdx default).archetype % 2 = 1 := by
    rw [harch]
    exact hdodd
  obtain ⟨csT, hTcs⟩ := compsT_head_of_odd s₁ h.base tgtIdx htgt hTodd
  have hTle := (h.base.shape tgtIdx htgt).compsT_le
  have hTnodup := compsT_nodup s₁ h.base tgtIdx htgt
  have hp := pending_payload_typed s₁ h eid
  have hfin : ((stage1 s₁ eid (s₁.tables.getD tgtIdx default)).final.map
      Prod.fst).Nodup
      ∧ (∀ q ∈ (stage1 s₁ eid (s₁.tables.getD tgtIdx default)).final,
          q.2.ctor = q.1 ∧ q.1 ∈ (s₁.tables.getD tgtIdx default).compsT
          ∧ (q.1 = EntityC → q.2 = Value.ent eid))
      ∧ (∀ c ∈ (srcOf s₁ eid).compsT,
          (s₁.tables.getD tgtIdx default).hasColumn c = true →
          c ∈ (stage1 s₁ eid (s₁.tables.getD tgtIdx default)).final.map
            Prod.fst)
      ∧ ((s₁.locs eid).tableId = 0 →
          Value.ent eid ∈ (lookupMap s₁.pending eid).getD [])
      ∧ ((s₁.locs eid).tableId = 0 → (srcOf s₁ eid).archetype = 0) := by
    by_cases hs0 : (s₁.locs eid).tableId = 0
    · have hS0 : srcOf s₁ eid = createTable := by
        show s₁.tables.getD (s₁.locs eid).tableId default = createTable
        rw [hs0]
        exact BaseInv_sentinel_getD s₁ h.base
      have hstage : stage1 s₁ eid (s₁.tables.getD tgtIdx default)
          = ⟨[], [], []⟩ := by
        unfold stage1
        rw [hS0]
        rfl
      rw [hstage]
      refine ⟨by simp, ?_, ?_, ?_, ?_⟩
      · intro q hq
        exact absurd hq (List.not_mem_nil q)
      · intro c hc
        rw [hS0] at hc
        exact absurd hc (List.not_mem_nil c)
      · intro _
        rcases (h.cover eid d hmem hd0).1 with hl | hr
        · exact absurd hs0 hl
        · exact hr
      · intro _
        rw [hS0]
        rfl
    · obtain ⟨_, c2, c3, c4, _⟩ := stage1_final_char s₁ h eid
        (s₁.tables.getD tgtIdx default) hs0
      exact ⟨c2, c3, c4, fun h0 => absurd h0 hs0, fun h0 => absurd h0 hs0⟩
  obtain ⟨k1, k2, k3, k4⟩ := finalFold_ok (s₁.tables.getD tgtIdx default) eid
    ((lookupMap s₁.pending eid).getD [])
    (stage1 s₁ eid (s₁.tables.getD tgtIdx default)).final hp hfin.1 hfin.2.1
  have hcov : ∀ c ∈ (s₁.tables.getD tgtIdx default).compsT,
      c ∈ (crossFinal s₁ eid tgtIdx).map Prod.fst := by
    intro c hc
    have hhc : (s₁.tables.getD tgtIdx default).hasColumn c = true :=
      hasColumn_of_mem _ _ hc
    by_cases hcE : c = EntityC
    · subst hcE
      by_cases hs0 : (s₁.locs eid).tableId = 0
      · exact k4 (Value.ent eid) (hfin.2.2.2.1 hs0) hhc
      · have hsrclt := h.base.locsLt eid
        have h0lt : 0 < (s₁.locs eid).tableId := by omega
        obtain ⟨cs, hcs⟩ := compsT_head_of_odd s₁ h.base _ hsrclt
          (h.oddT _ h0lt hsrclt)
        have hmemE : EntityC ∈ (srcOf s₁ eid).compsT := by
          show EntityC
            ∈ (s₁.tables.getD (s₁.locs eid).tableId default).compsT
          rw [hcs]
          exact List.mem_cons_self _ _
        exact k3 EntityC (hfin.2.2.1 EntityC hmemE hhc)
    · have hcmem := hc
      rw [(h.base.shape tgtIdx htgt).2.1] at hcmem
      have hsz : isSizedComponent c = true := List.of_mem_filter hcmem
      have hred : c ∈ (decodeBits s₁.components
          (s₁.tables.getD tgtIdx default).archetype 0).reduceOption :=
        List.mem_of_mem_filter hcmem
      have hsome : some c ∈ decodeBits s₁.components
          (s₁.tables.getD tgtIdx default).archetype 0 :=
        List.reduceOption_mem_iff.mp hred
      obtain ⟨j, hj, hb⟩ := (mem_decodeBits _ _ _ _).mp hsome
      rw [Nat.zero_add] at hj
      rw [harch] at hb
      rcases (h.cover eid d hmem hd0).2 j c hj hb hsz hcE with hbit
        | ⟨v, hvm, hvc⟩
      · by_cases hs0 : (s₁.locs eid).tableId = 0
        · exfalso
          have ha0 := hfin.2.2.2.2 hs0
          have ha0' : (s₁.tables.getD (s₁.locs eid).tableId
              default).archetype = 0 := ha0
          rw [ha0'] at hbit
          rw [Nat.zero_testBit] at hbit
          exact Bool.noConfusion hbit
        · have hsrclt := h.base.locsLt eid
          have hcsrc : c ∈ (srcOf s₁ eid).compsT := by
            show c ∈ (s₁.tables.getD (s₁.locs eid).tableId default).compsT
            rw [(h.base.shape _ hsrclt).2.1]
            refine List.mem_filter.mpr ⟨?_, by simpa using hsz⟩
            refine List.reduceOption_mem_iff.mpr ?_
            refine (mem_decodeBits _ _ _ _).mpr ⟨j, ?_, hbit⟩
            rw [Nat.zero_add]
            exact hj
          exact k3 c (hfin.2.2.1 c hcsrc hhc)
      · have hk := k4 v hvm (by rw [hvc]; exact hhc)
        rw [hvc] at hk
        exact hk
  obtain ⟨p1, p2, p3, p4, p5, p6⟩ := foldl_pushColumn_char
    (s₁.tables.getD tgtIdx default) (crossFinal s₁ eid tgtIdx)
    (fun q hq => (k2 q hq).2.1) k1 hTle hTnodup
  have hcolsT : ∀ j, j < (s₁.tables.getD tgtIdx default).compsT.length →
      ∃ v : Value, (crossTgt s₁ eid tgtIdx).columns.getD j []
          = (s₁.tables.getD tgtIdx default).columns.getD j [] ++ [some v]
        ∧ v.ctor = (s₁.tables.getD tgtIdx default).compsT.getD j EntityC
        ∧ ((s₁.tables.getD tgtIdx default).compsT.getD j EntityC = EntityC
            → v = Value.ent eid) := by
    intro j hj
    have hjmem : (s₁.tables.getD tgtIdx default).compsT.getD j EntityC
        ∈ (s₁.tables.getD tgtIdx default).compsT := getD_mem_cls _ j hj
    obtain ⟨q, hfind, hqk, hqm⟩ := find?_key_mem (crossFinal s₁ eid tgtIdx) _
      (hcov _ hjmem)
    have hcol := p5 j hj
    rw [hfind] at hcol
    refine ⟨q.2, hcol, (k2 q hqm).1.trans hqk, ?_⟩
    intro hE
    refine (k2 q hqm).2.2 ?_
    rw [hqk]
    exact hE
  refine ⟨p1, p2, p3, hcolsT, ?_⟩
  have h0 : 0 < (s₁.tables.getD tgtIdx default).compsT.length := by
    rw [hTcs]
    simp
  obtain ⟨v, hvcol, _, _⟩ := hcolsT 0 h0
  rw [Table.length_eq, Table.length_eq, hvcol, List.length_append,
    List.length_singleton]

/-- `flushStep`'s location/column consistency for a cross-table move out of
the sentinel (the spawn shape): the source is untouched, no fix-ups happen,
and the moved entity lands in the last row of the grown target. -/
theorem CoreInv_moveStep_cross_spawn (s₁ : WorldState) (h : CoreInv s₁)
    (eid d tgtIdx : Nat)
    (hmem : (eid, d) ∈ s₁.dests)
    (htgt : tgtIdx < s₁.tables.length)
    (harch : (s₁.tables.getD tgtIdx default).archetype = d)
    (hd0 : d ≠ 0)
    (hs0 : (s₁.locs eid).tableId = 0)
    (hst : ¬(s₁.locs eid).tableId = tgtIdx)
    (hbase : BaseInv { s₁ with
      tables := (moveTables s₁.tables (s₁.locs eid).tableId tgtIdx
        ((s₁.locs eid).tableRow : Int)
        ((lookupMap s₁.pending eid).getD [])).tables,
      locs := fun e => if e = eid then
          ⟨(moveTables s₁.tables (s₁.locs eid).tableId tgtIdx
              ((s₁.locs eid).tableRow : Int)
              ((lookupMap s₁.pending eid).getD [])).retTableId,
            (moveTables s₁.tables (s₁.locs eid).tableId tgtIdx
              ((s₁.locs eid).tableRow : Int)
              ((lookupMap s₁.pending eid).getD [])).retRow.toNat⟩
        else applyFixups s₁.locs (moveTables s₁.tables (s₁.locs eid).tableId
          tgtIdx ((s₁.locs eid).tableRow : Int)
          ((lookupMap s₁.pending eid).getD [])).fixups e }) :
    CoreInv { s₁ with
      tables := (moveTables s₁.tables (s₁.locs eid).tableId tgtIdx
        ((s₁.locs eid).tableRow : Int)
        ((lookupMap s₁.pending eid).getD [])).tables,
      locs := fun e => if e = eid then
          ⟨(moveTables s₁.tables (s₁.locs eid).tableId tgtIdx
              ((s₁.locs eid).tableRow : Int)
              ((lookupMap s₁.pending eid).getD [])).retTableId,
            (moveTables s₁.tables (s₁.locs eid).tableId tgtIdx
              ((s₁.locs eid).tableRow : Int)
              ((lookupMap s₁.pending eid).getD [])).retRow.toNat⟩
        else applyFixups s₁.locs (moveTables s₁.tables (s₁.locs eid).tableId
          tgtIdx ((s₁.locs eid).tableRow : Int)
          ((lookupMap s₁.pending eid).getD [])).fixups e } := by
  rw [moveTables_cross_eq2 s₁ eid tgtIdx hst] at hbase ⊢
  dsimp only at hbase ⊢
  have hsrclt : (s₁.locs eid).tableId < s₁.tables.length := h.base.locsLt eid
  have htid : (s₁.tables.getD tgtIdx default).tid = tgtIdx :=
    h.base.ids tgtIdx htgt
  obtain ⟨t1, t2, t3, t4, t5⟩ := crossTgt_char s₁ h eid tgtIdx d hmem htgt
    harch hd0
  have hdodd : d % 2 = 1 := by
    rcases h.destsOdd (eid, d) hmem with h0 | h1
    · exact absurd h0 hd0
    · exact h1
  have hTodd : (s₁.tables.getD tgtIdx default).archetype % 2 = 1 := by
    rw [harch]
    exact hdodd
  obtain ⟨csT, hTcs⟩ := compsT_head_of_odd s₁ h.base tgtIdx htgt hTodd
  have hTle := (h.base.shape tgtIdx htgt).compsT_le
  have htgt0 : tgtIdx ≠ 0 := by
    intro hc
    rw [hc] at hst
    exact hst hs0
  have h0T : 0 < (s₁.tables.getD tgtIdx default).compsT.length := by
    rw [hTcs]
    simp
  have hnewRow : (match (s₁.tables.getD tgtIdx default).getColumn EntityC with
      | some col => col.length
      | none => 0) = Table.length (s₁.tables.getD tgtIdx default) := by
    rw [getColumn_entity_head _ csT hTcs hTle]
    dsimp only
    rw [Table.length_eq]
  have hrowcast : (((match (s₁.tables.getD tgtIdx default).getColumn EntityC
      with | some col => col.length | none => 0 : Nat) : Int)).toNat
      = Table.length (s₁.tables.getD tgtIdx default) := by
    rw [hnewRow]
    simp
  have hS0 : srcOf s₁ eid = createTable := by
    show s₁.tables.getD (s₁.locs eid).tableId default = createTable
    rw [hs0]
    exact BaseInv_sentinel_getD s₁ h.base
  have hstage : stage1 s₁ eid (s₁.tables.getD tgtIdx default)
      = ⟨[], [], []⟩ := by
    unfold stage1
    rw [hS0]
    rfl
  have hSeq : crossSrc s₁ eid tgtIdx = srcOf s₁ eid := by
    unfold crossSrc
    rw [hstage, hS0]
    rfl
  have hF : (stage1 s₁ eid (s₁.tables.getD tgtIdx default)).fixups = [] := by
    rw [hstage]
  have hLeid : s₁.locs eid = ⟨0, 0⟩ := by
    have he : s₁.locs eid = ⟨(s₁.locs eid).tableId, (s₁.locs eid).tableRow⟩ :=
      rfl
    rw [he, hs0, h.deadZero eid hs0]
  have hsetlen : ((s₁.tables.set (s₁.locs eid).tableId
      (crossSrc s₁ eid tgtIdx)).set tgtIdx
      (crossTgt s₁ eid tgtIdx)).length = s₁.tables.length := by
    rw [List.length_set, List.length_set]
  have hgetT : ((s₁.tables.set (s₁.locs eid).tableId
      (crossSrc s₁ eid tgtIdx)).set tgtIdx
      (crossTgt s₁ eid tgtIdx)).getD tgtIdx default
      = crossTgt s₁ eid tgtIdx :=
    getD_set_same _ _ _ _ (by rw [List.length_set]; exact htgt)
  have hget2 : ∀ i, i ≠ tgtIdx →
      ((s₁.tables.set (s₁.locs eid).tableId (crossSrc s₁ eid tgtIdx)).set
        tgtIdx (crossTgt s₁ eid tgtIdx)).getD i default
        = s₁.tables.getD i default := by
    intro i hi
    rw [getD_set_diff _ _ _ _ _ (fun hc => hi hc.symm)]
    by_cases hii : i = (s₁.locs eid).tableId
    · subst hii
      rw [getD_set_same _ _ _ _ hsrclt, hSeq]
      rfl
    · rw [getD_set_diff _ _ _ _ _ (fun hc => hii hc.symm)]
  refine ⟨hbase, ?_, ?_, ?_, ?_, ?_, ?_, ?_, ?_, ?_, ?_, ?_⟩
  · -- oddT
    intro i h0 hi
    dsimp only at hi ⊢
    rw [hsetlen] at hi
    by_cases hit : i = tgtIdx
    · rw [hit] at h0 ⊢
      rw [hgetT, t2]
      exact h.oddT tgtIdx h0 htgt
    · rw [hget2 i hit]
      exact h.oddT i h0 hi
  · -- aligned
    intro i hi j hj
    dsimp only at hi hj ⊢
    rw [hsetlen] at hi
    by_cases hit : i = tgtIdx
    · rw [hit] at hj ⊢
      rw [hgetT] at hj ⊢
      rw [t3] at hj
      obtain ⟨v, hvcol, _, _⟩ := t4 j hj
      rw [hvcol, List.length_append, List.length_singleton, t5,
        h.aligned tgtIdx htgt j hj]
    · rw [hget2 i hit] at hj ⊢
      exact h.aligned i hi j hj
  · -- typed
    intro i hi j hj r hr
    dsimp only at hi hj hr ⊢
    rw [hsetlen] at hi
    by_cases hit : i = tgtIdx
    · rw [hit] at hj hr ⊢
      rw [hgetT] at hj hr ⊢
      rw [t3] at hj ⊢
      rw [t5] at hr
      obtain ⟨v, hvcol, hvc, hvE⟩ := t4 j hj
      rw [hvcol]
      by_cases hrL : r < Table.length (s₁.tables.getD tgtIdx default)
      · obtain ⟨w, hw, hwc⟩ := h.typed tgtIdx htgt j hj r hrL
        refine ⟨w, ?_, hwc⟩
        have hjb : r < ((s₁.tables.getD tgtIdx default).columns.getD j
            []).length := by
          rw [h.aligned tgtIdx htgt j hj]
          exact hrL
        rw [List.get?_eq_getElem?, List.getElem?_append_left hjb,
          ← List.get?_eq_getElem?]
        exact hw
      · have hrT : r = Table.length (s₁.tables.getD tgtIdx default) := by
          omega
        refine ⟨v, ?_, hvc⟩
        subst hrT
        rw [List.get?_eq_getElem?, List.getElem?_append_right
          (le_of_eq (h.aligned tgtIdx htgt j hj)),
          h.aligned tgtIdx htgt j hj, Nat.sub_self]
        rfl
    · rw [hget2 i hit] at hj hr ⊢
      exact h.typed i hi j hj r hr
  · -- entCol
    intro i h0 hi r hr
    dsimp only at hi hr ⊢
    rw [hsetlen] at hi
    by_cases hit : i = tgtIdx
    · rw [hit] at h0 hr ⊢
      rw [hgetT] at hr ⊢
      rw [t5] at hr
      obtain ⟨v, hvcol, hvc, hvE⟩ := t4 0 h0T
      have hvE' : v = Value.ent eid := hvE (by rw [hTcs]; rfl)
      by_cases hrL : r < Table.length (s₁.tables.getD tgtIdx default)
      · obtain ⟨e, he, hle2⟩ := h.entCol tgtIdx h0 htgt r hrL
        refine ⟨e, ?_, ?_⟩
        · have hjb : r < ((s₁.tables.getD tgtIdx default).columns.getD 0
              []).length := by
            rw [h.aligned tgtIdx htgt 0 h0T]
            exact hrL
          rw [hvcol, List.get?_eq_getElem?, List.getElem?_append_left hjb,
            ← List.get?_eq_getElem?]
          exact he
        · have hne : e ≠ eid := by
            intro hc
            rw [hc, hLeid] at hle2
            have h0t : (0 : Nat) = tgtIdx := congrArg Loc.tableId hle2
            exact htgt0 h0t.symm
          rw [if_neg hne, hF, applyFixups_nil]
          exact hle2
      · have hrT : r = Table.length (s₁.tables.getD tgtIdx default) := by
          omega
        subst hrT
        refine ⟨eid, ?_, ?_⟩
        · rw [hvcol, hvE', List.get?_eq_getElem?, List.getElem?_append_right
            (le_of_eq (h.aligned tgtIdx htgt 0 h0T)),
            h.aligned tgtIdx htgt 0 h0T, Nat.sub_self]
          rfl
        · rw [if_pos rfl]
          rw [Loc.mk.injEq]
          exact ⟨htid, hrowcast⟩
    · rw [hget2 i hit] at hr ⊢
      obtain ⟨e, he, hle2⟩ := h.entCol i h0 hi r hr
      refine ⟨e, he, ?_⟩
      have hne : e ≠ eid := by
        intro hc
        rw [hc, hLeid] at hle2
        have h0i : (0 : Nat) = i := congrArg Loc.tableId hle2
        omega
      rw [if_neg hne, hF, applyFixups_nil]
      exact hle2
  · -- locA
    intro e he
    dsimp only at he ⊢
    by_cases heid : e = eid
    · subst heid
      rw [if_pos rfl] at he ⊢
      dsimp only at he ⊢
      rw [htid] at he ⊢
      rw [hrowcast, hgetT, t5]
      refine ⟨by omega, ?_⟩
      obtain ⟨v, hvcol, hvc, hvE⟩ := t4 0 h0T
      have hvE' : v = Value.ent e := hvE (by rw [hTcs]; rfl)
      rw [hvcol, hvE', List.get?_eq_getElem?, List.getElem?_append_right
        (le_of_eq (h.aligned tgtIdx htgt 0 h0T)),
        h.aligned tgtIdx htgt 0 h0T, Nat.sub_self]
      rfl
    · rw [if_neg heid] at he ⊢
      rw [hF, applyFixups_nil] at he ⊢
      obtain ⟨hr1, hr2⟩ := h.locA e he
      by_cases hit : (s₁.locs e).tableId = tgtIdx
      · rw [hit] at hr1 hr2 ⊢
        rw [hgetT, t5]
        refine ⟨by omega, ?_⟩
        obtain ⟨v, hvcol, _, _⟩ := t4 0 h0T
        have hjb : (s₁.locs e).tableRow < ((s₁.tables.getD tgtIdx
            default).columns.getD 0 []).length := by
          rw [h.aligned tgtIdx htgt 0 h0T]
          exact hr1
        rw [hvcol, List.get?_eq_getElem?, List.getElem?_append_left hjb,
          ← List.get?_eq_getElem?]
        exact hr2
      · rw [hget2 _ hit]
        exact ⟨hr1, hr2⟩
  · -- deadZero
    intro e he
    dsimp only at he ⊢
    by_cases heid : e = eid
    · subst heid
      rw [if_pos rfl] at he
      dsimp only at he
      rw [htid] at he
      exact absurd he htgt0
    · rw [if_neg heid] at he ⊢
      rw [hF, applyFixups_nil] at he ⊢
      exact h.deadZero e he
  · -- pendTyped
    exact h.pendTyped
  · -- locsFresh
    intro e hne2
    dsimp only at hne2 ⊢
    have hlt : eid < s₁.nextId := h.destsLt (eid, d) hmem
    have heid : e ≠ eid := by
      intro hc
      rw [hc] at hne2
      omega
    rw [if_neg heid, hF, applyFixups_nil]
    exact h.locsFresh e hne2
  · -- destsLt
    exact h.destsLt
  · -- destsOdd
    exact h.destsOdd
  · -- cover
    intro e d' hmem2 hd2
    dsimp only at hmem2 ⊢
    by_cases heid : e = eid
    · subst heid
      have hdd : d' = d := nodup_fst_inj s₁.dests h.base.destsKeys e d' d
        hmem2 hmem
      rw [if_pos rfl]
      dsimp only
      rw [htid]
      refine ⟨Or.inl htgt0, ?_⟩
      intro j c hj hb hsz hcE
      left
      rw [hgetT, t2, harch]
      rw [hdd] at hb
      exact hb
    · rw [if_neg heid]
      rw [hF, applyFixups_nil]
      obtain ⟨v1, v2⟩ := h.cover e d' hmem2 hd2
      refine ⟨v1, ?_⟩
      intro j c hj hb hsz hcE
      rcases v2 j c hj hb hsz hcE with hbit | hpend
      · left
        by_cases hit : (s₁.locs e).tableId = tgtIdx
        · rw [hit] at hbit ⊢
          rw [hgetT, t2]
          exact hbit
        · rw [hget2 _ hit]
          exact hbit
      · right
        exact hpend

/-- The effect of the back-fill fix-ups of a cross-table move out of a live
source on entity locations: non-moved entities keep their table; entities
outside the source table are untouched; every surviving row of the shrunk
source is owned by exactly the entity the fixed-up locations place there. -/
theorem cross_fixups_loc (s₁ : WorldState) (h : CoreInv s₁)
    (eid tgtIdx : Nat) (hs0 : (s₁.locs eid).tableId ≠ 0) :
    (∀ e, e ≠ eid →
        (applyFixups s₁.locs (stage1 s₁ eid (s₁.tables.getD tgtIdx
          default)).fixups e).tableId = (s₁.locs e).tableId)
      ∧ (∀ e, e ≠ eid → (s₁.locs e).tableId ≠ (s₁.locs eid).tableId →
          applyFixups s₁.locs (stage1 s₁ eid (s₁.tables.getD tgtIdx
            default)).fixups e = s₁.locs e)
      ∧ (∀ r, r < Table.length (srcOf s₁ eid) - 1 →
          ∃ e, ((crossSrc s₁ eid tgtIdx).columns.getD 0 []).get? r
              = some (some (Value.ent e))
            ∧ e ≠ eid
            ∧ applyFixups s₁.locs (stage1 s₁ eid (s₁.tables.getD tgtIdx
                default)).fixups e = ⟨(s₁.locs eid).tableId, r⟩)
      ∧ (∀ e, e ≠ eid → (s₁.locs e).tableId = (s₁.locs eid).tableId →
          (applyFixups s₁.locs (stage1 s₁ eid (s₁.tables.getD tgtIdx
            default)).fixups e).tableRow < Table.length (srcOf s₁ eid) - 1
          ∧ ((crossSrc s₁ eid tgtIdx).columns.getD 0 []).get?
              ((applyFixups s₁.locs (stage1 s₁ eid (s₁.tables.getD tgtIdx
                default)).fixups e).tableRow)
            = some (some (Value.ent e))) := by
  have hsrclt : (s₁.locs eid).tableId < s₁.tables.length := h.base.locsLt eid
  have h0lt : 0 < (s₁.locs eid).tableId := by omega
  obtain ⟨_, _, _, s4, _⟩ := crossSrc_char s₁ h eid tgtIdx hs0
  obtain ⟨_, _, _, _, c5⟩ := stage1_final_char s₁ h eid
    (s₁.tables.getD tgtIdx default) hs0
  obtain ⟨hrowlt0, hcellE⟩ := h.locA eid hs0
  have hrowlt : (s₁.locs eid).tableRow < Table.length (srcOf s₁ eid) :=
    hrowlt0
  have hcellE2 : ((srcOf s₁ eid).columns.getD 0 []).get?
      (s₁.locs eid).tableRow = some (some (Value.ent eid)) := hcellE
  have hSodd := h.oddT _ h0lt hsrclt
  obtain ⟨cs, hcs⟩ := compsT_head_of_odd s₁ h.base _ hsrclt hSodd
  have h0S : 0 < (srcOf s₁ eid).compsT.length := by
    show 0 < (s₁.tables.getD (s₁.locs eid).tableId default).compsT.length
    rw [hcs]
    simp
  rcases c5 with ⟨hFnil, hrowL⟩ | ⟨eb, hFone, hrow2, hebloc, hebcell⟩
  · -- the moved row was the last one: no fix-up happens
    rw [hFnil, applyFixups_nil]
    refine ⟨fun e _ => rfl, fun e _ _ => rfl, ?_, ?_⟩
    · intro r hr
      obtain ⟨e, hcell, hloc⟩ := h.entCol _ h0lt hsrclt r
        (show r < Table.length (srcOf s₁ eid) from by omega)
      have hcell2 : ((srcOf s₁ eid).columns.getD 0 []).get? r
          = some (some (Value.ent e)) := hcell
      have hne : e ≠ eid := by
        intro hc
        rw [hc] at hloc
        have hrr : (s₁.locs eid).tableRow = r := by
          rw [hloc]
        omega
      have hrne : ¬r = (s₁.locs eid).tableRow := by omega
      refine ⟨e, ?_, hne, hloc⟩
      rw [(s4 0 h0S).2 r hr, if_neg hrne]
      exact hcell2
    · intro e hne hsame
      obtain ⟨hre, hce⟩ := h.locA e (by rw [hsame]; exact hs0)
      have hre2 : (s₁.locs e).tableRow < Table.length (srcOf s₁ eid) := by
        rw [hsame] at hre
        exact hre
      have hce2 : ((srcOf s₁ eid).columns.getD 0 []).get?
          (s₁.locs e).tableRow = some (some (Value.ent e)) := by
        rw [hsame] at hce
        exact hce
      have hnr : ¬(s₁.locs e).tableRow = (s₁.locs eid).tableRow := by
        intro hc
        rw [hc, hcellE2] at hce2
        exact hne ((Value.ent.inj (Option.some_inj.mp (Option.some_inj.mp
          hce2))).symm)
      have hb4 : (s₁.locs e).tableRow
          < Table.length (srcOf s₁ eid) - 1 := by omega
      refine ⟨hb4, ?_⟩
      rw [(s4 0 h0S).2 (s₁.locs e).tableRow hb4, if_neg hnr]
      exact hce2
  · -- the old last row back-fills the moved row
    have heb_ne : eb ≠ eid := by
      intro hc
      rw [hc] at hebloc
      have hrr : (s₁.locs eid).tableRow
          = Table.length (srcOf s₁ eid) - 1 := by
        rw [hebloc]
      omega
    have hebtid : (s₁.locs eb).tableId = (s₁.locs eid).tableId := by
      rw [hebloc]
    have hebrow : (s₁.locs eb).tableRow
        = Table.length (srcOf s₁ eid) - 1 := by
      rw [hebloc]
    rw [hFone, applyFixups_one]
    refine ⟨?_, ?_, ?_, ?_⟩
    · intro e hne
      dsimp only
      by_cases heb : e = eb
      · rw [if_pos heb, heb]
      · rw [if_neg heb]
    · intro e hne hdiff
      dsimp only
      rw [if_neg (fun hc => hdiff (by rw [hc]; exact hebtid))]
    · intro r hr
      by_cases hrr : r = (s₁.locs eid).tableRow
      · refine ⟨eb, ?_, heb_ne, ?_⟩
        · rw [(s4 0 h0S).2 r hr, if_pos hrr]
          exact hebcell
        · dsimp only
          rw [if_pos rfl, hebtid, hrr]
      · obtain ⟨e, hcell, hloc⟩ := h.entCol _ h0lt hsrclt r
          (show r < Table.length (srcOf s₁ eid) from by omega)
        have hcell2 : ((srcOf s₁ eid).columns.getD 0 []).get? r
            = some (some (Value.ent e)) := hcell
        have hne : e ≠ eid := by
          intro hc
          rw [hc] at hloc
          have hx : (s₁.locs eid).tableRow = r := by
            rw [hloc]
          exact hrr hx.symm
        have hneb : e ≠ eb := by
          intro hc
          rw [hc, hebloc] at hloc
          have hx : Table.length (srcOf s₁ eid) - 1 = r :=
            congrArg Loc.tableRow hloc
          omega
        refine ⟨e, ?_, hne, ?_⟩
        · rw [(s4 0 h0S).2 r hr, if_neg hrr]
          exact hcell2
        · dsimp only
          rw [if_neg hneb]
          exact hloc
    · intro e hne hsame
      obtain ⟨hre, hce⟩ := h.locA e (by rw [hsame]; exact hs0)
      have hre2 : (s₁.locs e).tableRow < Table.length (srcOf s₁ eid) := by
        rw [hsame] at hre
        exact hre
      have hce2 : ((srcOf s₁ eid).columns.getD 0 []).get?
          (s₁.locs e).tableRow = some (some (Value.ent e)) := by
        rw [hsame] at hce
        exact hce
      have hnr : ¬(s₁.locs e).tableRow = (s₁.locs eid).tableRow := by
        intro hc
        rw [hc, hcellE2] at hce2
        exact hne ((Value.ent.inj (Option.some_inj.mp (Option.some_inj.mp
          hce2))).symm)
      dsimp only
      by_cases heb : e = eb
      · rw [if_pos heb]
        dsimp only
        have hb : (s₁.locs eid).tableRow
            < Table.length (srcOf s₁ eid) - 1 := by omega
        refine ⟨hb, ?_⟩
        rw [(s4 0 h0S).2 (s₁.locs eid).tableRow hb, if_pos rfl, heb]
        exact hebcell
      · have hrlast : (s₁.locs e).tableRow
            ≠ Table.length (srcOf s₁ eid) - 1 := by
          intro hc
          rw [hc, hebcell] at hce2
          exact heb ((Value.ent.inj (Option.some_inj.mp
            (Option.some_inj.mp hce2))).symm)
        rw [if_neg heb]
        have hb : (s₁.locs e).tableRow
            < Table.length (srcOf s₁ eid) - 1 := by omega
        refine ⟨hb, ?_⟩
        rw [(s4 0 h0S).2 (s₁.locs e).tableRow hb, if_neg hnr]
        exact hce2

/-- `flushStep`'s location/column consistency for a cross-table move into
the sentinel (the despawn shape): the target is untouched, the source loses
its row by swap-remove, the back-filled entity's location is fixed up, and
the moved entity ends dead at `{0, 0}`. -/
theorem CoreInv_moveStep_cross_despawn (s₁ : WorldState) (h : CoreInv s₁)
    (eid d tgtIdx : Nat)
    (hmem : (eid, d) ∈ s₁.dests)
    (htgt : tgtIdx < s₁.tables.length)
    (harch : (s₁.tables.getD tgtIdx default).archetype = d)
    (hd0 : d = 0)
    (hst : ¬(s₁.locs eid).tableId = tgtIdx)
    (hbase : BaseInv { s₁ with
      tables := (moveTables s₁.tables (s₁.locs eid).tableId tgtIdx
        ((s₁.locs eid).tableRow : Int)
        ((lookupMap s₁.pending eid).getD [])).tables,
      locs := fun e => if e = eid then
          ⟨(moveTables s₁.tables (s₁.locs eid).tableId tgtIdx
              ((s₁.locs eid).tableRow : Int)
              ((lookupMap s₁.pending eid).getD [])).retTableId,
            (moveTables s₁.tables (s₁.locs eid).tableId tgtIdx
              ((s₁.locs eid).tableRow : Int)
              ((lookupMap s₁.pending eid).getD [])).retRow.toNat⟩
        else applyFixups s₁.locs (moveTables s₁.tables (s₁.locs eid).tableId
          tgtIdx ((s₁.locs eid).tableRow : Int)
          ((lookupMap s₁.pending eid).getD [])).fixups e }) :
    CoreInv { s₁ with
      tables := (moveTables s₁.tables (s₁.locs eid).tableId tgtIdx
        ((s₁.locs eid).tableRow : Int)
        ((lookupMap s₁.pending eid).getD [])).tables,
      locs := fun e => if e = eid then
          ⟨(moveTables s₁.tables (s₁.locs eid).tableId tgtIdx
              ((s₁.locs eid).tableRow : Int)
              ((lookupMap s₁.pending eid).getD [])).retTableId,
            (moveTables s₁.tables (s₁.locs eid).tableId tgtIdx
              ((s₁.locs eid).tableRow : Int)
              ((lookupMap s₁.pending eid).getD [])).retRow.toNat⟩
        else applyFixups s₁.locs (moveTables s₁.tables (s₁.locs eid).tableId
          tgtIdx ((s₁.locs eid).tableRow : Int)
          ((lookupMap s₁.pending eid).getD [])).fixups e } := by
  rw [moveTables_cross_eq2 s₁ eid tgtIdx hst] at hbase ⊢
  dsimp only at hbase ⊢
  have hslen0 : 0 < s₁.tables.length := BaseInv_tables_pos s₁ h.base
  have htgtIdx0 : tgtIdx = 0 := by
    refine arch_inj s₁ h.base tgtIdx 0 htgt hslen0 ?_
    rw [harch, hd0, BaseInv_sentinel_getD s₁ h.base]
    rfl
  have hs0 : (s₁.locs eid).tableId ≠ 0 := by
    rw [← htgtIdx0]
    exact hst
  have hsrclt : (s₁.locs eid).tableId < s₁.tables.length := h.base.locsLt eid
  have h0lt : 0 < (s₁.locs eid).tableId := by omega
  have hTc : s₁.tables.getD tgtIdx default = createTable := by
    rw [htgtIdx0]
    exact BaseInv_sentinel_getD s₁ h.base
  have hTnil : (s₁.tables.getD tgtIdx default).compsT = [] := by
    rw [hTc]
    rfl
  have hAfin : (stage1 s₁ eid (s₁.tables.getD tgtIdx default)).final
      = [] := by
    obtain ⟨_, _, c3, _, _⟩ := stage1_final_char s₁ h eid
      (s₁.tables.getD tgtIdx default) hs0
    cases hq : (stage1 s₁ eid (s₁.tables.getD tgtIdx default)).final with
    | nil => rfl
    | cons q rest =>
        exfalso
        have hqm : q ∈ (stage1 s₁ eid (s₁.tables.getD tgtIdx
            default)).final := by
          rw [hq]
          exact List.mem_cons_self _ _
        have hqT := (c3 q hqm).2.1
        rw [hTnil] at hqT
        exact absurd hqT (List.not_mem_nil _)
  have hFF : crossFinal s₁ eid tgtIdx = [] := by
    unfold crossFinal
    rw [hAfin]
    exact foldl_mapSetC_nilT (s₁.tables.getD tgtIdx default) hTnil
      ((lookupMap s₁.pending eid).getD []) []
  have hTeq : crossTgt s₁ eid tgtIdx = s₁.tables.getD tgtIdx default := by
    unfold crossTgt
    rw [hFF]
    rfl
  have hnewRow0 : (match (s₁.tables.getD tgtIdx default).getColumn EntityC
      with | some col => col.length | none => 0) = 0 := by
    rw [getColumn_entity_nil _ hTnil]
  have hrowcast : (((match (s₁.tables.getD tgtIdx default).getColumn EntityC
      with | some col => col.length | none => 0 : Nat) : Int)).toNat
      = 0 := by
    rw [hnewRow0]
    rfl
  have htid0 : (s₁.tables.getD tgtIdx default).tid = 0 := by
    rw [hTc]
    rfl
  obtain ⟨s1, s2, s3, s4, s5⟩ := crossSrc_char s₁ h eid tgtIdx hs0
  obtain ⟨_, _, _, _, c5⟩ := stage1_final_char s₁ h eid
    (s₁.tables.getD tgtIdx default) hs0
  obtain ⟨hrowlt0, hcellE⟩ := h.locA eid hs0
  have hrowlt : (s₁.locs eid).tableRow < Table.length (srcOf s₁ eid) :=
    hrowlt0
  have hcellE2 : ((srcOf s₁ eid).columns.getD 0 []).get?
      (s₁.locs eid).tableRow = some (some (Value.ent eid)) := hcellE
  have hSodd := h.oddT _ h0lt hsrclt
  obtain ⟨cs, hcs⟩ := compsT_head_of_odd s₁ h.base _ hsrclt hSodd
  have h0S : 0 < (srcOf s₁ eid).compsT.length := by
    show 0 < (s₁.tables.getD (s₁.locs eid).tableId default).compsT.length
    rw [hcs]
    simp
  have hsetlen : ((s₁.tables.set (s₁.locs eid).tableId
      (crossSrc s₁ eid tgtIdx)).set tgtIdx
      (crossTgt s₁ eid tgtIdx)).length = s₁.tables.length := by
    rw [List.length_set, List.length_set]
  have hgetT : ((s₁.tables.set (s₁.locs eid).tableId
      (crossSrc s₁ eid tgtIdx)).set tgtIdx
      (crossTgt s₁ eid tgtIdx)).getD tgtIdx default
      = s₁.tables.getD tgtIdx default := by
    rw [getD_set_same _ _ _ _ (by rw [List.length_set]; exact htgt), hTeq]
  have hgetS : ((s₁.tables.set (s₁.locs eid).tableId
      (crossSrc s₁ eid tgtIdx)).set tgtIdx
      (crossTgt s₁ eid tgtIdx)).getD (s₁.locs eid).tableId default
      = crossSrc s₁ eid tgtIdx := by
    rw [getD_set_diff _ _ _ _ _ (fun hc => hst hc.symm),
      getD_set_same _ _ _ _ hsrclt]
  have hgetO : ∀ i, i ≠ tgtIdx → i ≠ (s₁.locs eid).tableId →
      ((s₁.tables.set (s₁.locs eid).tableId (crossSrc s₁ eid tgtIdx)).set
        tgtIdx (crossTgt s₁ eid tgtIdx)).getD i default
        = s₁.tables.getD i default := by
    intro i hit his
    rw [getD_set_diff _ _ _ _ _ (fun hc => hit hc.symm),
      getD_set_diff _ _ _ _ _ (fun hc => his hc.symm)]
  have harchpres : ∀ i, (((s₁.tables.set (s₁.locs eid).tableId
      (crossSrc s₁ eid tgtIdx)).set tgtIdx
      (crossTgt s₁ eid tgtIdx)).getD i default).archetype
      = (s₁.tables.getD i default).archetype := by
    intro i
    by_cases hit : i = tgtIdx
    · rw [hit, hgetT]
    · by_cases his : i = (s₁.locs eid).tableId
      · rw [his, hgetS, s2]
        rfl
      · rw [hgetO i hit his]
  have hLoc := cross_fixups_loc s₁ h eid tgtIdx hs0
  refine ⟨hbase, ?_, ?_, ?_, ?_, ?_, ?_, ?_, ?_, ?_, ?_, ?_⟩
  · -- oddT
    intro i h0 hi
    dsimp only at hi ⊢
    rw [hsetlen] at hi
    have hit : i ≠ tgtIdx := by
      rw [htgtIdx0]
      omega
    by_cases his : i = (s₁.locs eid).tableId
    · rw [his]
      rw [hgetS, s2]
      exact h.oddT _ h0lt hsrclt
    · rw [hgetO i hit his]
      exact h.oddT i h0 hi
  · -- aligned
    intro i hi j hj
    dsimp only at hi hj ⊢
    rw [hsetlen] at hi
    by_cases hit : i = tgtIdx
    · rw [hit] at hj ⊢
      rw [hgetT] at hj ⊢
      exact h.aligned tgtIdx htgt j hj
    · by_cases his : i = (s₁.locs eid).tableId
      · rw [his] at hj ⊢
        rw [hgetS] at hj ⊢
        rw [s3] at hj
        rw [(s4 j hj).1, s5]
      · rw [hgetO i hit his] at hj ⊢
        exact h.aligned i hi j hj
  · -- typed
    intro i hi j hj r hr
    dsimp only at hi hj hr ⊢
    rw [hsetlen] at hi
    by_cases hit : i = tgtIdx
    · rw [hit] at hj hr ⊢
      rw [hgetT] at hj hr ⊢
      exact h.typed tgtIdx htgt j hj r hr
    · by_cases his : i = (s₁.locs eid).tableId
      · rw [his] at hj hr ⊢
        rw [hgetS] at hj hr ⊢
        rw [s3] at hj ⊢
        rw [s5] at hr
        rw [(s4 j hj).2 r hr]
        by_cases hrr : r = (s₁.locs eid).tableRow
        · rw [if_pos hrr]
          have hlast : Table.length (srcOf s₁ eid) - 1
              < Table.length (srcOf s₁ eid) := by omega
          obtain ⟨v, hv, hvc⟩ := h.typed _ hsrclt j hj
            (Table.length (srcOf s₁ eid) - 1) hlast
          exact ⟨v, hv, hvc⟩
        · rw [if_neg hrr]
          have hrb : r < Table.length (srcOf s₁ eid) := by omega
          obtain ⟨v, hv, hvc⟩ := h.typed _ hsrclt j hj r hrb
          exact ⟨v, hv, hvc⟩
      · rw [hgetO i hit his] at hj hr ⊢
        exact h.typed i hi j hj r hr
  · -- entCol
    intro i h0 hi r hr
    dsimp only at hi hr ⊢
    rw [hsetlen] at hi
    have hit : i ≠ tgtIdx := by
      rw [htgtIdx0]
      omega
    by_cases his : i = (s₁.locs eid).tableId
    · rw [his] at hr ⊢
      rw [hgetS] at hr ⊢
      rw [s5] at hr
      obtain ⟨e, hcell, hne, hfl⟩ := hLoc.2.2.1 r hr
      refine ⟨e, hcell, ?_⟩
      rw [if_neg hne]
      exact hfl
    · rw [hgetO i hit his] at hr ⊢
      obtain ⟨e, hcell, hloc⟩ := h.entCol i h0 hi r hr
      have htide : (s₁.locs e).tableId = i := by
        rw [hloc]
      have hne : e ≠ eid := by
        intro hc
        rw [hc] at htide
        exact his htide.symm
      refine ⟨e, hcell, ?_⟩
      rw [if_neg hne, hLoc.2.1 e hne (by rw [htide]; exact his)]
      exact hloc
  · -- locA
    intro e he
    dsimp only at he ⊢
    by_cases heid : e = eid
    · rw [if_pos heid] at he
      dsimp only at he
      rw [htid0] at he
      exact absurd rfl he
    · rw [if_neg heid] at he ⊢
      have htide := hLoc.1 e heid
      rw [htide] at he ⊢
      by_cases hsame : (s₁.locs e).tableId = (s₁.locs eid).tableId
      · obtain ⟨hb, hcell⟩ := hLoc.2.2.2 e heid hsame
        rw [hsame, hgetS]
        constructor
        · rw [s5]
          exact hb
        · exact hcell
      · have hfl := hLoc.2.1 e heid hsame
        have hit2 : (s₁.locs e).tableId ≠ tgtIdx := by
          rw [htgtIdx0]
          exact he
        rw [hfl, hgetO _ hit2 hsame]
        exact h.locA e he
  · -- deadZero
    intro e he
    dsimp only at he ⊢
    by_cases heid : e = eid
    · rw [if_pos heid]
      exact hrowcast
    · rw [if_neg heid] at he ⊢
      have htide := hLoc.1 e heid
      rw [htide] at he
      have hdiff : (s₁.locs e).tableId ≠ (s₁.locs eid).tableId := by
        rw [he]
        exact fun hc => hs0 hc.symm
      rw [hLoc.2.1 e heid hdiff]
      exact h.deadZero e he
  · -- pendTyped
    exact h.pendTyped
  · -- locsFresh
    intro e hne2
    dsimp only at hne2 ⊢
    have hlt : eid < s₁.nextId := h.destsLt (eid, d) hmem
    have heid : e ≠ eid := by
      intro hc
      rw [hc] at hne2
      omega
    rw [if_neg heid]
    obtain ⟨hl1, hl2, hl3⟩ := h.locsFresh e hne2
    have hdiff : (s₁.locs e).tableId ≠ (s₁.locs eid).tableId := by
      rw [hl1]
      exact fun hc => hs0 hc.symm
    rw [hLoc.2.1 e heid hdiff]
    exact ⟨hl1, hl2, hl3⟩
  · -- destsLt
    exact h.destsLt
  · -- destsOdd
    exact h.destsOdd
  · -- cover
    intro e d' hmem2 hd2
    dsimp only at hmem2 ⊢
    by_cases heid : e = eid
    · subst heid
      have hdd : d' = d := nodup_fst_inj s₁.dests h.base.destsKeys e d' d
        hmem2 hmem
      rw [hdd, hd0] at hd2
      exact absurd rfl hd2
    · rw [if_neg heid]
      obtain ⟨v1, v2⟩ := h.cover e d' hmem2 hd2
      have htide := hLoc.1 e heid
      constructor
      · rcases v1 with hv | hv
        · left
          rw [htide]
          exact hv
        · right
          exact hv
      · intro j c hj hb hsz hcE
        rcases v2 j c hj hb hsz hcE with hbit | hpend
        · left
          rw [htide, harchpres]
          exact hbit
        · right
          exact hpend

/-- `flushStep`'s location/column consistency for a cross-table move between
two live tables (the insert/remove shape): the source shrinks by swap-remove
with its back-fill fix-up, the target grows by one fully-staged row, and the
moved entity lands in the target's last row. -/
theorem CoreInv_moveStep_cross_grow (s₁ : WorldState) (h : CoreInv s₁)
    (eid d tgtIdx : Nat)
    (hmem : (eid, d) ∈ s₁.dests)
    (htgt : tgtIdx < s₁.tables.length)
    (harch : (s₁.tables.getD tgtIdx default).archetype = d)
    (hd0 : d ≠ 0)
    (hs0 : (s₁.locs eid).tableId ≠ 0)
    (hst : ¬(s₁.locs eid).tableId = tgtIdx)
    (hbase : BaseInv { s₁ with
      tables := (moveTables s₁.tables (s₁.locs eid).tableId tgtIdx
        ((s₁.locs eid).tableRow : Int)
        ((lookupMap s₁.pending eid).getD [])).tables,
      locs := fun e => if e = eid then
          ⟨(moveTables s₁.tables (s₁.locs eid).tableId tgtIdx
              ((s₁.locs eid).tableRow : Int)
              ((lookupMap s₁.pending eid).getD [])).retTableId,
            (moveTables s₁.tables (s₁.locs eid).tableId tgtIdx
              ((s₁.locs eid).tableRow : Int)
              ((lookupMap s₁.pending eid).getD [])).retRow.toNat⟩
        else applyFixups s₁.locs (moveTables s₁.tables (s₁.locs eid).tableId
          tgtIdx ((s₁.locs eid).tableRow : Int)
          ((lookupMap s₁.pending eid).getD [])).fixups e }) :
    CoreInv { s₁ with
      tables := (moveTables s₁.tables (s₁.locs eid).tableId tgtIdx
        ((s₁.locs eid).tableRow : Int)
        ((lookupMap s₁.pending eid).getD [])).tables,
      locs := fun e => if e = eid then
          ⟨(moveTables s₁.tables (s₁.locs eid).tableId tgtIdx
              ((s₁.locs eid).tableRow : Int)
              ((lookupMap s₁.pending eid).getD [])).retTableId,
            (moveTables s₁.tables (s₁.locs eid).tableId tgtIdx
              ((s₁.locs eid).tableRow : Int)
              ((lookupMap s₁.pending eid).getD [])).retRow.toNat⟩
        else applyFixups s₁.locs (moveTables s₁.tables (s₁.locs eid).tableId
          tgtIdx ((s₁.locs eid).tableRow : Int)
          ((lookupMap s₁.pending eid).getD [])).fixups e } := by
  rw [moveTables_cross_eq2 s₁ eid tgtIdx hst] at hbase ⊢
  dsimp only at hbase ⊢
  have hsrclt : (s₁.locs eid).tableId < s₁.tables.length := h.base.locsLt eid
  have h0lt : 0 < (s₁.locs eid).tableId := by omega
  have htid : (s₁.tables.getD tgtIdx default).tid = tgtIdx :=
    h.base.ids tgtIdx htgt
  obtain ⟨t1, t2, t3, t4, t5⟩ := crossTgt_char s₁ h eid tgtIdx d hmem htgt
    harch hd0
  have hdodd : d % 2 = 1 := by
    rcases h.destsOdd (eid, d) hmem with h0 | h1
    · exact absurd h0 hd0
    · exact h1
  have hTodd : (s₁.tables.getD tgtIdx default).archetype % 2 = 1 := by
    rw [harch]
    exact hdodd
  obtain ⟨csT, hTcs⟩ := compsT_head_of_odd s₁ h.base tgtIdx htgt hTodd
  have hTle := (h.base.shape tgtIdx htgt).compsT_le
  have htgt0 : tgtIdx ≠ 0 := by
    intro hc
    rw [hc, BaseInv_sentinel_getD s₁ h.base] at harch
    exact hd0 (harch.symm.trans rfl)
  have h0T : 0 < (s₁.tables.getD tgtIdx default).compsT.length := by
    rw [hTcs]
    simp
  have hnewRow : (match (s₁.tables.getD tgtIdx default).getColumn EntityC with
      | some col => col.length
      | none => 0) = Table.length (s₁.tables.getD tgtIdx default) := by
    rw [getColumn_entity_head _ csT hTcs hTle]
    dsimp only
    rw [Table.length_eq]
  have hrowcast : (((match (s₁.tables.getD tgtIdx default).getColumn EntityC
      with | some col => col.length | none => 0 : Nat) : Int)).toNat
      = Table.length (s₁.tables.getD tgtIdx default) := by
    rw [hnewRow]
    simp
  obtain ⟨s1, s2, s3, s4, s5⟩ := crossSrc_char s₁ h eid tgtIdx hs0
  have hLoc := cross_fixups_loc s₁ h eid tgtIdx hs0
  have hsetlen : ((s₁.tables.set (s₁.locs eid).tableId
      (crossSrc s₁ eid tgtIdx)).set tgtIdx
      (crossTgt s₁ eid tgtIdx)).length = s₁.tables.length := by
    rw [List.length_set, List.length_set]
  have hgetT : ((s₁.tables.set (s₁.locs eid).tableId
      (crossSrc s₁ eid tgtIdx)).set tgtIdx
      (crossTgt s₁ eid tgtIdx)).getD tgtIdx default
      = crossTgt s₁ eid tgtIdx :=
    getD_set_same _ _ _ _ (by rw [List.length_set]; exact htgt)
  have hgetS : ((s₁.tables.set (s₁.locs eid).tableId
      (crossSrc s₁ eid tgtIdx)).set tgtIdx
      (crossTgt s₁ eid tgtIdx)).getD (s₁.locs eid).tableId default
      = crossSrc s₁ eid tgtIdx := by
    rw [getD_set_diff _ _ _ _ _ (fun hc => hst hc.symm),
      getD_set_same _ _ _ _ hsrclt]
  have hgetO : ∀ i, i ≠ tgtIdx → i ≠ (s₁.locs eid).tableId →
      ((s₁.tables.set (s₁.locs eid).tableId (crossSrc s₁ eid tgtIdx)).set
        tgtIdx (crossTgt s₁ eid tgtIdx)).getD i default
        = s₁.tables.getD i default := by
    intro i hit his
    rw [getD_set_diff _ _ _ _ _ (fun hc => hit hc.symm),
      getD_set_diff _ _ _ _ _ (fun hc => his hc.symm)]
  have harchpres : ∀ i, (((s₁.tables.set (s₁.locs eid).tableId
      (crossSrc s₁ eid tgtIdx)).set tgtIdx
      (crossTgt s₁ eid tgtIdx)).getD i default).archetype
      = (s₁.tables.getD i default).archetype := by
    intro i
    by_cases hit : i = tgtIdx
    · rw [hit, hgetT, t2]
    · by_cases his : i = (s₁.locs eid).tableId
      · rw [his, hgetS, s2]
        rfl
      · rw [hgetO i hit his]
  refine ⟨hbase, ?_, ?_, ?_, ?_, ?_, ?_, ?_, ?_, ?_, ?_, ?_⟩
  · -- oddT
    intro i h0 hi
    dsimp only at hi ⊢
    rw [hsetlen] at hi
    rw [harchpres]
    exact h.oddT i h0 hi
  · -- aligned
    intro i hi j hj
    dsimp only at hi hj ⊢
    rw [hsetlen] at hi
    by_cases hit : i = tgtIdx
    · rw [hit] at hj ⊢
      rw [hgetT] at hj ⊢
      rw [t3] at hj
      obtain ⟨v, hvcol, _, _⟩ := t4 j hj
      rw [hvcol, List.length_append, List.length_singleton, t5,
        h.aligned tgtIdx htgt j hj]
    · by_cases his : i = (s₁.locs eid).tableId
      · rw [his] at hj ⊢
        rw [hgetS] at hj ⊢
        rw [s3] at hj
        rw [(s4 j hj).1, s5]
      · rw [hgetO i hit his] at hj ⊢
        exact h.aligned i hi j hj
  · -- typed
    intro i hi j hj r hr
    dsimp only at hi hj hr ⊢
    rw [hsetlen] at hi
    by_cases hit : i = tgtIdx
    · rw [hit] at hj hr ⊢
      rw [hgetT] at hj hr ⊢
      rw [t3] at hj ⊢
      rw [t5] at hr
      obtain ⟨v, hvcol, hvc, hvE⟩ := t4 j hj
      rw [hvcol]
      by_cases hrL : r < Table.length (s₁.tables.getD tgtIdx default)
      · obtain ⟨w, hw, hwc⟩ := h.typed tgtIdx htgt j hj r hrL
        refine ⟨w, ?_, hwc⟩
        have hjb : r < ((s₁.tables.getD tgtIdx default).columns.getD j
            []).length := by
          rw [h.aligned tgtIdx htgt j hj]
          exact hrL
        rw [List.get?_eq_getElem?, List.getElem?_append_left hjb,
          ← List.get?_eq_getElem?]
        exact hw
      · have hrT : r = Table.length (s₁.tables.getD tgtIdx default) := by
          omega
        refine ⟨v, ?_, hvc⟩
        subst hrT
        rw [List.get?_eq_getElem?, List.getElem?_append_right
          (le_of_eq (h.aligned tgtIdx htgt j hj)),
          h.aligned tgtIdx htgt j hj, Nat.sub_self]
        rfl
    · by_cases his : i = (s₁.locs eid).tableId
      · rw [his] at hj hr ⊢
        rw [hgetS] at hj hr ⊢
        rw [s3] at hj ⊢
        rw [s5] at hr
        rw [(s4 j hj).2 r hr]
        by_cases hrr : r = (s₁.locs eid).tableRow
        · rw [if_pos hrr]
          obtain ⟨hrowlt0, _⟩ := h.locA eid hs0
          have hrowlt : (s₁.locs eid).tableRow
              < Table.length (srcOf s₁ eid) := hrowlt0
          have hlast : Table.length (srcOf s₁ eid) - 1
              < Table.length (srcOf s₁ eid) := by omega
          obtain ⟨v, hv, hvc⟩ := h.typed _ hsrclt j hj
            (Table.length (srcOf s₁ eid) - 1) hlast
          exact ⟨v, hv, hvc⟩
        · rw [if_neg hrr]
          have hrb : r < Table.length (srcOf s₁ eid) := by omega
          obtain ⟨v, hv, hvc⟩ := h.typed _ hsrclt j hj r hrb
          exact ⟨v, hv, hvc⟩
      · rw [hgetO i hit his] at hj hr ⊢
        exact h.typed i hi j hj r hr
  · -- entCol
    intro i h0 hi r hr
    dsimp only at hi hr ⊢
    rw [hsetlen] at hi
    by_cases hit : i = tgtIdx
    · rw [hit] at h0 hr ⊢
      rw [hgetT] at hr ⊢
      rw [t5] at hr
      obtain ⟨v, hvcol, hvc, hvE⟩ := t4 0 h0T
      have hvE' : v = Value.ent eid := hvE (by rw [hTcs]; rfl)
      by_cases hrL : r < Table.length (s₁.tables.getD tgtIdx default)
      · obtain ⟨e, he, hle2⟩ := h.entCol tgtIdx h0 htgt r hrL
        refine ⟨e, ?_, ?_⟩
        · have hjb : r < ((s₁.tables.getD tgtIdx default).columns.getD 0
              []).length := by
            rw [h.aligned tgtIdx htgt 0 h0T]
            exact hrL
          rw [hvcol, List.get?_eq_getElem?, List.getElem?_append_left hjb,
            ← List.get?_eq_getElem?]
          exact he
        · have htide : (s₁.locs e).tableId = tgtIdx := by
            rw [hle2]
          have hne : e ≠ eid := by
            intro hc
            rw [hc] at htide
            exact hst htide
          have hdiff : (s₁.locs e).tableId ≠ (s₁.locs eid).tableId := by
            rw [htide]
            exact fun hc => hst hc.symm
          rw [if_neg hne, hLoc.2.1 e hne hdiff]
          exact hle2
      · have hrT : r = Table.length (s₁.tables.getD tgtIdx default) := by
          omega
        subst hrT
        refine ⟨eid, ?_, ?_⟩
        · rw [hvcol, hvE', List.get?_eq_getElem?, List.getElem?_append_right
            (le_of_eq (h.aligned tgtIdx htgt 0 h0T)),
            h.aligned tgtIdx htgt 0 h0T, Nat.sub_self]
          rfl
        · rw [if_pos rfl]
          rw [Loc.mk.injEq]
          exact ⟨htid, hrowcast⟩
    · by_cases his : i = (s₁.locs eid).tableId
      · rw [his] at hr ⊢
        rw [hgetS] at hr ⊢
        rw [s5] at hr
        obtain ⟨e, hcell, hne, hfl⟩ := hLoc.2.2.1 r hr
        refine ⟨e, hcell, ?_⟩
        rw [if_neg hne]
        exact hfl
      · rw [hgetO i hit his] at hr ⊢
        obtain ⟨e, hcell, hloc⟩ := h.entCol i h0 hi r hr
        have htide : (s₁.locs e).tableId = i := by
          rw [hloc]
        have hne : e ≠ eid := by
          intro hc
          rw [hc] at htide
          exact his htide.symm
        refine ⟨e, hcell, ?_⟩
        rw [if_neg hne, hLoc.2.1 e hne (by rw [htide]; exact his)]
        exact hloc
  · -- locA
    intro e he
    dsimp only at he ⊢
    by_cases heid : e = eid
    · subst heid
      rw [if_pos rfl] at he ⊢
      dsimp only at he ⊢
      rw [htid] at he ⊢
      rw [hrowcast, hgetT, t5]
      refine ⟨by omega, ?_⟩
      obtain ⟨v, hvcol, hvc, hvE⟩ := t4 0 h0T
      have hvE' : v = Value.ent e := hvE (by rw [hTcs]; rfl)
      rw [hvcol, hvE', List.get?_eq_getElem?, List.getElem?_append_right
        (le_of_eq (h.aligned tgtIdx htgt 0 h0T)),
        h.aligned tgtIdx htgt 0 h0T, Nat.sub_self]
      rfl
    · rw [if_neg heid] at he ⊢
      have htide := hLoc.1 e heid
      rw [htide] at he ⊢
      by_cases hsame : (s₁.locs e).tableId = (s₁.locs eid).tableId
      · obtain ⟨hb, hcell⟩ := hLoc.2.2.2 e heid hsame
        rw [hsame, hgetS]
        refine ⟨?_, hcell⟩
        rw [s5]
        exact hb
      · have hfl := hLoc.2.1 e heid hsame
        by_cases hit : (s₁.locs e).tableId = tgtIdx
        · obtain ⟨hr1, hr2⟩ := h.locA e he
          rw [hit] at hr1 hr2 ⊢
          rw [hgetT, t5, hfl]
          refine ⟨by omega, ?_⟩
          obtain ⟨v, hvcol, _, _⟩ := t4 0 h0T
          have hjb : (s₁.locs e).tableRow < ((s₁.tables.getD tgtIdx
              default).columns.getD 0 []).length := by
            rw [h.aligned tgtIdx htgt 0 h0T]
            exact hr1
          rw [hvcol, List.get?_eq_getElem?, List.getElem?_append_left hjb,
            ← List.get?_eq_getElem?]
          exact hr2
        · rw [hfl, hgetO _ hit hsame]
          exact h.locA e he
  · -- deadZero
    intro e he
    dsimp only at he ⊢
    by_cases heid : e = eid
    · rw [if_pos heid] at he
      dsimp only at he
      rw [htid] at he
      exact absurd he htgt0
    · rw [if_neg heid] at he ⊢
      have htide := hLoc.1 e heid
      rw [htide] at he
      have hdiff : (s₁.locs e).tableId ≠ (s₁.locs eid).tableId := by
        rw [he]
        exact fun hc => hs0 hc.symm
      rw [hLoc.2.1 e heid hdiff]
      exact h.deadZero e he
  · -- pendTyped
    exact h.pendTyped
  · -- locsFresh
    intro e hne2
    dsimp only at hne2 ⊢
    have hlt : eid < s₁.nextId := h.destsLt (eid, d) hmem
    have heid : e ≠ eid := by
      intro hc
      rw [hc] at hne2
      omega
    rw [if_neg heid]
    obtain ⟨hl1, hl2, hl3⟩ := h.locsFresh e hne2
    have hdiff : (s₁.locs e).tableId ≠ (s₁.locs eid).tableId := by
      rw [hl1]
      exact fun hc => hs0 hc.symm
    rw [hLoc.2.1 e heid hdiff]
    exact ⟨hl1, hl2, hl3⟩
  · -- destsLt
    exact h.destsLt
  · -- destsOdd
    exact h.destsOdd
  · -- cover
    intro e d' hmem2 hd2
    dsimp only at hmem2 ⊢
    by_cases heid : e = eid
    · subst heid
      have hdd : d' = d := nodup_fst_inj s₁.dests h.base.destsKeys e d' d
        hmem2 hmem
      rw [if_pos rfl]
      dsimp only
      rw [htid]
      refine ⟨Or.inl htgt0, ?_⟩
      intro j c hj hb hsz hcE
      left
      rw [hgetT, t2, harch]
      rw [hdd] at hb
      exact hb
    · rw [if_neg heid]
      obtain ⟨v1, v2⟩ := h.cover e d' hmem2 hd2
      have htide := hLoc.1 e heid
      constructor
      · rcases v1 with hv | hv
        · left
          rw [htide]
          exact hv
        · right
          exact hv
      · intro j c hj hb hsz hcE
        rcases v2 j c hj hb hsz hcE with hbit | hpend
        · left
          rw [htide, harchpres]
          exact hbit
        · right
          exact hpend

/-- One staged move preserves location/column consistency, whatever the
relation between source and target slot. -/
theorem CoreInv_moveStep (s₁ : WorldState) (h : CoreInv s₁)
    (eid d tgtIdx : Nat)
    (hmem : (eid, d) ∈ s₁.dests)
    (htgt : tgtIdx < s₁.tables.length)
    (harch : (s₁.tables.getD tgtIdx default).archetype = d)
    (hbase : BaseInv { s₁ with
      tables := (moveTables s₁.tables (s₁.locs eid).tableId tgtIdx
        ((s₁.locs eid).tableRow : Int)
        ((lookupMap s₁.pending eid).getD [])).tables,
      locs := fun e => if e = eid then
          ⟨(moveTables s₁.tables (s₁.locs eid).tableId tgtIdx
              ((s₁.locs eid).tableRow : Int)
              ((lookupMap s₁.pending eid).getD [])).retTableId,
            (moveTables s₁.tables (s₁.locs eid).tableId tgtIdx
              ((s₁.locs eid).tableRow : Int)
              ((lookupMap s₁.pending eid).getD [])).retRow.toNat⟩
        else applyFixups s₁.locs (moveTables s₁.tables (s₁.locs eid).tableId
          tgtIdx ((s₁.locs eid).tableRow : Int)
          ((lookupMap s₁.pending eid).getD [])).fixups e }) :
    CoreInv { s₁ with
      tables := (moveTables s₁.tables (s₁.locs eid).tableId tgtIdx
        ((s₁.locs eid).tableRow : Int)
        ((lookupMap s₁.pending eid).getD [])).tables,
      locs := fun e => if e = eid then
          ⟨(moveTables s₁.tables (s₁.locs eid).tableId tgtIdx
              ((s₁.locs eid).tableRow : Int)
              ((lookupMap s₁.pending eid).getD [])).retTableId,
            (moveTables s₁.tables (s₁.locs eid).tableId tgtIdx
              ((s₁.locs eid).tableRow : Int)
              ((lookupMap s₁.pending eid).getD [])).retRow.toNat⟩
        else applyFixups s₁.locs (moveTables s₁.tables (s₁.locs eid).tableId
          tgtIdx ((s₁.locs eid).tableRow : Int)
          ((lookupMap s₁.pending eid).getD [])).fixups e } := by
  by_cases hst : (s₁.locs eid).tableId = tgtIdx
  · exact CoreInv_moveStep_same s₁ h eid tgtIdx hst hbase
  · by_cases hd0 : d = 0
    · exact CoreInv_moveStep_cross_despawn s₁ h eid d tgtIdx hmem htgt harch
        hd0 hst hbase
    · by_cases hs0 : (s₁.locs eid).tableId = 0
      · exact CoreInv_moveStep_cross_spawn s₁ h eid d tgtIdx hmem htgt harch
          hd0 hs0 hst hbase
      · exact CoreInv_moveStep_cross_grow s₁ h eid d tgtIdx hmem htgt harch
          hd0 hs0 hst hbase

/-- One iteration of `flush` preserves location/column consistency. -/
theorem CoreInv_flushStep (s : WorldState) (ed : Nat × Nat) (h : CoreInv s)
    (hmem : ed ∈ s.dests) : CoreInv (flushStep s ed) := by
  have hd : ed.2 < 2 ^ s.components.length := h.base.destsBound ed hmem
  have hodd : ed.2 = 0 ∨ ed.2 % 2 = 1 := h.destsOdd ed hmem
  obtain ⟨hinv₁, htgt, harch, hcomps, hlen, hpres, hlocs, hdests, hpend,
    hnext⟩ := getTableW_spec s ed.2 h.base hd
  have h₁ : CoreInv (getTableW s ed.2).2 := CoreInv_getTableW s ed.2 h hd hodd
  have hbase := (BaseInv_flushStep s ed h.base hd).1
  have hEq : flushStep s ed = { (getTableW s ed.2).2 with
      tables := (moveTables (getTableW s ed.2).2.tables
        (((getTableW s ed.2).2.locs ed.1).tableId) (getTableW s ed.2).1
        ((((getTableW s ed.2).2.locs ed.1).tableRow : Nat) : Int)
        ((lookupMap (getTableW s ed.2).2.pending ed.1).getD [])).tables,
      locs := fun e => if e = ed.1 then
          ⟨(moveTables (getTableW s ed.2).2.tables
              (((getTableW s ed.2).2.locs ed.1).tableId)
              (getTableW s ed.2).1
              ((((getTableW s ed.2).2.locs ed.1).tableRow : Nat) : Int)
              ((lookupMap (getTableW s ed.2).2.pending ed.1).getD
                [])).retTableId,
            (moveTables (getTableW s ed.2).2.tables
              (((getTableW s ed.2).2.locs ed.1).tableId)
              (getTableW s ed.2).1
              ((((getTableW s ed.2).2.locs ed.1).tableRow : Nat) : Int)
              ((lookupMap (getTableW s ed.2).2.pending ed.1).getD
                [])).retRow.toNat⟩
        else applyFixups (getTableW s ed.2).2.locs
          (moveTables (getTableW s ed.2).2.tables
            (((getTableW s ed.2).2.locs ed.1).tableId)
            (getTableW s ed.2).1
            ((((getTableW s ed.2).2.locs ed.1).tableRow : Nat) : Int)
            ((lookupMap (getTableW s ed.2).2.pending ed.1).getD
              [])).fixups e } := by
    simp only [flushStep]
    rw [hlocs, hpend]
  rw [hEq]
  exact CoreInv_moveStep (getTableW s ed.2).2 h₁ ed.1 ed.2
    (getTableW s ed.2).1 (by rw [hdests]; exact hmem) htgt harch
    (by rw [hEq] at hbase; exact hbase)

/-- Folding `flushStep` over staged pairs drawn from the current destination
list preserves location/column consistency and the destination list. -/
theorem CoreInv_flushFold (l : List (Nat × Nat)) (s : WorldState)
    (h : CoreInv s) (hl : ∀ p ∈ l, p ∈ s.dests) :
    CoreInv (l.foldl flushStep s) ∧ (l.foldl flushStep s).dests = s.dests := by
  induction l generalizing s with
  | nil => exact ⟨h, rfl⟩
  | cons p rest ih =>
      rw [List.foldl_cons]
      have hp := hl p (List.mem_cons_self p rest)
      have hstep := CoreInv_flushStep s p h hp
      have hdests := (BaseInv_flushStep s p h.base
        (h.base.destsBound p hp)).2.1
      obtain ⟨hc, hd⟩ := ih (flushStep s p) hstep
        (fun q hq => by rw [hdests]; exact hl q (List.mem_cons_of_mem _ hq))
      refine ⟨hc, ?_⟩
      rw [hd, hdests]

/-- `Entities.flush()` preserves location/column consistency. -/
theorem CoreInv_flushW (s : WorldState) (h : CoreInv s) :
    CoreInv (flushW s) := by
  obtain ⟨hc, _⟩ := CoreInv_flushFold s.dests s h (fun p hp => hp)
  refine ⟨(BaseInv_flushW s h.base).1, ?_, ?_, ?_, ?_, ?_, ?_, ?_, ?_, ?_,
    ?_, ?_⟩
  · exact hc.oddT
  · exact hc.aligned
  · exact hc.typed
  · exact hc.entCol
  · exact hc.locA
  · exact hc.deadZero
  · intro p hp
    exact absurd hp (List.not_mem_nil p)
  · intro e he
    exact ⟨(hc.locsFresh e he).1, rfl, rfl⟩
  · intro p hp
    exact absurd hp (List.not_mem_nil p)
  · intro p hp
    exact absurd hp (List.not_mem_nil p)
  · intro e d hmem hd
    exact absurd hmem (List.not_mem_nil (e, d))

/-- Strengthened `mapSet` membership: a member is the written pair or an old
member whose key differs from the written one. -/
theorem mem_mapSet_strong {α : Type} (m : List (Nat × α)) (k : Nat) (v : α)
    (p : Nat × α) (hp : p ∈ mapSet m k v) :
    p = (k, v) ∨ (p ∈ m ∧ ¬p.1 = k) := by
  unfold mapSet at hp
  by_cases hany : m.any (fun q => q.1 = k)
  · rw [if_pos hany] at hp
    rcases List.mem_map.mp hp with ⟨q, hq, hqe⟩
    by_cases hqk : q.1 = k
    · rw [if_pos hqk] at hqe
      exact Or.inl hqe.symm
    · rw [if_neg hqk] at hqe
      refine Or.inr ⟨hqe ▸ hq, ?_⟩
      rw [← hqe]
      exact hqk
  · rw [if_neg hany] at hp
    rcases List.mem_append.mp hp with h₁ | h₂
    · refine Or.inr ⟨h₁, ?_⟩
      intro hc
      rw [List.any_eq_true] at hany
      exact hany ⟨p, h₁, by simpa using hc⟩
    · left
      simpa using h₂

/-- The written pair is a member of `mapSet`. -/
theorem mapSet_mem_self {α : Type} (m : List (Nat × α)) (k : Nat) (v : α) :
    (k, v) ∈ mapSet m k v := by
  have hl := lookupMap_mapSet_same m k v
  unfold lookupMap at hl
  cases hf : (mapSet m k v).find? (fun p => p.1 = k) with
  | none =>
      rw [hf] at hl
      exact Option.noConfusion hl
  | some q =>
      rw [hf] at hl
      have hq2 : q.2 = v := by simpa using hl
      have hqm := List.mem_of_find?_eq_some hf
      have hq1 : q.1 = k := by
        have := List.find?_some hf
        simpa using this
      have hqe : q = (k, v) := by
        rw [← hq1, ← hq2]
      rw [← hqe]
      exact hqm

/-- Transport of location/column consistency to a state with the same tables
and locations: only the staging maps, registry and `nextId` must be
re-checked. -/
theorem CoreInv_stage (s s' : WorldState) (h : CoreInv s)
    (hbase : BaseInv s')
    (ht : s'.tables = s.tables) (hl : s'.locs = s.locs)
    (hp : ∀ p ∈ s'.pending, ∀ v ∈ p.2,
        v = Value.ent p.1 ∨ ∃ c x, v = Value.comp c x ∧ c ≠ EntityC)
    (hfr : ∀ e, s'.nextId ≤ e →
        s.locs e = ⟨0, 0⟩ ∧ lookupMap s'.pending e = none
          ∧ lookupMap s'.dests e = none)
    (hdlt : ∀ p ∈ s'.dests, p.1 < s'.nextId)
    (hdo : ∀ p ∈ s'.dests, p.2 = 0 ∨ p.2 % 2 = 1)
    (hcov : ∀ e d, (e, d) ∈ s'.dests → d ≠ 0 →
        ((s.locs e).tableId ≠ 0
          ∨ Value.ent e ∈ (lookupMap s'.pending e).getD [])
        ∧ (∀ j c, s'.components.get? j = some c → d.testBit j →
            isSizedComponent c = true → c ≠ EntityC →
            ((s.tables.getD (s.locs e).tableId default).archetype.testBit j
              ∨ ∃ v ∈ (lookupMap s'.pending e).getD [], v.ctor = c))) :
    CoreInv s' := by
  refine ⟨hbase, ?_, ?_, ?_, ?_, ?_, ?_, hp, ?_, hdlt, hdo, ?_⟩
  · intro i h0 hi
    rw [ht] at hi ⊢
    exact h.oddT i h0 hi
  · intro i hi
    rw [ht] at hi ⊢
    exact h.aligned i hi
  · intro i hi
    rw [ht] at hi ⊢
    exact h.typed i hi
  · intro i h0 hi r hr
    rw [ht] at hi hr ⊢
    rw [hl]
    exact h.entCol i h0 hi r hr
  · intro e he
    rw [hl] at he ⊢
    rw [ht]
    exact h.locA e he
  · intro e
    rw [hl]
    exact h.deadZero e
  · intro e he
    rw [hl]
    exact hfr e he
  · intro e d hmem hd
    rw [hl, ht]
    exact hcov e d hmem hd

/-- The coverage condition tolerates registry growth: staged destinations are
bounded by the old registry, so no new bit can be set. -/
theorem cover_mono (s : WorldState) (h : CoreInv s) (e d : Nat)
    (ext : List Cls) (hmem : (e, d) ∈ s.dests) (hd : d ≠ 0) :
    ∀ j c, (s.components ++ ext).get? j = some c → d.testBit j →
      isSizedComponent c = true → c ≠ EntityC →
      ((s.tables.getD (s.locs e).tableId default).archetype.testBit j
        ∨ ∃ v ∈ (lookupMap s.pending e).getD [], v.ctor = c) := by
  intro j c hj hb hsz hcE
  have hjlt : j < s.components.length := by
    by_contra hge
    push_neg at hge
    rw [testBit_false_of_lt d s.components.length j
      (h.base.destsBound (e, d) hmem) hge] at hb
    exact Bool.noConfusion hb
  have hj' : s.components.get? j = some c := by
    rw [List.get?_eq_getElem?] at hj ⊢
    rw [List.getElem?_append_left hjlt] at hj
    exact hj
  exact (h.cover e d hmem hd).2 j c hj' hb hsz hcE

/-- A well-formed `spawn` preserves location/column consistency: the staged
archetype's bits are the Entity base bit plus the spawned components' bits,
and the staged payload holds the entity handle and those components. -/
theorem CoreInv_spawnW (s : WorldState) (cs : List Value) (h : CoreInv s)
    (hwf : wfOp s (Op.spawn cs) = true) :
    CoreInv (spawnW s cs).2 := by
  have hv : ∀ v ∈ cs, ∃ c x, v = Value.comp c x ∧ c ≠ EntityC := by
    intro v hvm
    have hall : cs.all (fun v => match v with
        | Value.ent _ => false
        | Value.comp c _ => decide (c ≠ EntityC)) = true := hwf
    have hvres := List.all_eq_true.mp hall v hvm
    cases v with
    | ent e => exact Bool.noConfusion hvres
    | comp c x => exact ⟨c, x, rfl, by simpa using hvres⟩
  have hlen0 : 0 < s.components.length := by
    have hrh := h.base.regHead
    rw [List.get?_eq_getElem?] at hrh
    by_contra hc
    push_neg at hc
    rw [List.getElem?_eq_none (by omega)] at hrh
    exact Option.noConfusion hrh
  have hone : (1 : Nat) < 2 ^ s.components.length :=
    Nat.one_lt_two_pow_iff.mpr (by omega)
  have hinv₁ : BaseInv { s with nextId := s.nextId + 1, dests := mapSet s.dests s.nextId 1, pending := s.pending, locs := s.locs } :=
    BaseInv_update s _ _ _ _ h.base (mapSet_dests_bound s h.base _ 1 hone)
      (mapSet_keys_nodup _ _ _ h.base.destsKeys) h.base.pendKeys
      h.base.locsLt
  have ha0 : getEntityArchetype { s with
      nextId := s.nextId + 1,
      dests := mapSet s.dests s.nextId 1 } s.nextId = 1 := by
    unfold getEntityArchetype
    rw [lookupMap_mapSet_same]
  obtain ⟨⟨ext, hext⟩, hinv₂, hb₂, ho₂, hlen₂, hbits⟩ :=
    archFoldl_spec (cs.map Value.ctor) 1
      { s with nextId := s.nextId + 1, dests := mapSet s.dests s.nextId 1 }
      hinv₁
  have hself : (spawnW s cs).2 = { s with
      components := s.components ++ ext,
      nextId := s.nextId + 1,
      dests := mapSet (mapSet s.dests s.nextId 1) s.nextId
        ((cs.map Value.ctor).foldl archFold (1, { s with
          nextId := s.nextId + 1,
          dests := mapSet s.dests s.nextId 1 })).1,
      pending := mapSet s.pending s.nextId (Value.ent s.nextId :: cs) } := by
    simp only [spawnW]
    rw [List.foldl_map Value.ctor archFold cs _ |>.symm, ha0, hext]
  rw [hself]
  refine CoreInv_stage s _ h ?_ rfl rfl ?_ ?_ ?_ ?_ ?_
  · rw [← hself]
    exact BaseInv_spawnW s cs h.base
  · -- pending payloads stay well-typed
    intro p hp' v hvm
    dsimp only at hp'
    rcases mem_mapSet_strong _ _ _ p hp' with hpe | ⟨hpm, _⟩
    · rw [hpe] at hvm ⊢
      dsimp only at hvm ⊢
      rcases List.mem_cons.mp hvm with hv0 | hvrest
      · left
        rw [hv0]
      · right
        exact hv v hvrest
    · exact h.pendTyped p hpm v hvm
  · -- fresh ids stay untouched
    intro e he
    dsimp only at he ⊢
    have he' : s.nextId ≤ e := by omega
    obtain ⟨hl1, hl2, hl3⟩ := h.locsFresh e he'
    have hne : s.nextId ≠ e := by omega
    refine ⟨hl1, ?_, ?_⟩
    · rw [lookupMap_mapSet_ne _ _ _ _ hne]
      exact hl2
    · rw [lookupMap_mapSet_ne _ _ _ _ hne, lookupMap_mapSet_ne _ _ _ _ hne]
      exact hl3
  · -- destination keys stay below nextId
    intro p hp'
    dsimp only at hp' ⊢
    rcases mem_mapSet_strong _ _ _ p hp' with hpe | ⟨hpm, _⟩
    · rw [hpe]
      dsimp only
      omega
    · rcases mem_mapSet_strong _ _ _ p hpm with hpe | ⟨hpm2, _⟩
      · rw [hpe]
        dsimp only
        omega
      · have := h.destsLt p hpm2
        omega
  · -- staged destinations stay 0 or odd
    intro p hp'
    dsimp only at hp'
    rcases mem_mapSet_strong _ _ _ p hp' with hpe | ⟨hpm, _⟩
    · right
      rw [hpe]
      exact ho₂ rfl
    · rcases mem_mapSet_strong _ _ _ p hpm with hpe | ⟨hpm2, _⟩
      · right
        rw [hpe]
        rfl
      · exact h.destsOdd p hpm2
  · -- coverage of the staged bits
    intro e d hmem hd
    dsimp only at hmem ⊢
    rcases mem_mapSet_strong _ _ _ (e, d) hmem with hpe | ⟨hpm, hpk⟩
    · have he : e = s.nextId := congrArg Prod.fst hpe
      have hdA : d = ((cs.map Value.ctor).foldl archFold (1, { s with
          nextId := s.nextId + 1,
          dests := mapSet s.dests s.nextId 1 })).1 :=
        congrArg Prod.snd hpe
      subst he
      constructor
      · right
        rw [lookupMap_mapSet_same, Option.getD_some]
        exact List.mem_cons_self _ _
      · intro j c hj hb hsz hcE
        right
        rw [hdA] at hb
        rcases (hbits j).mp hb with h1 | ⟨c', hc', hjc⟩
        · exfalso
          have hj0 : j = 0 := by
            by_contra hj0
            rw [testBit_false_of_lt 1 1 j (by norm_num) (by omega)] at h1
            exact Bool.noConfusion h1
          subst hj0
          have hrh : (s.components ++ ext).get? 0 = some EntityC := by
            have hr2 := hinv₂.regHead
            rw [hext] at hr2
            exact hr2
          rw [hrh] at hj
          exact hcE (Option.some_inj.mp hj).symm
        · have hcc : c = c' := by
            rw [hext] at hjc
            dsimp only at hjc
            rw [hj] at hjc
            exact Option.some_inj.mp hjc
          rcases List.mem_map.mp hc' with ⟨v, hvm, hvc⟩
          refine ⟨v, ?_, ?_⟩
          · rw [lookupMap_mapSet_same, Option.getD_some]
            exact List.mem_cons_of_mem _ hvm
          · rw [hcc]
            exact hvc
    · rcases mem_mapSet_strong _ _ _ (e, d) hpm with hpe | ⟨hpm2, _⟩
      · exact absurd (congrArg Prod.fst hpe) hpk
      · have hene : s.nextId ≠ e := fun hc => hpk hc.symm
        obtain ⟨hc1, hc2⟩ := h.cover e d hpm2 hd
        constructor
        · rcases hc1 with hx | hx
          · exact Or.inl hx
          · right
            rw [lookupMap_mapSet_ne _ _ _ _ hene]
            exact hx
        · intro j c hj hb hsz hcE
          rw [lookupMap_mapSet_ne _ _ _ _ hene]
          exact cover_mono s h e d ext hpm2 hd j c hj hb hsz hcE

/-- `insert` can only rewrite the staged value of its own class: the payload
after `insert` still holds a value for every class previously staged, and the
Entity handle survives untouched. -/
theorem insert_payload_sup (s : WorldState) (e : Nat) (v : Value)
    (hvne : v.ctor ≠ EntityC) :
    ∀ u ∈ (lookupMap s.pending e).getD [],
      ∃ u' ∈ (lookupMap (insertW s e v).pending e).getD [],
        u'.ctor = u.ctor ∧ (u = Value.ent e → u' = Value.ent e) := by
  intro u hu
  rw [(insertW_fields s e v).2.2.2, lookupMap_mapSet_same, Option.getD_some]
  by_cases hany : (((lookupMap s.pending e).getD []).any
      (fun c => c.ctor = v.ctor)) = true
  · rw [if_pos hany]
    by_cases huv : u.ctor = v.ctor
    · refine ⟨v, List.mem_map.mpr ⟨u, hu, by rw [if_pos huv]⟩, huv.symm, ?_⟩
      intro hue
      exfalso
      apply hvne
      rw [← huv, hue]
      rfl
    · refine ⟨u, List.mem_map.mpr ⟨u, hu, by rw [if_neg huv]⟩, rfl,
        fun hue => hue⟩
  · rw [if_neg hany]
    exact ⟨u, List.mem_append_left _ hu, rfl, fun hue => hue⟩

/-- A well-formed `insert` preserves location/column consistency: the staged
destination gains only the inserted class's bit, whose value is staged in the
pending payload. -/
theorem CoreInv_insertW (s : WorldState) (eid : Nat) (v : Value)
    (h : CoreInv s) (hwf : wfOp s (Op.insert eid v) = true) :
    CoreInv (insertW s eid v) := by
  simp only [wfOp] at hwf
  rw [Bool.and_eq_true, Bool.and_eq_true] at hwf
  have hlt : eid < s.nextId := by
    have := hwf.1.1
    simpa using this
  have hodd : getEntityArchetype s eid % 2 = 1 := by
    have := hwf.1.2
    simpa using this
  have hv : ∃ c x, v = Value.comp c x ∧ c ≠ EntityC := by
    have hm := hwf.2
    cases v with
    | ent e => exact Bool.noConfusion hm
    | comp c x => exact ⟨c, x, rfl, by simpa using hm⟩
  have hvne : v.ctor ≠ EntityC := by
    obtain ⟨c, x, hcx, hcne⟩ := hv
    rw [hcx]
    exact hcne
  obtain ⟨⟨ext, hext⟩, hilt, higet, hile⟩ := getComponentIdW_spec s v.ctor
  obtain ⟨hf1, hf2, hf3, hf4⟩ := insertW_fields s eid v
  have hnext : (insertW s eid v).nextId = s.nextId := by
    simp only [insertW, insertTagW]
    rw [hext]
  have hcomp : (insertW s eid v).components = s.components ++ ext := by
    rw [hf1, hext]
  refine CoreInv_stage s _ h (BaseInv_insertW s eid v h.base) hf3
    (insertW_locs s eid v) ?_ ?_ ?_ ?_ ?_
  · -- pending payloads stay well-typed
    intro p hp' u hu
    rw [hf4] at hp'
    rcases mem_mapSet_strong _ _ _ p hp' with hpe | ⟨hpm, _⟩
    · rw [hpe] at hu ⊢
      dsimp only at hu ⊢
      by_cases hany : (((lookupMap s.pending eid).getD []).any
          (fun c => c.ctor = v.ctor)) = true
      · rw [if_pos hany] at hu
        rcases List.mem_map.mp hu with ⟨w, hwm, hwe⟩
        by_cases hwv : w.ctor = v.ctor
        · rw [if_pos hwv] at hwe
          right
          obtain ⟨c, x, hcx, hcne⟩ := hv
          exact ⟨c, x, by rw [← hwe]; exact hcx, hcne⟩
        · rw [if_neg hwv] at hwe
          rw [← hwe]
          exact pending_payload_typed s h eid w hwm
      · rw [if_neg hany] at hu
        rcases List.mem_append.mp hu with hu1 | hu2
        · exact pending_payload_typed s h eid u hu1
        · right
          obtain ⟨c, x, hcx, hcne⟩ := hv
          rw [List.mem_singleton.mp hu2]
          exact ⟨c, x, hcx, hcne⟩
    · exact h.pendTyped p hpm u hu
  · -- fresh ids stay untouched
    intro e he
    rw [hnext] at he
    rw [hf4, hf2]
    obtain ⟨hl1, hl2, hl3⟩ := h.locsFresh e he
    have hne : eid ≠ e := by omega
    refine ⟨hl1, ?_, ?_⟩
    · rw [lookupMap_mapSet_ne _ _ _ _ hne]
      exact hl2
    · rw [lookupMap_mapSet_ne _ _ _ _ hne]
      exact hl3
  · -- destination keys stay below nextId
    intro p hp'
    rw [hf2] at hp'
    rw [hnext]
    rcases mem_mapSet_strong _ _ _ p hp' with hpe | ⟨hpm, _⟩
    · rw [hpe]
      exact hlt
    · exact h.destsLt p hpm
  · -- staged destinations stay 0 or odd
    intro p hp'
    rw [hf2] at hp'
    rcases mem_mapSet_strong _ _ _ p hp' with hpe | ⟨hpm, _⟩
    · right
      rw [hpe]
      exact or_mod_two_one _ _ hodd
    · exact h.destsOdd p hpm
  · -- coverage of the staged bits
    intro e d hmem hd
    rw [hf2] at hmem
    rw [hf4]
    rcases mem_mapSet_strong _ _ _ (e, d) hmem with hpe | ⟨hpm, hpk⟩
    · have he : e = eid := congrArg Prod.fst hpe
      have hdA : d = getEntityArchetype s eid
          ||| (1 <<< (getComponentIdW s v.ctor).1) := congrArg Prod.snd hpe
      subst he
      constructor
      · -- the entity handle is reachable
        cases hld : lookupMap s.dests e with
        | some dold =>
            have hcur : getEntityArchetype s e = dold := by
              unfold getEntityArchetype
              rw [hld]
            have hdold : dold ≠ 0 := by
              rw [hcur] at hodd
              omega
            rcases (h.cover e dold (lookupMap_mem _ _ _ hld) hdold).1 with
              hx | hx
            · exact Or.inl hx
            · right
              obtain ⟨u', hu'm, _, hu'e⟩ := insert_payload_sup s e v hvne
                (Value.ent e) hx
              rw [(insertW_fields s e v).2.2.2, lookupMap_mapSet_same,
                Option.getD_some] at hu'm
              rw [lookupMap_mapSet_same, Option.getD_some, ← hu'e rfl]
              exact hu'm
        | none =>
            left
            intro hc
            have hcur : getEntityArchetype s e
                = (s.tables.getD (s.locs e).tableId default).archetype := by
              unfold getEntityArchetype getTableArchetype
              rw [hld]
            rw [hcur, hc, BaseInv_sentinel_getD s h.base] at hodd
            simp [createTable, mkTable] at hodd
      · intro j c hj hb hsz hcE
        rw [hcomp] at hj
        rw [hdA, Nat.testBit_lor] at hb
        rw [Bool.or_eq_true] at hb
        rcases hb with hbc | hbi
        · -- a bit of the previous staged-or-current archetype
          cases hld : lookupMap s.dests e with
          | some dold =>
              have hcur : getEntityArchetype s e = dold := by
                unfold getEntityArchetype
                rw [hld]
              have hdold : dold ≠ 0 := by
                rw [hcur] at hodd
                omega
              rw [hcur] at hbc
              rcases cover_mono s h e dold ext (lookupMap_mem _ _ _ hld)
                hdold j c hj hbc hsz hcE with hx | ⟨u, hum, huc⟩
              · exact Or.inl hx
              · right
                obtain ⟨u', hu'm, hu'c, _⟩ := insert_payload_sup s e v hvne
                  u hum
                rw [(insertW_fields s e v).2.2.2, lookupMap_mapSet_same,
                  Option.getD_some] at hu'm
                rw [lookupMap_mapSet_same, Option.getD_some]
                exact ⟨u', hu'm, hu'c.trans huc⟩
          | none =>
              left
              have hcur : getEntityArchetype s e
                  = (s.tables.getD (s.locs e).tableId default).archetype := by
                unfold getEntityArchetype getTableArchetype
                rw [hld]
              rw [hcur] at hbc
              exact hbc
        · -- the inserted class's own bit
          right
          rw [testBit_one_shiftLeft] at hbi
          have hij : (getComponentIdW s v.ctor).1 = j := by simpa using hbi
          have hjc : (s.components ++ ext).get? j = some v.ctor := by
            rw [← hij]
            have := higet
            rw [hext] at this
            exact this
          have hcv : c = v.ctor := by
            rw [hj] at hjc
            exact Option.some_inj.mp hjc
          refine ⟨v, ?_, hcv.symm⟩
          have hvm := insertW_pending_mem s e v
          rw [(insertW_fields s e v).2.2.2, lookupMap_mapSet_same,
            Option.getD_some] at hvm
          rw [lookupMap_mapSet_same, Option.getD_some]
          exact hvm
    · -- an old staged entity, key unchanged
      have hene : eid ≠ e := fun hc => hpk hc.symm
      obtain ⟨hc1, hc2⟩ := h.cover e d hpm hd
      constructor
      · rcases hc1 with hx | hx
        · exact Or.inl hx
        · right
          rw [lookupMap_mapSet_ne _ _ _ _ hene]
          exact hx
      · intro j c hj hb hsz hcE
        rw [lookupMap_mapSet_ne _ _ _ _ hene]
        rw [hcomp] at hj
        exact cover_mono s h e d ext hpm hd j c hj hb hsz hcE

/-- Clearing a non-zero bit keeps a number odd. -/
theorem odd_ldiff (a i : Nat) (ha : a % 2 = 1) (hi : i ≠ 0) :
    Nat.ldiff a (1 <<< i) % 2 = 1 := by
  have ht : (Nat.ldiff a (1 <<< i)).testBit 0 = true := by
    rw [Nat.testBit_ldiff, testBit_one_shiftLeft, Nat.testBit_zero]
    simp [ha, hi]
  rw [Nat.testBit_zero] at ht
  simpa using ht

/-- A well-formed `remove` preserves location/column consistency: it only
clears the removed class's bit from the staged destination. -/
theorem CoreInv_removeW (s : WorldState) (eid : Nat) (c : Cls)
    (h : CoreInv s) (hwf : wfOp s (Op.remove eid c) = true) :
    CoreInv (removeW s eid c) := by
  simp only [wfOp] at hwf
  rw [Bool.and_eq_true, Bool.and_eq_true] at hwf
  have hlt : eid < s.nextId := by
    have := hwf.1.1
    simpa using this
  have hodd : getEntityArchetype s eid % 2 = 1 := by
    have := hwf.1.2
    simpa using this
  have hcne : c ≠ EntityC := by
    have := hwf.2
    simpa using this
  obtain ⟨⟨ext, hext⟩, hilt, higet, hile⟩ := getComponentIdW_spec s c
  obtain ⟨hf1, hf2, hf3, hf4⟩ := removeW_fields s eid c
  have hnext : (removeW s eid c).nextId = s.nextId := by
    simp only [removeW]
    rw [hext]
  have hcomp : (removeW s eid c).components = s.components ++ ext := by
    rw [hf1, hext]
  have hlen0 : 0 < s.components.length := by
    have hrh := h.base.regHead
    rw [List.get?_eq_getElem?] at hrh
    by_contra hcon
    push_neg at hcon
    rw [List.getElem?_eq_none (by omega)] at hrh
    exact Option.noConfusion hrh
  have hi0 : (getComponentIdW s c).1 ≠ 0 := by
    intro hc0
    have hg := higet
    rw [hext, hc0] at hg
    dsimp only at hg
    have hrh : (s.components ++ ext).get? 0 = some EntityC := by
      rw [List.get?_eq_getElem?, List.getElem?_append_left hlen0,
        ← List.get?_eq_getElem?]
      exact h.base.regHead
    rw [hrh] at hg
    exact hcne (Option.some_inj.mp hg).symm
  refine CoreInv_stage s _ h (BaseInv_removeW s eid c h.base) hf3
    (removeW_locs s eid c) ?_ ?_ ?_ ?_ ?_
  · -- pending untouched
    rw [hf4]
    exact h.pendTyped
  · -- fresh ids stay untouched
    intro e he
    rw [hnext] at he
    rw [hf4, hf2]
    obtain ⟨hl1, hl2, hl3⟩ := h.locsFresh e he
    have hne : eid ≠ e := by omega
    refine ⟨hl1, hl2, ?_⟩
    rw [lookupMap_mapSet_ne _ _ _ _ hne]
    exact hl3
  · -- destination keys stay below nextId
    intro p hp'
    rw [hf2] at hp'
    rw [hnext]
    rcases mem_mapSet_strong _ _ _ p hp' with hpe | ⟨hpm, _⟩
    · rw [hpe]
      exact hlt
    · exact h.destsLt p hpm
  · -- staged destinations stay 0 or odd
    intro p hp'
    rw [hf2] at hp'
    rcases mem_mapSet_strong _ _ _ p hp' with hpe | ⟨hpm, _⟩
    · right
      rw [hpe]
      exact odd_ldiff _ _ hodd hi0
    · exact h.destsOdd p hpm
  · -- coverage of the staged bits
    intro e d hmem hd
    rw [hf2] at hmem
    rw [hf4]
    rcases mem_mapSet_strong _ _ _ (e, d) hmem with hpe | ⟨hpm, hpk⟩
    · have he : e = eid := congrArg Prod.fst hpe
      have hdA : d = Nat.ldiff (getEntityArchetype s eid)
          (1 <<< (getComponentIdW s c).1) := congrArg Prod.snd hpe
      subst he
      constructor
      · cases hld : lookupMap s.dests e with
        | some dold =>
            have hcur : getEntityArchetype s e = dold := by
              unfold getEntityArchetype
              rw [hld]
            have hdold : dold ≠ 0 := by
              rw [hcur] at hodd
              omega
            exact (h.cover e dold (lookupMap_mem _ _ _ hld) hdold).1
        | none =>
            left
            intro hc0
            have hcur : getEntityArchetype s e
                = (s.tables.getD (s.locs e).tableId default).archetype := by
              unfold getEntityArchetype getTableArchetype
              rw [hld]
            rw [hcur, hc0, BaseInv_sentinel_getD s h.base] at hodd
            simp [createTable, mkTable] at hodd
      · intro j c' hj hb hsz hcE
        rw [hcomp] at hj
        rw [hdA, Nat.testBit_ldiff, Bool.and_eq_true] at hb
        have hbc := hb.1
        cases hld : lookupMap s.dests e with
        | some dold =>
            have hcur : getEntityArchetype s e = dold := by
              unfold getEntityArchetype
              rw [hld]
            have hdold : dold ≠ 0 := by
              rw [hcur] at hodd
              omega
            rw [hcur] at hbc
            exact cover_mono s h e dold ext (lookupMap_mem _ _ _ hld)
              hdold j c' hj hbc hsz hcE
        | none =>
            left
            have hcur : getEntityArchetype s e
                = (s.tables.getD (s.locs e).tableId default).archetype := by
              unfold getEntityArchetype getTableArchetype
              rw [hld]
            rw [hcur] at hbc
            exact hbc
    · obtain ⟨hc1, hc2⟩ := h.cover e d hpm hd
      refine ⟨hc1, ?_⟩
      intro j c' hj hb hsz hcE
      rw [hcomp] at hj
      exact cover_mono s h e d ext hpm hd j c' hj hb hsz hcE

/-- Field view of `despawn`. -/
theorem despawnW_fields (s : WorldState) (eid : Nat) :
    (despawnW s eid).tables = s.tables
    ∧ (despawnW s eid).components = s.components
    ∧ (despawnW s eid).nextId = s.nextId := by
  simp only [despawnW]
  cases hp : lookupMap s.pending eid <;> exact ⟨rfl, rfl, rfl⟩

/-- `despawn` leaves other entities' payloads alone. -/
theorem despawnW_pending_ne (s : WorldState) (eid e : Nat) (hne : eid ≠ e) :
    lookupMap (despawnW s eid).pending e = lookupMap s.pending e := by
  simp only [despawnW]
  cases hp : lookupMap s.pending eid with
  | some vs =>
      dsimp only
      rw [lookupMap_mapSet_ne _ _ _ _ hne]
  | none => rfl

/-- Any staged payload after `despawn` is an old one or empty. -/
theorem despawnW_pending_mem (s : WorldState) (eid : Nat)
    (p : Nat × List Value) (hp : p ∈ (despawnW s eid).pending) :
    p ∈ s.pending ∨ p.2 = [] := by
  revert hp
  simp only [despawnW]
  cases hl : lookupMap s.pending eid with
  | some vs =>
      dsimp only
      intro hp
      rcases mem_mapSet_strong _ _ _ p hp with hpe | ⟨hpm, _⟩
      · right
        rw [hpe]
      · exact Or.inl hpm
  | none =>
      intro hp
      exact Or.inl hp

/-- A well-formed `despawn` preserves location/column consistency: the staged
destination becomes `0`, which the coverage condition ignores. -/
theorem CoreInv_despawnW (s : WorldState) (eid : Nat)
    (h : CoreInv s) (hwf : wfOp s (Op.despawn eid) = true) :
    CoreInv (despawnW s eid) := by
  simp only [wfOp] at hwf
  have hlt : eid < s.nextId := by simpa using hwf
  obtain ⟨hf1, hf2, hf3⟩ := despawnW_fields s eid
  have hdests := despawnW_dests s eid
  refine CoreInv_stage s _ h (BaseInv_despawnW s eid h.base) hf1
    (despawnW_locs s eid) ?_ ?_ ?_ ?_ ?_
  · -- pending payloads stay well-typed
    intro p hp' v hv
    rcases despawnW_pending_mem s eid p hp' with hpm | hnil
    · exact h.pendTyped p hpm v hv
    · rw [hnil] at hv
      exact absurd hv (List.not_mem_nil v)
  · -- fresh ids stay untouched
    intro e he
    rw [hf3] at he
    rw [hdests]
    obtain ⟨hl1, hl2, hl3⟩ := h.locsFresh e he
    have hne : eid ≠ e := by omega
    refine ⟨hl1, ?_, ?_⟩
    · rw [despawnW_pending_ne s eid e hne]
      exact hl2
    · rw [lookupMap_mapSet_ne _ _ _ _ hne]
      exact hl3
  · -- destination keys stay below nextId
    intro p hp'
    rw [hdests] at hp'
    rw [hf3]
    rcases mem_mapSet_strong _ _ _ p hp' with hpe | ⟨hpm, _⟩
    · rw [hpe]
      exact hlt
    · exact h.destsLt p hpm
  · -- staged destinations stay 0 or odd
    intro p hp'
    rw [hdests] at hp'
    rcases mem_mapSet_strong _ _ _ p hp' with hpe | ⟨hpm, _⟩
    · left
      rw [hpe]
    · exact h.destsOdd p hpm
  · -- coverage of the staged bits
    intro e d hmem hd
    rw [hdests] at hmem
    rcases mem_mapSet_strong _ _ _ (e, d) hmem with hpe | ⟨hpm, hpk⟩
    · exact absurd (congrArg Prod.snd hpe) hd
    · have hene : eid ≠ e := fun hc => hpk hc.symm
      obtain ⟨hc1, hc2⟩ := h.cover e d hpm hd
      constructor
      · rcases hc1 with hx | hx
        · exact Or.inl hx
        · right
          rw [despawnW_pending_ne s eid e hene]
          exact hx
      · intro j c hj hb hsz hcE
        rw [despawnW_pending_ne s eid e hene]
        have hj' : s.components.get? j = some c := by
          rw [← hf2]
          exact hj
        exact hc2 j c hj' hb hsz hcE

/-- The freshly created world is location/column consistent. -/
theorem CoreInv_initWorld : CoreInv initWorld := by
  refine ⟨BaseInv_initWorld, ?_, ?_, ?_, ?_, ?_, ?_, ?_, ?_, ?_, ?_, ?_⟩
  · intro i h0 hi
    simp only [initWorld, List.length_singleton] at hi
    omega
  · intro i hi j hj
    simp only [initWorld, List.length_singleton] at hi
    interval_cases i
    simp [initWorld, createTable, mkTable] at hj
  · intro i hi j hj r hr
    simp only [initWorld, List.length_singleton] at hi
    interval_cases i
    simp [initWorld, createTable, mkTable] at hj
  · intro i h0 hi r hr
    simp only [initWorld, List.length_singleton] at hi
    omega
  · intro e he
    exact absurd rfl he
  · intro e _
    rfl
  · intro p hp
    exact absurd hp (List.not_mem_nil p)
  · intro e _
    exact ⟨rfl, rfl, rfl⟩
  · intro p hp
    exact absurd hp (List.not_mem_nil p)
  · intro p hp
    exact absurd hp (List.not_mem_nil p)
  · intro e d hmem _
    exact absurd hmem (List.not_mem_nil (e, d))

/-- A well-formed API call preserves location/column consistency. -/
theorem CoreInv_applyOp_wf (s : WorldState) (op : Op) (h : CoreInv s)
    (hwf : wfOp s op = true) : CoreInv (applyOp s op) := by
  cases op with
  | spawn cs => exact CoreInv_spawnW s cs h hwf
  | insert eid v => exact CoreInv_insertW s eid v h hwf
  | remove eid c => exact CoreInv_removeW s eid c h hwf
  | despawn eid => exact CoreInv_despawnW s eid h hwf
  | flush => exact CoreInv_flushW s h

/-- Location/column consistency holds after every well-formed sequence of
API calls. -/
theorem CoreInv_applyOps_wf (ops : List Op) (s : WorldState) (h : CoreInv s)
    (hwf : wfOps s ops = true) : CoreInv (applyOps s ops) := by
  induction ops generalizing s with
  | nil => exact h
  | cons op rest ih =>
      simp only [wfOps] at hwf
      rw [Bool.and_eq_true] at hwf
      simp only [applyOps, List.foldl_cons]
      exact ih (applyOp s op) (CoreInv_applyOp_wf s op h hwf.1) hwf.2

/-- The insert-after-despawn sequence of the C1 counterexample: the entity is
revived into a table whose archetype lacks the Entity base bit. -/
def cx1ops : List Op := [.spawn [], .flush, .despawn 0, .flush,
  .insert 0 (pos 5), .flush]

/-- The S3 scenario: three entities with `Position`, flush, despawn the
middle one (the trailing flush is taken by `flushW` in the statements). -/
def s3ops : List Op := [.spawn [pos 1], .spawn [pos 2], .spawn [pos 3],
  .flush, .despawn 1]

/-- C1 (counterexample to the claim as stated): for the sequence
`spawn; flush; despawn; flush; insert(Position); flush` — spawn/insert/
despawn calls each followed by `flush` — entity 0 ends at a non-sentinel
location whose table has no `Entity` column at all, so
`table(e.location.tableId).entityColumn[e.location.tableRow] === e` fails:
the claim is false for arbitrary call sequences because `insert` on a
despawned entity stages an archetype without the Entity base bit. -/
theorem c1_claim_counterexample :
    ((applyOps initWorld cx1ops).locs 0).tableId ≠ 0
    ∧ ((applyOps initWorld cx1ops).tables.getD
        ((applyOps initWorld cx1ops).locs 0).tableId default).getColumn
        EntityC = none
    ∧ (((applyOps initWorld cx1ops).tables.getD
        ((applyOps initWorld cx1ops).locs 0).tableId default).columns.getD
        0 []).get? ((applyOps initWorld cx1ops).locs 0).tableRow
      ≠ some (some (Value.ent 0)) := by decide

/-- C1 (amended): location consistency after flush for well-formed call
sequences (`insert`/`remove` only on live, already-allocated entities —
which the `Entity`-instance guard of the public API enforces): after any
such sequence followed by `Entities.flush()`, every entity at a non-sentinel
location sits in a single in-range row, the `Entity` column of the table
named by its location holds the entity itself at `location.tableRow`, and no
other entity shares that location.  In the S3 scenario (three `Position`
entities, flush, despawn the middle one, flush), the survivors are E0 at row
0 and E2 at row 1 of the Position table — the swap-remove back-fill — with
`E2.location.tableRow = 1`. -/
theorem c1_location_consistency (ops : List Op)
    (hwf : wfOps initWorld ops = true) :
    (∀ e, ((flushW (applyOps initWorld ops)).locs e).tableId ≠ 0 →
        ((flushW (applyOps initWorld ops)).locs e).tableRow
            < Table.length ((flushW (applyOps initWorld ops)).tables.getD
              ((flushW (applyOps initWorld ops)).locs e).tableId default)
        ∧ (((flushW (applyOps initWorld ops)).tables.getD
              ((flushW (applyOps initWorld ops)).locs e).tableId
              default).columns.getD 0 []).get?
            ((flushW (applyOps initWorld ops)).locs e).tableRow
          = some (some (Value.ent e))
        ∧ (∀ e', (flushW (applyOps initWorld ops)).locs e'
              = (flushW (applyOps initWorld ops)).locs e → e' = e))
    ∧ (flushW (applyOps initWorld s3ops)).locs 0 = ⟨1, 0⟩
    ∧ (flushW (applyOps initWorld s3ops)).locs 2 = ⟨1, 1⟩
    ∧ ((flushW (applyOps initWorld s3ops)).tables.getD 1 default).columns
        = [[some (Value.ent 0), some (Value.ent 2)],
           [some (pos 1), some (pos 3)]] := by
  have hc : CoreInv (flushW (applyOps initWorld ops)) :=
    CoreInv_flushW _ (CoreInv_applyOps_wf ops initWorld CoreInv_initWorld hwf)
  refine ⟨?_, by decide, by decide, by decide⟩
  intro e he
  obtain ⟨hr, hcell⟩ := hc.locA e he
  refine ⟨hr, hcell, ?_⟩
  intro e' heq
  exact CoreInv.loc_inj _ hc e' e (by rw [heq]; exact he) heq

/-- C1 witness: the S3 scenario is well-formed, entity 2 is live after the
final flush, and the theorem places it in the Entity column at its row. -/
theorem c1_location_consistency_witness :
    wfOps initWorld s3ops = true
    ∧ ((flushW (applyOps initWorld s3ops)).locs 2).tableId ≠ 0
    ∧ (((flushW (applyOps initWorld s3ops)).tables.getD
        ((flushW (applyOps initWorld s3ops)).locs 2).tableId
        default).columns.getD 0 []).get?
        ((flushW (applyOps initWorld s3ops)).locs 2).tableRow
      = some (some (Value.ent 2)) :=
  ⟨by decide, by decide,
    ((c1_location_consistency s3ops (by decide)).1 2 (by decide)).2.1⟩
